import Mathlib

/-!
# Verification of `advanced-vector/vector.h` and `simple-vector/simple_vector.h`

A shallow embedding of `RawMemory<T>` and `Vector<T>`, followed by one of `SimpleVector<Type>`.

* Pointers are natural numbers (addresses counted in units of `sizeof(T)`, `0` is `nullptr`).
* The free store is `World.heap : Nat → Option T`: `none` is raw (uninitialised) storage,
  `some x` is a live object of value `x`. The cells below `World.brk` are the storage handed
  out so far; constructing an object at or beyond `brk` is undefined behaviour.
* `size_t` has 64 bits: the product `n * sizeof(T)` of `RawMemory::Allocate` is taken
  modulo `2 ^ 64`, so a request whose byte count wraps obtains a block of fewer than `n` cells.
* `RawMemory` and `Vector` keep exactly the fields they have in the source
  (`buffer_`, `capacity_`, `data_`, `size_`); element storage lives in the heap.
* A call returns a `Res`: a value, a propagated C++ exception, or `abort`
  (a failed `assert`, a use of an object outside its lifetime, or a construction outside the
  storage handed out).
* `operator new` and the element operations that may throw (construction from
  arguments, copy construction, value-initialisation, copy assignment) consult a fault
  schedule `Faults`, indexed by the number of such calls made so far
  (an element type "that throws on its N-th construction").
  Move construction, move assignment and destructors do not throw.
* `SimpleVector<Type>` owns an array of `Type` objects that are all live, so its storage is a
  list of values and its iterators are indices from `begin()`.
-/

set_option linter.unusedTactic false
set_option linter.unreachableTactic false
set_option linter.unusedVariables false

namespace AdvancedVector

/-- The exceptions that can leave the container. -/
inductive Exn
  | bad_alloc
  | elem_ctor
  deriving DecidableEq, Repr

/-- Result of a call: normal return, exception, or abort (failed assertion / undefined behaviour). -/
inductive Res (α : Type)
  | ok (a : α)
  | throw (e : Exn)
  | abort
  deriving DecidableEq, Repr

/-- Fault schedule: which allocation attempt and which throwing-capable element operation
(constructor call or copy assignment) fails. -/
structure Faults where
  bad_alloc : Nat → Bool
  ctor_throws : Nat → Bool

/-- The schedule in which nothing ever throws. -/
def Faults.none : Faults := ⟨fun _ => false, fun _ => false⟩

/-- Static properties of the element type `T` used by the container. -/
structure ElemType (T : Type) where
  nothrow_move_constructible : Bool
  copy_constructible : Bool
  moved_from : T → T
  value_init : T

/-- Free store, instrumentation counters, and `sizeof(T)` in bytes. -/
@[ext]
structure World (T : Type) where
  heap : Nat → Option T
  brk : Nat
  nAlloc : Nat
  nFree : Nat
  nCtor : Nat
  constructed : Nat
  destroyed : Nat
  sizeof_T : Nat

variable {T : Type}

/-- Heap with the cell at `p` replaced by `c`. -/
def upd (h : Nat → Option T) (p : Nat) (c : Option T) : Nat → Option T :=
  fun a => if a = p then c else h a

/-! ## Language primitives -/

/-- The product `n * sizeof(T)` wraps in the 64-bit `size_t`. On a 64-bit machine the storage
handed out so far, `brk * sizeof(T)` bytes, is less than half of the address space
(`(2 * brk + 1) * sizeof(T) < 2 ^ 64`); a world that violates this has no counterpart on such a
machine, and in it no product is taken to wrap. -/
def World.wraps (w : World T) (n : Nat) : Prop :=
  2 ^ 64 ≤ n * w.sizeof_T ∧ (2 * w.brk + 1) * w.sizeof_T < 2 ^ 64

instance (w : World T) (n : Nat) : Decidable (w.wraps n) :=
  inferInstanceAs (Decidable (2 ^ 64 ≤ n * w.sizeof_T ∧ (2 * w.brk + 1) * w.sizeof_T < 2 ^ 64))

/-- Number of cells of the block requested by `operator new(n * sizeof(T))`, the product being
computed in `size_t`: `n` cells when it does not wrap, otherwise the whole cells that fit in
`n * sizeof(T) mod 2 ^ 64` bytes. -/
def World.block_cells (w : World T) (n : Nat) : Nat :=
  if w.wraps n then n * w.sizeof_T % 2 ^ 64 / w.sizeof_T else n

/-- Models `operator new` for a byte count of `n` cells: a fresh block of `n` raw cells at the
break, or `bad_alloc`. -/
def operator_new (F : Faults) (n : Nat) (w : World T) : Res Nat × World T :=
  if F.bad_alloc w.nAlloc then
    (.throw .bad_alloc, { w with nAlloc := w.nAlloc + 1 })
  else
    (.ok w.brk,
      { w with
        heap := fun a => if w.brk ≤ a ∧ a < w.brk + n then Option.none else w.heap a
        brk := w.brk + n
        nAlloc := w.nAlloc + 1 })

/-- Models `operator delete(buf)`: releases the block, touching no element; a null pointer is ignored. -/
def operator_delete (buf : Nat) (w : World T) : World T :=
  if buf = 0 then w else { w with nFree := w.nFree + 1 }

/-- Models `new (p) T(args...)` where the constructor yields the value `x` and may throw;
`p` has to point into the storage handed out by `operator new`. -/
def construct_at (F : Faults) (p : Nat) (x : T) (w : World T) : Res Unit × World T :=
  if p < w.brk then
    if F.ctor_throws w.nCtor then
      (.throw .elem_ctor, { w with nCtor := w.nCtor + 1 })
    else
      (.ok (),
        { w with
          heap := upd w.heap p (some x)
          nCtor := w.nCtor + 1
          constructed := w.constructed + 1 })
  else
    -- no storage at `p`
    (.abort, w)

/-- Models `new (p) T(*src)`: copy construction from the live object at `src`. -/
def copy_construct_at (F : Faults) (p src : Nat) (w : World T) : Res Unit × World T :=
  match w.heap src with
  | some y => construct_at F p y w
  | Option.none => (.abort, w)

/-- Models `new (p) T(std::move(*src))`: never throws, leaves `*src` in its moved-from state. -/
def move_construct_at (E : ElemType T) (p src : Nat) (w : World T) : Res Unit × World T :=
  if p < w.brk then
    match w.heap src with
    | some y =>
      (.ok (),
        { w with
          heap := upd (upd w.heap p (some y)) src (some (E.moved_from y))
          constructed := w.constructed + 1 })
    | Option.none => (.abort, w)
  else
    -- no storage at `p`
    (.abort, w)

/-- Models `*dst = std::move(*src)` between two live objects. -/
def move_assign (E : ElemType T) (dst src : Nat) (w : World T) : Res Unit × World T :=
  match w.heap src, w.heap dst with
  | some y, some _ =>
    (.ok (), { w with heap := upd (upd w.heap dst (some y)) src (some (E.moved_from y)) })
  | _, _ => (.abort, w)

/-- Models `*dst = *src` (copy assignment) between two live objects; it may throw, and then
leaves `*dst` as it was. -/
def copy_assign_at (F : Faults) (dst src : Nat) (w : World T) : Res Unit × World T :=
  match w.heap src, w.heap dst with
  | some y, some _ =>
    if F.ctor_throws w.nCtor then
      (.throw .elem_ctor, { w with nCtor := w.nCtor + 1 })
    else
      (.ok (), { w with heap := upd w.heap dst (some y), nCtor := w.nCtor + 1 })
  | _, _ => (.abort, w)

/-- Models `std::destroy_at(p)`: ends the lifetime of the live object at `p`. -/
def destroy_at (p : Nat) (w : World T) : Res Unit × World T :=
  match w.heap p with
  | some _ => (.ok (), { w with heap := upd w.heap p Option.none, destroyed := w.destroyed + 1 })
  | Option.none => (.abort, w)

/-- Models the declaration `T temporary(args...)` of a local object of value `x`. -/
def construct_local (F : Faults) (x : T) (w : World T) : Res T × World T :=
  if F.ctor_throws w.nCtor then
    (.throw .elem_ctor, { w with nCtor := w.nCtor + 1 })
  else
    (.ok x, { w with nCtor := w.nCtor + 1, constructed := w.constructed + 1 })

/-- Models `*dst = std::move(temporary)` for a local object holding `x`; `*dst` must be live. -/
def move_assign_local (dst : Nat) (x : T) (w : World T) : Res Unit × World T :=
  match w.heap dst with
  | some _ => (.ok (), { w with heap := upd w.heap dst (some x) })
  | Option.none => (.abort, w)

/-- The destructor of a local element object at scope exit. -/
def destroy_local (w : World T) : World T :=
  { w with destroyed := w.destroyed + 1 }

/-! ## Standard-library algorithms used by the container -/

/-- Models `std::destroy_n(first, n)`. -/
def destroy_n : Nat → Nat → World T → Res Unit × World T
  | _, 0, w => (.ok (), w)
  | first, n + 1, w =>
    match destroy_at first w with
    | (.ok _, w1) => destroy_n (first + 1) n w1
    | (.throw e, w1) => (.throw e, w1)
    | (.abort, w1) => (.abort, w1)

/-- Models `std::uninitialized_copy_n(first, n, d_first)`: if a copy throws, the objects already
constructed by the call are destroyed and the exception is rethrown. -/
def uninitialized_copy_n (F : Faults) : Nat → Nat → Nat → World T → Res Unit × World T
  | _, 0, _, w => (.ok (), w)
  | first, n + 1, d_first, w =>
    match copy_construct_at F d_first first w with
    | (.ok _, w1) =>
      match uninitialized_copy_n F (first + 1) n (d_first + 1) w1 with
      | (.ok _, w2) => (.ok (), w2)
      | (.throw e, w2) => (.throw e, (destroy_at d_first w2).2)
      | (.abort, w2) => (.abort, w2)
    | (.throw e, w1) => (.throw e, w1)
    | (.abort, w1) => (.abort, w1)

/-- Models `std::uninitialized_move_n(first, n, d_first)` for a move constructor that does not throw. -/
def uninitialized_move_n (E : ElemType T) : Nat → Nat → Nat → World T → Res Unit × World T
  | _, 0, _, w => (.ok (), w)
  | first, n + 1, d_first, w =>
    match move_construct_at E d_first first w with
    | (.ok _, w1) => uninitialized_move_n E (first + 1) n (d_first + 1) w1
    | (.throw e, w1) => (.throw e, w1)
    | (.abort, w1) => (.abort, w1)

/-- Models `std::uninitialized_value_construct_n(first, n)`, with the same clean-up on a throw as
`uninitialized_copy_n`. -/
def uninitialized_value_construct_n (E : ElemType T) (F : Faults) :
    Nat → Nat → World T → Res Unit × World T
  | _, 0, w => (.ok (), w)
  | first, n + 1, w =>
    match construct_at F first E.value_init w with
    | (.ok _, w1) =>
      match uninitialized_value_construct_n E F (first + 1) n w1 with
      | (.ok _, w2) => (.ok (), w2)
      | (.throw e, w2) => (.throw e, (destroy_at first w2).2)
      | (.abort, w2) => (.abort, w2)
    | (.throw e, w1) => (.throw e, w1)
    | (.abort, w1) => (.abort, w1)

/-- Models `std::copy_n(first, n, d_first)`: `n` forward copy-assignments. -/
def copy_n (F : Faults) : Nat → Nat → Nat → World T → Res Unit × World T
  | _, 0, _, w => (.ok (), w)
  | first, n + 1, d_first, w =>
    match copy_assign_at F d_first first w with
    | (.ok _, w1) => copy_n F (first + 1) n (d_first + 1) w1
    | (.throw e, w1) => (.throw e, w1)
    | (.abort, w1) => (.abort, w1)

/-- Loop of `std::move(first, last, d_first)`: `n` forward move-assignments. -/
def move_n (E : ElemType T) : Nat → Nat → Nat → World T → Res Unit × World T
  | _, 0, _, w => (.ok (), w)
  | first, n + 1, d_first, w =>
    match move_assign E d_first first w with
    | (.ok _, w1) => move_n E (first + 1) n (d_first + 1) w1
    | (.throw e, w1) => (.throw e, w1)
    | (.abort, w1) => (.abort, w1)

/-- Models `std::move(first, last, d_first)` (the algorithm). -/
def std_move (E : ElemType T) (first last d_first : Nat) (w : World T) : Res Unit × World T :=
  move_n E first (last - first) d_first w

/-- Loop of `std::move_backward`: `n` move-assignments `*(--d_last) = std::move(*(--last))`. -/
def move_backward_n (E : ElemType T) : Nat → Nat → Nat → World T → Res Unit × World T
  | _, 0, _, w => (.ok (), w)
  | last, n + 1, d_last, w =>
    match move_assign E (d_last - 1) (last - 1) w with
    | (.ok _, w1) => move_backward_n E (last - 1) n (d_last - 1) w1
    | (.throw e, w1) => (.throw e, w1)
    | (.abort, w1) => (.abort, w1)

/-- Models `std::move_backward(first, last, d_last)`. -/
def move_backward (E : ElemType T) (first last d_last : Nat) (w : World T) : Res Unit × World T :=
  move_backward_n E last (last - first) d_last w

/-! ## `RawMemory<T>` -/

/-- The class `RawMemory<T>`: address of the block and its capacity in elements. -/
structure RawMemory where
  buffer_ : Nat
  capacity_ : Nat
  deriving DecidableEq, Repr

namespace RawMemory

/-- `RawMemory::Allocate(n)`: `n != 0 ? operator new(n * sizeof(T)) : nullptr`, the product
taken in `size_t`. -/
def Allocate (F : Faults) (n : Nat) (w : World T) : Res Nat × World T :=
  if n ≠ 0 then operator_new F (w.block_cells n) w else (.ok 0, w)

/-- `RawMemory::Deallocate(buf)`. -/
def Deallocate (buf : Nat) (w : World T) : World T :=
  operator_delete buf w

/-- Default constructor `RawMemory()`: null buffer, capacity `0`. -/
def default : RawMemory := ⟨0, 0⟩

/-- Constructor `RawMemory(size_t capacity)`. -/
def ctor (F : Faults) (capacity : Nat) (w : World T) : Res RawMemory × World T :=
  match Allocate F capacity w with
  | (.ok buf, w1) => (.ok ⟨buf, capacity⟩, w1)
  | (.throw e, w1) => (.throw e, w1)
  | (.abort, w1) => (.abort, w1)

/-- Destructor `~RawMemory()`. -/
def dtor (m : RawMemory) (w : World T) : World T :=
  Deallocate m.buffer_ w

/-- `RawMemory::operator+(offset)` with its `assert(offset <= capacity_)`. -/
def add (m : RawMemory) (offset : Nat) : Res Nat :=
  if offset ≤ m.capacity_ then .ok (m.buffer_ + offset) else .abort

/-- `RawMemory::operator[](index)` with its `assert(index < capacity_)`; yields the slot address. -/
def index (m : RawMemory) (i : Nat) : Res Nat :=
  if i < m.capacity_ then .ok (m.buffer_ + i) else .abort

/-- `RawMemory::Swap(other)`: returns the new `*this` and the new `other`. -/
def Swap (m other : RawMemory) : RawMemory × RawMemory :=
  (other, m)

/-- `RawMemory::GetAddress()`. -/
def GetAddress (m : RawMemory) : Nat := m.buffer_

/-- `RawMemory::Capacity()`. -/
def Capacity (m : RawMemory) : Nat := m.capacity_

end RawMemory

/-! ## `Vector<T>` -/

/-- The class `Vector<T>`. -/
structure Vector where
  data_ : RawMemory
  size_ : Nat
  deriving DecidableEq, Repr

namespace Vector

/-- Default constructor `Vector()`. -/
def default : Vector := ⟨RawMemory.default, 0⟩

/-- `Vector::Size()`. -/
def Size (v : Vector) : Nat := v.size_

/-- `Vector::Capacity()`. -/
def Capacity (v : Vector) : Nat := v.data_.Capacity

/-- `Vector::begin()`. -/
def begin (v : Vector) : Nat := v.data_.GetAddress

/-- `Vector::end()`: `data_ + size_`. -/
def «end» (v : Vector) : Res Nat := v.data_.add v.size_

/-- `Vector::MoveCnstrN(from, n, to)`. -/
def MoveCnstrN (E : ElemType T) (F : Faults) («from» n «to» : Nat) (w : World T) :
    Res Unit × World T :=
  if E.nothrow_move_constructible || !E.copy_constructible then
    uninitialized_move_n E «from» n «to» w
  else
    uninitialized_copy_n F «from» n «to» w

/-- `Vector::Swap(other)`: returns the new `*this` and the new `other`. -/
def Swap (v other : Vector) : Vector × Vector :=
  let d := v.data_.Swap other.data_
  (⟨d.1, other.size_⟩, ⟨d.2, v.size_⟩)

/-- Constructor `Vector(size_t size)`. -/
def ctor_sized (E : ElemType T) (F : Faults) (size : Nat) (w : World T) :
    Res Vector × World T :=
  match RawMemory.ctor F size w with
  | (.ok data_, w1) =>
    match uninitialized_value_construct_n E F data_.GetAddress size w1 with
    | (.ok _, w2) => (.ok ⟨data_, size⟩, w2)
    | (.throw e, w2) => (.throw e, data_.dtor w2)
    | (.abort, w2) => (.abort, w2)
  | (.throw e, w1) => (.throw e, w1)
  | (.abort, w1) => (.abort, w1)

/-- Copy constructor `Vector(const Vector& other)`. -/
def ctor_copy (F : Faults) (other : Vector) (w : World T) : Res Vector × World T :=
  match RawMemory.ctor F other.size_ w with
  | (.ok data_, w1) =>
    match uninitialized_copy_n F other.data_.GetAddress other.size_ data_.GetAddress w1 with
    | (.ok _, w2) => (.ok ⟨data_, other.size_⟩, w2)
    | (.throw e, w2) => (.throw e, data_.dtor w2)
    | (.abort, w2) => (.abort, w2)
  | (.throw e, w1) => (.throw e, w1)
  | (.abort, w1) => (.abort, w1)

/-- Move constructor `Vector(Vector&& other)`: the members are default-initialised, then
`Swap(other)`; returns the new vector and `other`. -/
def ctor_move (other : Vector) : Vector × Vector :=
  Swap default other

/-- Destructor `~Vector()`: `destroy_n(data_.GetAddress(), size_)`, then the destructor of
`data_`. -/
def dtor (v : Vector) (w : World T) : Res Unit × World T :=
  match destroy_n v.data_.GetAddress v.size_ w with
  | (.ok _, w1) => (.ok (), v.data_.dtor w1)
  | (.throw e, w1) => (.throw e, w1)
  | (.abort, w1) => (.abort, w1)

/-- `Vector::operator[](index)` with its `assert(index < size_)`; yields the element address. -/
def subscript (v : Vector) (index : Nat) : Res Nat :=
  if index < v.size_ then v.data_.index index else .abort

/-- Copy assignment `operator=(const Vector& other)`; `same` is the truth value of
`this == &other`. -/
def operator_assign (F : Faults) (same : Bool) (v other : Vector) (w : World T) :
    Res Unit × Vector × World T :=
  if !same then
    if other.size_ > v.data_.Capacity then
      match ctor_copy F other w with
      | (.ok buf, w1) =>
        let s := Swap v buf
        -- `buf` goes out of scope
        match dtor s.2 w1 with
        | (.ok _, w2) => (.ok (), s.1, w2)
        | (.throw e, w2) => (.throw e, s.1, w2)
        | (.abort, w2) => (.abort, s.1, w2)
      | (.throw e, w1) => (.throw e, v, w1)
      | (.abort, w1) => (.abort, v, w1)
    else
      match copy_n F other.data_.GetAddress (min v.size_ other.size_) v.data_.GetAddress w with
      | (.ok _, w1) =>
        if v.size_ > other.size_ then
          match v.data_.add other.size_ with
          | .ok first =>
            match destroy_n first (v.size_ - other.size_) w1 with
            | (.ok _, w2) => (.ok (), { v with size_ := other.size_ }, w2)
            | (.throw e, w2) => (.throw e, v, w2)
            | (.abort, w2) => (.abort, v, w2)
          | .throw e => (.throw e, v, w1)
          | .abort => (.abort, v, w1)
        else
          match other.data_.add v.size_ with
          | .ok first =>
            match v.data_.add v.size_ with
            | .ok d_first =>
              match uninitialized_copy_n F first (other.size_ - v.size_) d_first w1 with
              | (.ok _, w2) => (.ok (), { v with size_ := other.size_ }, w2)
              | (.throw e, w2) => (.throw e, v, w2)
              | (.abort, w2) => (.abort, v, w2)
            | .throw e => (.throw e, v, w1)
            | .abort => (.abort, v, w1)
          | .throw e => (.throw e, v, w1)
          | .abort => (.abort, v, w1)
      | (.throw e, w1) => (.throw e, v, w1)
      | (.abort, w1) => (.abort, v, w1)
  else
    (.ok (), v, w)

/-- Move assignment `operator=(Vector&& other)`; `same` is the truth value of `this == &other`;
returns the new `*this` and the new `other`. -/
def operator_assign_move (same : Bool) (v other : Vector) : Vector × Vector :=
  if !same then Swap v other else (v, other)

/-- `Vector::Reserve(new_capacity)`. -/
def Reserve (E : ElemType T) (F : Faults) (new_capacity : Nat) (v : Vector) (w : World T) :
    Res Unit × Vector × World T :=
  if new_capacity ≤ v.data_.Capacity then
    (.ok (), v, w)
  else
    match RawMemory.ctor F new_capacity w with
    | (.ok new_data, w1) =>
      match MoveCnstrN E F v.data_.GetAddress v.size_ new_data.GetAddress w1 with
      | (.ok _, w2) =>
        match destroy_n v.data_.GetAddress v.size_ w2 with
        | (.ok _, w3) =>
          let d := v.data_.Swap new_data
          (.ok (), { v with data_ := d.1 }, d.2.dtor w3)
        | (.throw e, w3) => (.throw e, v, new_data.dtor w3)
        | (.abort, w3) => (.abort, v, w3)
      | (.throw e, w2) => (.throw e, v, new_data.dtor w2)
      | (.abort, w2) => (.abort, v, w2)
    | (.throw e, w1) => (.throw e, v, w1)
    | (.abort, w1) => (.abort, v, w1)

/-- `Vector::Resize(new_size)`. -/
def Resize (E : ElemType T) (F : Faults) (new_size : Nat) (v : Vector) (w : World T) :
    Res Unit × Vector × World T :=
  if new_size > v.size_ then
    match Reserve E F new_size v w with
    | (.ok _, v1, w1) =>
      match uninitialized_value_construct_n E F (v1.data_.GetAddress + v1.size_)
          (new_size - v1.size_) w1 with
      | (.ok _, w2) => (.ok (), { v1 with size_ := new_size }, w2)
      | (.throw e, w2) => (.throw e, v1, w2)
      | (.abort, w2) => (.abort, v1, w2)
    | (.throw e, v1, w1) => (.throw e, v1, w1)
    | (.abort, v1, w1) => (.abort, v1, w1)
  else
    match destroy_n (v.data_.GetAddress + new_size) (v.size_ - new_size) w with
    | (.ok _, w1) => (.ok (), { v with size_ := new_size }, w1)
    | (.throw e, w1) => (.throw e, v, w1)
    | (.abort, w1) => (.abort, v, w1)

/-- `Vector::PopBack()`. -/
def PopBack (v : Vector) (w : World T) : Res Unit × Vector × World T :=
  if v.size_ > 0 then
    match destroy_at (v.data_.GetAddress + v.size_ - 1) w with
    | (.ok _, w1) => (.ok (), { v with size_ := v.size_ - 1 }, w1)
    | (.throw e, w1) => (.throw e, v, w1)
    | (.abort, w1) => (.abort, v, w1)
  else
    (.ok (), v, w)

/-- `Vector::EmplaceBack(args...)`, where `T(args...)` yields `x`; returns the address of the
new element. -/
def EmplaceBack (E : ElemType T) (F : Faults) (x : T) (v : Vector) (w : World T) :
    Res Nat × Vector × World T :=
  if v.size_ = v.Capacity then
    match RawMemory.ctor F (if v.size_ = 0 then 1 else v.size_ * 2) w with
    | (.ok new_data, w1) =>
      match new_data.add v.size_ with
      | .ok emplace =>
        match construct_at F emplace x w1 with
        | (.ok _, w2) =>
          match
            (if E.nothrow_move_constructible || !E.copy_constructible then
              uninitialized_move_n E v.data_.GetAddress v.size_ new_data.GetAddress w2
            else
              match uninitialized_copy_n F v.data_.GetAddress v.size_ new_data.GetAddress w2 with
              | (.ok _, w3) => (.ok (), w3)
              | (.throw e, w3) =>
                -- catch (...) { std::destroy_n(new_data.GetAddress() + size_, 1); throw; }
                (.throw e, (destroy_n (new_data.GetAddress + v.size_) 1 w3).2)
              | (.abort, w3) => (.abort, w3)) with
          | (.ok _, w3) =>
            match destroy_n v.data_.GetAddress v.size_ w3 with
            | (.ok _, w4) =>
              let d := v.data_.Swap new_data
              (.ok emplace, { data_ := d.1, size_ := v.size_ + 1 }, d.2.dtor w4)
            | (.throw e, w4) => (.throw e, v, new_data.dtor w4)
            | (.abort, w4) => (.abort, v, w4)
          | (.throw e, w3) => (.throw e, v, new_data.dtor w3)
          | (.abort, w3) => (.abort, v, w3)
        | (.throw e, w2) => (.throw e, v, new_data.dtor w2)
        | (.abort, w2) => (.abort, v, w2)
      | .throw e => (.throw e, v, w1)
      | .abort => (.abort, v, w1)
    | (.throw e, w1) => (.throw e, v, w1)
    | (.abort, w1) => (.abort, v, w1)
  else
    match v.data_.add v.size_ with
    | .ok emplace =>
      match construct_at F emplace x w with
      | (.ok _, w1) => (.ok emplace, { v with size_ := v.size_ + 1 }, w1)
      | (.throw e, w1) => (.throw e, v, w1)
      | (.abort, w1) => (.abort, v, w1)
    | .throw e => (.throw e, v, w)
    | .abort => (.abort, v, w)

/-- `Vector::PushBack(value)`: forwards to `EmplaceBack`. -/
def PushBack (E : ElemType T) (F : Faults) (value : T) (v : Vector) (w : World T) :
    Res Unit × Vector × World T :=
  match EmplaceBack E F value v w with
  | (.ok _, v1, w1) => (.ok (), v1, w1)
  | (.throw e, v1, w1) => (.throw e, v1, w1)
  | (.abort, v1, w1) => (.abort, v1, w1)

/-- `Vector::Emplace(pos, args...)`, where `T(args...)` yields `x`; returns the iterator to the
inserted element. -/
def Emplace (E : ElemType T) (F : Faults) (pos : Nat) (x : T) (v : Vector) (w : World T) :
    Res Nat × Vector × World T :=
  match v.«end» with
  | .ok e =>
    -- assert(pos >= begin() && pos <= end());
    if v.begin ≤ pos ∧ pos ≤ e then
      let result := pos
      if result = e then
        EmplaceBack E F x v w
      else if v.size_ = v.Capacity then
        let distance := result - v.begin
        match RawMemory.ctor F (if v.size_ = 0 then 1 else v.size_ * 2) w with
        | (.ok new_data, w1) =>
          match new_data.add distance with
          | .ok slot =>
            match construct_at F slot x w1 with
            | (.ok _, w2) =>
              match MoveCnstrN E F v.begin distance new_data.GetAddress w2 with
              | (.ok _, w3) =>
                match MoveCnstrN E F result (e - result) (slot + 1) w3 with
                | (.ok _, w4) =>
                  match destroy_n v.begin v.size_ w4 with
                  | (.ok _, w5) =>
                    let d := v.data_.Swap new_data
                    let v1 : Vector := { data_ := d.1, size_ := v.size_ + 1 }
                    (.ok (v1.begin + distance), v1, d.2.dtor w5)
                  | (.throw ex, w5) => (.throw ex, v, new_data.dtor w5)
                  | (.abort, w5) => (.abort, v, w5)
                | (.throw ex, w4) => (.throw ex, v, new_data.dtor w4)
                | (.abort, w4) => (.abort, v, w4)
              | (.throw ex, w3) => (.throw ex, v, new_data.dtor w3)
              | (.abort, w3) => (.abort, v, w3)
            | (.throw ex, w2) => (.throw ex, v, new_data.dtor w2)
            | (.abort, w2) => (.abort, v, w2)
          | .throw ex => (.throw ex, v, w1)
          | .abort => (.abort, v, w1)
        | (.throw ex, w1) => (.throw ex, v, w1)
        | (.abort, w1) => (.abort, v, w1)
      else
        match construct_local F x w with
        | (.ok temporary, w1) =>
          match uninitialized_move_n E (e - 1) 1 e w1 with
          | (.ok _, w2) =>
            match move_backward E result (e - 1) e w2 with
            | (.ok _, w3) =>
              match move_assign_local result temporary w3 with
              | (.ok _, w4) => (.ok result, { v with size_ := v.size_ + 1 }, destroy_local w4)
              | (.throw ex, w4) => (.throw ex, v, destroy_local w4)
              | (.abort, w4) => (.abort, v, w4)
            | (.throw ex, w3) => (.throw ex, v, destroy_local w3)
            | (.abort, w3) => (.abort, v, w3)
          | (.throw ex, w2) => (.throw ex, v, destroy_local w2)
          | (.abort, w2) => (.abort, v, w2)
        | (.throw ex, w1) => (.throw ex, v, w1)
        | (.abort, w1) => (.abort, v, w1)
    else
      (.abort, v, w)
  | .throw ex => (.throw ex, v, w)
  | .abort => (.abort, v, w)

/-- `Vector::Insert(pos, value)` (both overloads): forwards to `Emplace`. -/
def Insert (E : ElemType T) (F : Faults) (pos : Nat) (value : T) (v : Vector) (w : World T) :
    Res Nat × Vector × World T :=
  Emplace E F pos value v w

/-- `Vector::Erase(pos)`. -/
def Erase (E : ElemType T) (pos : Nat) (v : Vector) (w : World T) :
    Res Nat × Vector × World T :=
  match v.«end» with
  | .ok e =>
    -- assert(pos >= begin() && pos < end());
    if v.begin ≤ pos ∧ pos < e then
      let dist := pos - v.begin
      match std_move E (v.begin + dist + 1) e (v.begin + dist) w with
      | (.ok _, w1) =>
        match PopBack v w1 with
        | (.ok _, v1, w2) => (.ok (v1.begin + dist), v1, w2)
        | (.throw ex, v1, w2) => (.throw ex, v1, w2)
        | (.abort, v1, w2) => (.abort, v1, w2)
      | (.throw ex, w1) => (.throw ex, v, w1)
      | (.abort, w1) => (.abort, v, w1)
    else
      (.abort, v, w)
  | .throw ex => (.throw ex, v, w)
  | .abort => (.abort, v, w)

end Vector

/-! ## Abstraction relation -/

/-- The vector `v` holds exactly the sequence `xs` in world `w`: the first `xs.length` slots of its
buffer are live with the values of `xs`, the remaining slots up to the capacity are raw, and the
buffer lies inside the allocated part of the free store. -/
def Holds (v : Vector) (w : World T) (xs : List T) : Prop :=
  v.size_ = xs.length ∧ xs.length ≤ v.data_.capacity_ ∧
    v.data_.buffer_ + v.data_.capacity_ ≤ w.brk ∧
    ∀ i, i < v.data_.capacity_ → w.heap (v.data_.buffer_ + i) = xs[i]?

instance [DecidableEq T] (v : Vector) (w : World T) (xs : List T) : Decidable (Holds v w xs) :=
  inferInstanceAs (Decidable (v.size_ = xs.length ∧ xs.length ≤ v.data_.capacity_ ∧
    v.data_.buffer_ + v.data_.capacity_ ≤ w.brk ∧
    ∀ i, i < v.data_.capacity_ → w.heap (v.data_.buffer_ + i) = xs[i]?))

/-- No allocation and no element constructor ever throws. -/
def Faults.NoThrow (F : Faults) : Prop :=
  (∀ k, F.bad_alloc k = false) ∧ (∀ k, F.ctor_throws k = false)

/-- Discards the value returned by a call. -/
def Res.void {α : Type} : Res α → Res Unit
  | .ok _ => .ok ()
  | .throw e => .throw e
  | .abort => .abort

/-! ## Call sequences -/

/-- A call of `PushBack` or of `PopBack`. -/
inductive StackCall (T : Type)
  | PushBack (value : T)
  | PopBack

/-- Performs one call of a `PushBack`/`PopBack` sequence. -/
def StackCall.apply (E : ElemType T) (F : Faults) :
    StackCall T → Vector → World T → Res Unit × Vector × World T
  | .PushBack value, v, w => Vector.PushBack E F value v w
  | .PopBack, v, w => Vector.PopBack v w

/-- Performs the calls in order; the first call that does not return normally ends the run. -/
def runCalls (E : ElemType T) (F : Faults) :
    List (StackCall T) → Vector → World T → Res Unit × Vector × World T
  | [], v, w => (.ok (), v, w)
  | c :: cs, v, w =>
    match c.apply E F v w with
    | (.ok _, v1, w1) => runCalls E F cs v1 w1
    | (.throw e, v1, w1) => (.throw e, v1, w1)
    | (.abort, v1, w1) => (.abort, v1, w1)

/-- Size predicted for a call sequence: `+1` per `PushBack`, saturating `-1` per `PopBack`. -/
def sizeAfter (cs : List (StackCall T)) (s : Nat) : Nat :=
  cs.foldl (fun n c => match c with
    | .PushBack _ => n + 1
    | .PopBack => n - 1) s

/-- An element-mutating call; positions are given as offsets from `begin()`. -/
inductive Mutation (T : Type)
  | PushBack (value : T)
  | EmplaceBack (value : T)
  | PopBack
  | Emplace (index : Nat) (value : T)
  | Insert (index : Nat) (value : T)
  | Erase (index : Nat)
  | Resize (new_size : Nat)

/-- Performs one element-mutating call. -/
def Mutation.apply (E : ElemType T) (F : Faults) :
    Mutation T → Vector → World T → Res Unit × Vector × World T
  | .PushBack value, v, w => Vector.PushBack E F value v w
  | .EmplaceBack value, v, w =>
    let r := Vector.EmplaceBack E F value v w
    (r.1.void, r.2)
  | .PopBack, v, w => Vector.PopBack v w
  | .Emplace index value, v, w =>
    let r := Vector.Emplace E F (v.begin + index) value v w
    (r.1.void, r.2)
  | .Insert index value, v, w =>
    let r := Vector.Insert E F (v.begin + index) value v w
    (r.1.void, r.2)
  | .Erase index, v, w =>
    let r := Vector.Erase E (v.begin + index) v w
    (r.1.void, r.2)
  | .Resize new_size, v, w => Vector.Resize E F new_size v w

/-- The outcome and state after each call of a sequence of mutations, every call starting from
the state the previous one left. -/
def trace (E : ElemType T) (F : Faults) :
    List (Mutation T) → Vector → World T → List (Res Unit × Vector × World T)
  | [], _, _ => []
  | m :: ms, v, w =>
    let r := m.apply E F v w
    r :: trace E F ms r.2.1 r.2.2

/-- The size a mutation aims at when called on a vector of size `s`: the size the vector has when
the call returns normally. -/
def Mutation.target : Mutation T → Nat → Nat
  | .PushBack _, s => s + 1
  | .EmplaceBack _, s => s + 1
  | .PopBack, s => s - 1
  | .Emplace _ _, s => s + 1
  | .Insert _ _, s => s + 1
  | .Erase _, s => s - 1
  | .Resize new_size, _ => new_size

/-- The sizes aimed at by the calls of a sequence of mutations, every call starting from the
state the previous one left. -/
def targets (E : ElemType T) (F : Faults) :
    List (Mutation T) → Vector → World T → List Nat
  | [], _, _ => []
  | m :: ms, v, w =>
    m.target v.Size :: targets E F ms (m.apply E F v w).2.1 (m.apply E F v w).2.2

/-! ## Concrete states used as examples -/

/-- An element type relocated by copying: `int`-like values, value-initialised to `0`. -/
def copyElem : ElemType Nat := ⟨false, true, fun _ => 0, 0⟩

/-- An element type relocated by moving. -/
def moveElem : ElemType Nat := ⟨true, true, fun _ => 0, 0⟩

/-- A world in which the buffer at address `1` holds `[1,2,3,4,5]` followed by `spare` raw cells. -/
def demoWorld (spare : Nat) : World Nat :=
  { heap := fun a => if 1 ≤ a ∧ a ≤ 5 then some a else Option.none
    brk := 6 + spare
    nAlloc := 1
    nFree := 0
    nCtor := 5
    constructed := 5
    destroyed := 0
    sizeof_T := 4 }

/-- The vector `[1,2,3,4,5]` with `spare` unused slots. -/
def demoVector (spare : Nat) : Vector := ⟨⟨1, 5 + spare⟩, 5⟩

/-- A schedule in which exactly the `k`-th throwing-capable constructor call throws. -/
def throwAt (k : Nat) : Faults := ⟨fun _ => false, fun n => n == k⟩

/-- A schedule in which every allocation fails. -/
def noMemory : Faults := ⟨fun _ => true, fun _ => false⟩

/-- A world with two vectors: `[1,2,3,4,5]` in the buffer at address `1` (capacity `5`) and
`[100,110,120]` in the buffer at address `10` (capacity `4`). -/
def pairWorld : World Nat :=
  { heap := fun a =>
      if 1 ≤ a ∧ a ≤ 5 then some a
      else if 10 ≤ a ∧ a ≤ 12 then some (a * 10) else Option.none
    brk := 14
    nAlloc := 2
    nFree := 0
    nCtor := 8
    constructed := 8
    destroyed := 0
    sizeof_T := 4 }

/-- The vector `[100,110,120]` of capacity `4` in `pairWorld`. -/
def secondVector : Vector := ⟨⟨10, 4⟩, 3⟩

/-! ## Closed forms of the effects on the world

The net effect of each successful (or rolled-back) loop, used to state what the loops compute. -/

namespace World

/-- World after `n` raw cells were handed out at the break. -/
def alloc (w : World T) (n : Nat) : World T :=
  { w with
    heap := fun a => if w.brk ≤ a ∧ a < w.brk + n then Option.none else w.heap a
    brk := w.brk + n
    nAlloc := w.nAlloc + 1 }

/-- World after an allocation attempt that threw. -/
def allocFailed (w : World T) : World T :=
  { w with nAlloc := w.nAlloc + 1 }

/-- World after one object of value `x` was constructed at `p` by a throwing-capable constructor. -/
def construct (w : World T) (p : Nat) (x : T) : World T :=
  { w with heap := upd w.heap p (some x), nCtor := w.nCtor + 1, constructed := w.constructed + 1 }

/-- World after a local object was constructed by a throwing-capable constructor. -/
def constructLocal (w : World T) : World T :=
  { w with nCtor := w.nCtor + 1, constructed := w.constructed + 1 }

/-- World after the live object at `p` was assigned the value `x`. -/
def assign (w : World T) (p : Nat) (x : T) : World T :=
  { w with heap := upd w.heap p (some x) }

/-- World after `n` objects were copy-constructed from `src..` to `dst..`. -/
def copied (w : World T) (src n dst : Nat) : World T :=
  { w with
    heap := fun a => if dst ≤ a ∧ a < dst + n then w.heap (src + (a - dst)) else w.heap a
    nCtor := w.nCtor + n
    constructed := w.constructed + n }

/-- World after `n` live objects at `dst..` were copy-assigned from `src..`. -/
def assigned (w : World T) (src n dst : Nat) : World T :=
  { w with
    heap := fun a => if dst ≤ a ∧ a < dst + n then w.heap (src + (a - dst)) else w.heap a
    nCtor := w.nCtor + n }

/-- World after `n` objects were move-constructed from `src..` to `dst..`. -/
def moved (E : ElemType T) (w : World T) (src n dst : Nat) : World T :=
  { w with
    heap := fun a =>
      if dst ≤ a ∧ a < dst + n then w.heap (src + (a - dst))
      else if src ≤ a ∧ a < src + n then (w.heap a).map E.moved_from
      else w.heap a
    constructed := w.constructed + n }

/-- World after a constructing loop threw at its `j`-th element and destroyed the `j` objects it
had constructed: only the counters moved. -/
def rolledBack (w : World T) (j : Nat) : World T :=
  { w with
    nCtor := w.nCtor + j + 1
    constructed := w.constructed + j
    destroyed := w.destroyed + j }

/-- World after the object at `p` was destroyed. -/
def destroy (w : World T) (p : Nat) : World T :=
  { w with heap := upd w.heap p Option.none, destroyed := w.destroyed + 1 }

/-- World after the `n` objects at `p..` were destroyed. -/
def cleared (w : World T) (p n : Nat) : World T :=
  { w with
    heap := fun a => if p ≤ a ∧ a < p + n then Option.none else w.heap a
    destroyed := w.destroyed + n }

/-- World after `n` objects of value `x` were constructed at `p..`. -/
def filled (w : World T) (p n : Nat) (x : T) : World T :=
  { w with
    heap := fun a => if p ≤ a ∧ a < p + n then some x else w.heap a
    nCtor := w.nCtor + n
    constructed := w.constructed + n }

/-- World after the `n` objects at `p+1..` were move-assigned one slot to the left. -/
def shiftedLeft (E : ElemType T) (w : World T) (p n : Nat) : World T :=
  { w with
    heap := fun a =>
      if p ≤ a ∧ a < p + n then w.heap (a + 1)
      else if a = p + n ∧ 0 < n then (w.heap a).map E.moved_from
      else w.heap a }

/-- World after the `n` objects at `first..` were move-assigned one slot to the right. -/
def shiftedRight (E : ElemType T) (w : World T) (first n : Nat) : World T :=
  { w with
    heap := fun a =>
      if first + 1 ≤ a ∧ a ≤ first + n then w.heap (a - 1)
      else if a = first ∧ 0 < n then (w.heap a).map E.moved_from
      else w.heap a }

end World

/-! ## `SimpleVector<Type>`

`SimpleVector` keeps its elements in an `ArrayPtr<Type>`, a heap array whose objects are all
live; the array is modelled by the list of its values, a pointer into it by its index from
`Get()`. An access outside the array is undefined behaviour (`none`, `SRes.undefined`).
Allocation and the operations of `Type` are taken not to throw. -/

/-- Result of a `SimpleVector` call: normal return, `std::out_of_range`, or undefined behaviour. -/
inductive SRes (α : Type)
  | ok (a : α)
  | out_of_range
  | undefined
  deriving DecidableEq, Repr

/-- Modelled from the spec: `ArrayPtr<Type>`, declared in `array_ptr.h`, which is not among the
sources. It is taken to be an owning pointer to a heap array; `cells` are the values of the
array, and the array of a null `ArrayPtr` is empty. -/
structure ArrayPtr (T : Type) where
  cells : List T
  deriving DecidableEq, Repr

namespace ArrayPtr

/-- Modelled from the spec: the default constructor `ArrayPtr()`, a null pointer. -/
def default : ArrayPtr T := ⟨[]⟩

/-- Modelled from the spec: the constructor `ArrayPtr(size)`, a new array of `size` objects; the
value of its `i`-th object is the parameter `fresh i`. -/
def ctor (fresh : Nat → T) (size : Nat) : ArrayPtr T := ⟨(List.range size).map fresh⟩

/-- Modelled from the spec: `ArrayPtr::Get()`, the address of the first object (index `0`). -/
def Get (_a : ArrayPtr T) : Nat := 0

/-- Modelled from the spec: reading `a[index]`, without a bounds check. -/
def index (a : ArrayPtr T) (i : Nat) : Option T := a.cells[i]?

/-- Modelled from the spec: the assignment `a[index] = x`, without a bounds check. -/
def assign (a : ArrayPtr T) (i : Nat) (x : T) : Option (ArrayPtr T) :=
  if i < a.cells.length then some ⟨a.cells.set i x⟩ else Option.none

/-- Modelled from the spec: `ArrayPtr::swap(other)`; returns the new `*this` and the new
`other`. -/
def swap (a other : ArrayPtr T) : ArrayPtr T × ArrayPtr T := (other, a)

end ArrayPtr

/-- Loop of `std::copy`: `n` forward assignments from the array `src` to another array `dst`. -/
def array_copy_n (src : List T) : Nat → Nat → List T → Nat → Option (List T)
  | _, 0, dst, _ => some dst
  | first, n + 1, dst, d_first =>
    match src[first]? with
    | some y =>
      if d_first < dst.length then array_copy_n src (first + 1) n (dst.set d_first y) (d_first + 1)
      else Option.none
    | Option.none => Option.none

/-- Models `std::copy(first, last, d_first)` from the array `src` into another array `dst`. -/
def array_copy (src : List T) (first last : Nat) (dst : List T) (d_first : Nat) :
    Option (List T) :=
  if first ≤ last then array_copy_n src first (last - first) dst d_first else Option.none

/-- Loop of `std::move` between arrays: `n` forward move-assignments from `src` to `dst`;
returns both arrays. -/
def array_move_n (E : ElemType T) : List T → Nat → Nat → List T → Nat → Option (List T × List T)
  | src, _, 0, dst, _ => some (src, dst)
  | src, first, n + 1, dst, d_first =>
    match src[first]? with
    | some y =>
      if d_first < dst.length then
        array_move_n E (src.set first (E.moved_from y)) (first + 1) n (dst.set d_first y)
          (d_first + 1)
      else Option.none
    | Option.none => Option.none

/-- Models `std::move(first, last, d_first)` from the array `src` into another array `dst`. -/
def array_move (E : ElemType T) (src : List T) (first last : Nat) (dst : List T)
    (d_first : Nat) : Option (List T × List T) :=
  if first ≤ last then array_move_n E src first (last - first) dst d_first else Option.none

/-- Loop of `std::copy_backward` inside one array: `*(--d_last) = *(--last)`, `n` times. -/
def array_copy_backward_n : List T → Nat → Nat → Nat → Option (List T)
  | a, _, 0, _ => some a
  | a, first, n + 1, d_last =>
    match a[first + n]? with
    | some y =>
      if 0 < d_last ∧ d_last - 1 < a.length then
        array_copy_backward_n (a.set (d_last - 1) y) first n (d_last - 1)
      else Option.none
    | Option.none => Option.none

/-- Models `std::copy_backward(first, last, d_last)` inside one array; returns the array and the
iterator to the last element copied. -/
def array_copy_backward (a : List T) (first last d_last : Nat) : Option (List T × Nat) :=
  if first ≤ last ∧ last - first ≤ d_last then
    match array_copy_backward_n a first (last - first) d_last with
    | some a1 => some (a1, d_last - (last - first))
    | Option.none => Option.none
  else Option.none

/-- Loop of `std::move_backward` inside one array: `*(--d_last) = std::move(*(--last))`, `n`
times. -/
def array_move_backward_n (E : ElemType T) : List T → Nat → Nat → Nat → Option (List T)
  | a, _, 0, _ => some a
  | a, first, n + 1, d_last =>
    match a[first + n]? with
    | some y =>
      if 0 < d_last ∧ d_last - 1 < a.length then
        array_move_backward_n E ((a.set (d_last - 1) y).set (first + n) (E.moved_from y)) first n
          (d_last - 1)
      else Option.none
    | Option.none => Option.none

/-- Models `std::move_backward(first, last, d_last)` inside one array. -/
def array_move_backward (E : ElemType T) (a : List T) (first last d_last : Nat) :
    Option (List T) :=
  if first ≤ last then array_move_backward_n E a first (last - first) d_last else Option.none

/-- Loop of `std::for_each(first, last, [](auto& i){ i = Type{}; })`. -/
def array_reset_n (E : ElemType T) : List T → Nat → Nat → Option (List T)
  | a, _, 0 => some a
  | a, first, n + 1 =>
    if first < a.length then array_reset_n E (a.set first E.value_init) (first + 1) n
    else Option.none

/-- Models `std::for_each(first, last, [](auto& i){ i = Type{}; })` on one array. -/
def array_reset (E : ElemType T) (a : List T) (first last : Nat) : Option (List T) :=
  if first ≤ last then array_reset_n E a first (last - first) else Option.none

/-- Models `std::lexicographical_compare` on two ranges of values. -/
def lexicographical_compare [LT T] [DecidableRel (fun a b : T => a < b)] :
    List T → List T → Bool
  | [], [] => false
  | [], _ :: _ => true
  | _ :: _, [] => false
  | a :: as, b :: bs =>
    if a < b then true
    else if b < a then false
    else lexicographical_compare as bs

/-- The class `SimpleVector<Type>`. -/
structure SimpleVector (T : Type) where
  elements_ : ArrayPtr T
  size_ : Nat
  capacity_ : Nat
  deriving DecidableEq, Repr

namespace SimpleVector

/-- Default constructor `SimpleVector()`. -/
def default : SimpleVector T := ⟨ArrayPtr.default, 0, 0⟩

/-- Constructor `SimpleVector(std::initializer_list<Type> init)`. -/
def ctor_init (fresh : Nat → T) (init : List T) : SRes (SimpleVector T) :=
  let to_swap := ArrayPtr.ctor fresh init.length
  match array_copy init 0 init.length to_swap.cells to_swap.Get with
  | some cells1 =>
    let s := ArrayPtr.swap ⟨cells1⟩ ArrayPtr.default
    .ok ⟨s.2, init.length, init.length⟩
  | Option.none => .undefined

/-- `SimpleVector::GetSize()`. -/
def GetSize (v : SimpleVector T) : Nat := v.size_

/-- `SimpleVector::GetCapacity()`. -/
def GetCapacity (v : SimpleVector T) : Nat := v.capacity_

/-- `SimpleVector::begin()`, `cbegin()`. -/
def begin (v : SimpleVector T) : Nat := v.elements_.Get

/-- `SimpleVector::end()`, `cend()`. -/
def «end» (v : SimpleVector T) : Nat := v.elements_.Get + v.size_

/-- The values in the range `[begin(), end())`. -/
def items (v : SimpleVector T) : List T := v.elements_.cells.take v.size_

/-- `SimpleVector::At(index)` (both the const and the non-const overload); yields the element
referred to. -/
def At (v : SimpleVector T) (index : Nat) : SRes T :=
  if index ≥ v.size_ then .out_of_range
  else
    match v.elements_.index index with
    | some y => .ok y
    | Option.none => .undefined

/-- `SimpleVector::Resize(new_size)`. -/
def Resize (E : ElemType T) (fresh : Nat → T) (new_size : Nat) (v : SimpleVector T) :
    SRes (SimpleVector T) :=
  if new_size ≤ v.size_ then
    .ok { v with size_ := new_size }
  else if new_size ≤ v.capacity_ then
    match array_reset E v.elements_.cells (v.elements_.Get + v.size_)
        (v.elements_.Get + new_size) with
    | some cells1 => .ok { v with elements_ := ⟨cells1⟩, size_ := new_size }
    | Option.none => .undefined
  else
    let new_mas := ArrayPtr.ctor fresh new_size
    match array_move E v.elements_.cells v.elements_.Get (v.elements_.Get + v.capacity_)
        new_mas.cells new_mas.Get with
    | some (old1, cells1) =>
      match array_reset E cells1 (new_mas.Get + v.capacity_) (new_mas.Get + new_size) with
      | some cells2 =>
        let s := ArrayPtr.swap ⟨old1⟩ ⟨cells2⟩
        .ok ⟨s.1, new_size, new_size⟩
      | Option.none => .undefined
    | Option.none => .undefined

/-- `SimpleVector::Insert(ConstIterator pos, const Type& value)`; returns the iterator to the
inserted value. -/
def Insert (fresh : Nat → T) (pos : Nat) (value : T) (v : SimpleVector T) :
    SRes (Nat × SimpleVector T) :=
  if v.size_ < v.capacity_ then
    match array_copy_backward v.elements_.cells pos v.«end» (v.«end» + 1) with
    | some (cells1, to_return) =>
      -- *(--to_return) = value;
      if 0 < to_return then
        match ArrayPtr.assign ⟨cells1⟩ (to_return - 1) value with
        | some a2 => .ok (to_return - 1, ⟨a2, v.size_ + 1, v.capacity_⟩)
        | Option.none => .undefined
      else .undefined
    | Option.none => .undefined
  else
    let temp := ArrayPtr.ctor fresh (v.size_ + 1)
    match temp.index 0 with
    | some _ =>
      match array_copy v.elements_.cells v.begin pos temp.cells 0 with
      | some cells1 =>
        let to_return := 0 + (pos - v.begin)
        match ArrayPtr.assign ⟨cells1⟩ to_return value with
        | some a2 =>
          match array_copy v.elements_.cells pos v.«end» a2.cells (to_return + 1) with
          | some cells3 =>
            let s := v.elements_.swap ⟨cells3⟩
            let size1 := v.size_ + 1
            .ok (to_return, ⟨s.1, size1, max (v.capacity_ * 2) (size1 + 1)⟩)
          | Option.none => .undefined
        | Option.none => .undefined
      | Option.none => .undefined
    | Option.none => .undefined

/-- `SimpleVector::Insert(ConstIterator pos, Type&& value)`; returns the iterator to the
inserted value. -/
def Insert_rvalue (E : ElemType T) (fresh : Nat → T) (pos : Nat) (value : T)
    (v : SimpleVector T) : SRes (Nat × SimpleVector T) :=
  let t := pos - v.elements_.Get
  if v.size_ ≠ v.capacity_ then
    match array_move_backward E v.elements_.cells pos v.«end» (v.«end» + 1) with
    | some cells1 =>
      match ArrayPtr.assign ⟨cells1⟩ (pos - v.elements_.Get) value with
      | some a2 => .ok (t, ⟨a2, v.size_ + 1, v.capacity_⟩)
      | Option.none => .undefined
    | Option.none => .undefined
  else
    let temp := ArrayPtr.ctor fresh (if v.capacity_ = 0 then 1 else v.capacity_ * 2)
    match array_move E v.elements_.cells v.elements_.Get (v.elements_.Get + v.size_)
        temp.cells temp.Get with
    | some (old1, cells1) =>
      match ArrayPtr.assign ⟨cells1⟩ t value with
      | some a2 =>
        match array_move E old1 (v.elements_.Get + t) (v.elements_.Get + v.size_) a2.cells
            (temp.Get + v.size_ + 1) with
        | some (old2, cells3) =>
          let s := ArrayPtr.swap ⟨old2⟩ ⟨cells3⟩
          let size1 := v.size_ + 1
          .ok (t, ⟨s.1, size1, max (v.capacity_ * 2) (size1 + 1)⟩)
        | Option.none => .undefined
      | Option.none => .undefined
    | Option.none => .undefined

/-- `operator<` on `SimpleVector`. -/
def operator_lt [LT T] [DecidableRel (fun a b : T => a < b)] (lhs rhs : SimpleVector T) : Bool :=
  lexicographical_compare lhs.items rhs.items

/-- `operator>=` on `SimpleVector`. -/
def operator_ge [LT T] [DecidableRel (fun a b : T => a < b)] (lhs rhs : SimpleVector T) : Bool :=
  !(operator_lt lhs rhs)

/-- `operator==` on `SimpleVector`. -/
def operator_eq [LT T] [DecidableRel (fun a b : T => a < b)] (lhs rhs : SimpleVector T) : Bool :=
  if lhs.GetSize = rhs.GetSize then
    if operator_ge lhs rhs && operator_ge rhs lhs then true else false
  else false

/-- `operator!=` on `SimpleVector`. -/
def operator_ne [LT T] [DecidableRel (fun a b : T => a < b)] (lhs rhs : SimpleVector T) : Bool :=
  !(operator_eq lhs rhs)

end SimpleVector

/-- An `int`-like element type: a moved-from value keeps its value, `Type{}` is `0`. -/
def intElem : ElemType Nat := ⟨true, true, fun y => y, 0⟩

/-- Values of a freshly allocated `int` array used in the examples. -/
def freshInt : Nat → Nat := fun i => 700 + i

/-! ## Effect of the standard-library loops -/

theorem destroy_n_eq (n : Nat) : ∀ (p : Nat) (w : World T),
    (∀ k, k < n → (w.heap (p + k)).isSome = true) →
    destroy_n p n w =
      (.ok (), { w with
        heap := fun a => if p ≤ a ∧ a < p + n then Option.none else w.heap a
        destroyed := w.destroyed + n }) := by
  induction n with
  | zero =>
    intro p w _
    simp only [destroy_n]
    congr 1
    apply World.ext <;> simp
    funext a
    have : ¬ (p ≤ a ∧ a < p) := by omega
    simp [this]
  | succ n ih =>
    intro p w h
    have h0 := h 0 (by omega)
    obtain ⟨y, hy⟩ := Option.isSome_iff_exists.mp h0
    simp only [Nat.add_zero] at hy
    simp only [destroy_n, destroy_at, hy]
    rw [ih]
    · congr 1
      apply World.ext <;> simp
      · funext a
        simp only [upd]
        by_cases h1 : a = p
        · subst h1; simp
        · by_cases h2 : p + 1 ≤ a ∧ a < p + 1 + n
          · have : p ≤ a ∧ a < p + (n + 1) := by omega
            simp [h2, this]
          · have : ¬ (p ≤ a ∧ a < p + (n + 1)) := by omega
            simp [h1, h2, this]
      · omega
    · intro k hk
      have := h (k + 1) (by omega)
      simp only [upd]
      have hne : p + 1 + k ≠ p := by omega
      simp only [hne, if_false]
      rw [show p + 1 + k = p + (k + 1) by omega]
      exact this

theorem uninitialized_move_n_eq (E : ElemType T) (n : Nat) : ∀ (first d : Nat) (w : World T),
    (∀ k, k < n → (w.heap (first + k)).isSome = true) →
    (first + n ≤ d ∨ d + n ≤ first) →
    d + n ≤ w.brk →
    uninitialized_move_n E first n d w =
      (.ok (), { w with
        heap := fun a =>
          if d ≤ a ∧ a < d + n then w.heap (first + (a - d))
          else if first ≤ a ∧ a < first + n then (w.heap a).map E.moved_from
          else w.heap a
        constructed := w.constructed + n }) := by
  induction n with
  | zero =>
    intro first d w _ _ _
    simp only [uninitialized_move_n]
    congr 1
    apply World.ext <;> simp
    funext a
    split_ifs <;> first | rfl | (exfalso; omega)
  | succ n ih =>
    intro first d w h hd hbrk
    have h0 := h 0 (by omega)
    obtain ⟨y, hy⟩ := Option.isSome_iff_exists.mp h0
    simp only [Nat.add_zero] at hy
    have hb : d < w.brk := by omega
    simp only [uninitialized_move_n, move_construct_at, hb, if_true, hy]
    rw [ih]
    · congr 1
      apply World.ext <;> simp
      · funext a
        simp only [upd]
        split_ifs <;> first | rfl | (exfalso; omega) | (congr 1; omega) | (subst_vars; simp_all)
      · omega
    · intro k hk
      have := h (k + 1) (by omega)
      simp only [upd]
      have hne : first + 1 + k ≠ first := by omega
      have hne2 : first + 1 + k ≠ d := by omega
      simp only [hne, hne2, if_false]
      rw [show first + 1 + k = first + (k + 1) by omega]
      exact this
    · omega
    · show d + 1 + n ≤ w.brk
      omega

theorem uninitialized_copy_n_spec (F : Faults) (n : Nat) : ∀ (first d : Nat) (w : World T),
    (∀ k, k < n → (w.heap (first + k)).isSome = true) →
    (first + n ≤ d ∨ d + n ≤ first) →
    (∀ k, k < n → w.heap (d + k) = Option.none) →
    d + n ≤ w.brk →
    ((∀ k, k < n → F.ctor_throws (w.nCtor + k) = false) ∧
      uninitialized_copy_n F first n d w =
        (.ok (), { w with
          heap := fun a => if d ≤ a ∧ a < d + n then w.heap (first + (a - d)) else w.heap a
          nCtor := w.nCtor + n
          constructed := w.constructed + n })) ∨
    (∃ j, j < n ∧ F.ctor_throws (w.nCtor + j) = true ∧
      uninitialized_copy_n F first n d w =
        (.throw .elem_ctor, { w with
          nCtor := w.nCtor + j + 1
          constructed := w.constructed + j
          destroyed := w.destroyed + j })) := by
  induction n with
  | zero =>
    intro first d w _ _ _ _
    left
    refine ⟨by intro k hk; omega, ?_⟩
    simp only [uninitialized_copy_n]
    congr 1
    apply World.ext <;> simp
    funext a
    split_ifs <;> first | rfl | (exfalso; omega)
  | succ n ih =>
    intro first d w h hd hn hbrk
    have hb : d < w.brk := by omega
    have h0 := h 0 (by omega)
    obtain ⟨y, hy⟩ := Option.isSome_iff_exists.mp h0
    simp only [Nat.add_zero] at hy
    have hd0 := hn 0 (by omega)
    simp only [Nat.add_zero] at hd0
    by_cases hf : F.ctor_throws w.nCtor = true
    · right
      refine ⟨0, by omega, by simpa using hf, ?_⟩
      simp only [uninitialized_copy_n, copy_construct_at, hy, construct_at, hb, hf, if_true]
      congr 1
    · have hf' : F.ctor_throws w.nCtor = false := by simpa using hf
      have key := ih (first + 1) (d + 1)
        ({ w with heap := upd w.heap d (some y), nCtor := w.nCtor + 1,
                  constructed := w.constructed + 1 })
        (by
          intro k hk
          have := h (k + 1) (by omega)
          simp only [upd]
          have hne : first + 1 + k ≠ d := by omega
          simp only [hne, if_false]
          rw [show first + 1 + k = first + (k + 1) by omega]
          exact this)
        (by omega)
        (by
          intro k hk
          have := hn (k + 1) (by omega)
          simp only [upd]
          have hne : d + 1 + k ≠ d := by omega
          simp only [hne, if_false]
          rw [show d + 1 + k = d + (k + 1) by omega]
          exact this)
        (show d + 1 + n ≤ w.brk by omega)
      rcases key with ⟨hall, hres⟩ | ⟨j, hj, hjt, hres⟩
      · left
        refine ⟨?_, ?_⟩
        · intro k hk
          rcases k with _ | k
          · simpa using hf'
          · have := hall k (by omega)
            simp only at this
            rw [show w.nCtor + (k + 1) = w.nCtor + 1 + k by omega]
            exact this
        · simp only [uninitialized_copy_n, copy_construct_at, hy, construct_at, hb, hf']
          simp only [Bool.false_eq_true, if_false, if_true]
          rw [hres]
          dsimp only
          congr 1
          apply World.ext <;> simp
          · funext a
            simp only [upd]
            split_ifs <;> first | rfl | (exfalso; omega) | (congr 1; omega) | (subst_vars; simp_all)
          · omega
          · omega
      · right
        refine ⟨j + 1, by omega, ?_, ?_⟩
        · simp only at hjt
          rw [show w.nCtor + (j + 1) = w.nCtor + 1 + j by omega]
          exact hjt
        · simp only [uninitialized_copy_n, copy_construct_at, hy, construct_at, hb, hf']
          simp only [Bool.false_eq_true, if_false, if_true]
          rw [hres]
          dsimp only
          simp only [destroy_at, upd, if_true]
          congr 1
          apply World.ext <;> simp
          · funext a
            simp only [upd]
            split_ifs <;> first | rfl | (exfalso; omega) | (congr 1; omega) | (subst_vars; simp_all)
          · omega
          · omega
          · omega

theorem uninitialized_value_construct_n_spec (E : ElemType T) (F : Faults) (n : Nat) :
    ∀ (p : Nat) (w : World T),
    (∀ k, k < n → w.heap (p + k) = Option.none) →
    p + n ≤ w.brk →
    ((∀ k, k < n → F.ctor_throws (w.nCtor + k) = false) ∧
      uninitialized_value_construct_n E F p n w =
        (.ok (), { w with
          heap := fun a => if p ≤ a ∧ a < p + n then some E.value_init else w.heap a
          nCtor := w.nCtor + n
          constructed := w.constructed + n })) ∨
    (∃ j, j < n ∧ F.ctor_throws (w.nCtor + j) = true ∧
      uninitialized_value_construct_n E F p n w =
        (.throw .elem_ctor, { w with
          nCtor := w.nCtor + j + 1
          constructed := w.constructed + j
          destroyed := w.destroyed + j })) := by
  induction n with
  | zero =>
    intro p w _ _
    left
    refine ⟨by intro k hk; omega, ?_⟩
    simp only [uninitialized_value_construct_n]
    congr 1
    apply World.ext <;> simp
    funext a
    split_ifs <;> first | rfl | (exfalso; omega)
  | succ n ih =>
    intro p w hn hbrk
    have hb : p < w.brk := by omega
    have hd0 := hn 0 (by omega)
    simp only [Nat.add_zero] at hd0
    by_cases hf : F.ctor_throws w.nCtor = true
    · right
      refine ⟨0, by omega, by simpa using hf, ?_⟩
      simp only [uninitialized_value_construct_n, construct_at, hb, hf, if_true]
      congr 1
    · have hf' : F.ctor_throws w.nCtor = false := by simpa using hf
      have key := ih (p + 1)
        ({ w with heap := upd w.heap p (some E.value_init), nCtor := w.nCtor + 1,
                  constructed := w.constructed + 1 })
        (by
          intro k hk
          have := hn (k + 1) (by omega)
          simp only [upd]
          have hne : p + 1 + k ≠ p := by omega
          simp only [hne, if_false]
          rw [show p + 1 + k = p + (k + 1) by omega]
          exact this)
        (show p + 1 + n ≤ w.brk by omega)
      rcases key with ⟨hall, hres⟩ | ⟨j, hj, hjt, hres⟩
      · left
        refine ⟨?_, ?_⟩
        · intro k hk
          rcases k with _ | k
          · simpa using hf'
          · have := hall k (by omega)
            simp only at this
            rw [show w.nCtor + (k + 1) = w.nCtor + 1 + k by omega]
            exact this
        · simp only [uninitialized_value_construct_n, construct_at, hb, hf']
          simp only [Bool.false_eq_true, if_false, if_true]
          rw [hres]
          dsimp only
          congr 1
          apply World.ext <;> simp
          · funext a
            simp only [upd]
            split_ifs <;> first | rfl | (exfalso; omega) | (subst_vars; simp_all)
          · omega
          · omega
      · right
        refine ⟨j + 1, by omega, ?_, ?_⟩
        · simp only at hjt
          rw [show w.nCtor + (j + 1) = w.nCtor + 1 + j by omega]
          exact hjt
        · simp only [uninitialized_value_construct_n, construct_at, hb, hf']
          simp only [Bool.false_eq_true, if_false, if_true]
          rw [hres]
          dsimp only
          simp only [destroy_at, upd, if_true]
          congr 1
          apply World.ext <;> simp
          · funext a
            simp only [upd]
            split_ifs <;> first | rfl | (exfalso; omega) | (subst_vars; simp_all)
          · omega
          · omega
          · omega

theorem move_n_shift_left (E : ElemType T) (n : Nat) : ∀ (p : Nat) (w : World T),
    (∀ k, k ≤ n → (w.heap (p + k)).isSome = true) →
    move_n E (p + 1) n p w =
      (.ok (), { w with
        heap := fun a =>
          if p ≤ a ∧ a < p + n then w.heap (a + 1)
          else if a = p + n ∧ 0 < n then (w.heap a).map E.moved_from
          else w.heap a }) := by
  induction n with
  | zero =>
    intro p w _
    simp only [move_n]
    congr 1
    apply World.ext <;> simp
    funext a
    split_ifs <;> first | rfl | (exfalso; omega)
  | succ n ih =>
    intro p w h
    have h0 := h 0 (by omega)
    have h1 := h 1 (by omega)
    obtain ⟨z, hz⟩ := Option.isSome_iff_exists.mp h0
    obtain ⟨y, hy⟩ := Option.isSome_iff_exists.mp h1
    simp only [Nat.add_zero] at hz
    simp only [move_n, move_assign, hy, hz]
    rw [ih]
    · congr 1
      apply World.ext <;> simp
      funext a
      simp only [upd]
      split_ifs <;> first | rfl | (exfalso; omega) | (congr 1; omega) | (subst_vars; simp_all)
    · intro k hk
      have := h (k + 1) (by omega)
      simp only [upd]
      have hne : p + 1 + k ≠ p := by omega
      simp only [hne, if_false]
      split_ifs
      · rfl
      · rw [show p + 1 + k = p + (k + 1) by omega]
        exact this

theorem move_backward_n_shift_right (E : ElemType T) (first : Nat) (n : Nat) : ∀ (w : World T),
    (∀ k, k ≤ n → (w.heap (first + k)).isSome = true) →
    move_backward_n E (first + n) n (first + n + 1) w =
      (.ok (), { w with
        heap := fun a =>
          if first + 1 ≤ a ∧ a ≤ first + n then w.heap (a - 1)
          else if a = first ∧ 0 < n then (w.heap a).map E.moved_from
          else w.heap a }) := by
  induction n with
  | zero =>
    intro w _
    simp only [move_backward_n]
    congr 1
    apply World.ext <;> simp
    funext a
    split_ifs <;> first | rfl | (exfalso; omega)
  | succ n ih =>
    intro w h
    have h0 := h n (by omega)
    have h1 := h (n + 1) (by omega)
    obtain ⟨y, hy⟩ := Option.isSome_iff_exists.mp h0
    obtain ⟨z, hz⟩ := Option.isSome_iff_exists.mp h1
    have e1 : first + (n + 1) + 1 - 1 = first + n + 1 := by omega
    have e2 : first + (n + 1) - 1 = first + n := by omega
    have hz' : w.heap (first + n + 1) = some z := hz
    rw [move_backward_n, e1, e2]
    simp only [move_assign, hy, hz']
    rw [ih]
    · congr 1
      apply World.ext <;> simp
      funext a
      simp only [upd]
      split_ifs <;> first | rfl | (exfalso; omega) | (congr 1; omega) | (rw [show a = first + n by omega, hy]; rfl) | (rw [show a - 1 = first + n by omega, hy])
    · intro k hk
      have := h k (by omega)
      simp only [upd]
      have hne : first + k ≠ first + n + 1 := by omega
      simp only [hne, if_false]
      split_ifs
      · rfl
      · exact this

/-! ## Basic facts -/

@[simp] theorem RawMemory.dtor_eq (m : RawMemory) (w : World T) :
    m.dtor w = operator_delete m.buffer_ w := rfl

@[simp] theorem operator_delete_heap (buf : Nat) (w : World T) :
    (operator_delete buf w).heap = w.heap := by
  unfold operator_delete; split_ifs <;> rfl

@[simp] theorem operator_delete_brk (buf : Nat) (w : World T) :
    (operator_delete buf w).brk = w.brk := by
  unfold operator_delete; split_ifs <;> rfl

@[simp] theorem operator_delete_nAlloc (buf : Nat) (w : World T) :
    (operator_delete buf w).nAlloc = w.nAlloc := by
  unfold operator_delete; split_ifs <;> rfl

@[simp] theorem operator_delete_nCtor (buf : Nat) (w : World T) :
    (operator_delete buf w).nCtor = w.nCtor := by
  unfold operator_delete; split_ifs <;> rfl

@[simp] theorem operator_delete_constructed (buf : Nat) (w : World T) :
    (operator_delete buf w).constructed = w.constructed := by
  unfold operator_delete; split_ifs <;> rfl

@[simp] theorem operator_delete_destroyed (buf : Nat) (w : World T) :
    (operator_delete buf w).destroyed = w.destroyed := by
  unfold operator_delete; split_ifs <;> rfl

theorem Holds.live {v : Vector} {w : World T} {xs : List T} (h : Holds v w xs) :
    ∀ k, k < xs.length → (w.heap (v.data_.buffer_ + k)).isSome = true := by
  intro k hk
  obtain ⟨_, h2, _, h4⟩ := h
  rw [h4 k (by omega), List.getElem?_eq_getElem hk]
  rfl

theorem Holds.raw {v : Vector} {w : World T} {xs : List T} (h : Holds v w xs) :
    ∀ k, xs.length ≤ k → k < v.data_.capacity_ → w.heap (v.data_.buffer_ + k) = Option.none := by
  intro k hk hc
  obtain ⟨_, h2, _, h4⟩ := h
  rw [h4 k hc]
  exact List.getElem?_eq_none hk

theorem World.not_wraps_of_le {w : World T} {n : Nat} (h : n ≤ 2 * w.brk + 1) :
    ¬ w.wraps n := by
  rintro ⟨h1, h2⟩
  have := Nat.mul_le_mul_right w.sizeof_T h
  omega

theorem World.not_wraps_of_fit {w : World T} {n : Nat} (h : n * w.sizeof_T < 2 ^ 64) :
    ¬ w.wraps n := by
  rintro ⟨h1, _⟩
  omega

theorem World.block_cells_eq {w : World T} {n : Nat} (h : ¬ w.wraps n) :
    w.block_cells n = n := by
  simp only [World.block_cells, h, if_false]

theorem RawMemory.ctor_ok (F : Faults) (n : Nat) (w : World T) (hn : n ≠ 0)
    (hA : F.bad_alloc w.nAlloc = false) (hfit : ¬ w.wraps n) :
    RawMemory.ctor F n w = (.ok ⟨w.brk, n⟩, w.alloc n) := by
  simp [RawMemory.ctor, RawMemory.Allocate, operator_new, hn, hA, World.alloc,
    World.block_cells_eq hfit]

theorem RawMemory.ctor_bad_alloc (F : Faults) (n : Nat) (w : World T) (hn : n ≠ 0)
    (hA : F.bad_alloc w.nAlloc = true) :
    RawMemory.ctor F n w = (.throw .bad_alloc, w.allocFailed) := by
  simp [RawMemory.ctor, RawMemory.Allocate, operator_new, hn, hA, World.allocFailed]

theorem construct_at_ok (F : Faults) (p : Nat) (x : T) (w : World T)
    (hC : F.ctor_throws w.nCtor = false) (hp : p < w.brk) :
    construct_at F p x w = (.ok (), w.construct p x) := by
  simp [construct_at, hC, hp, World.construct]

theorem construct_at_throw (F : Faults) (p : Nat) (x : T) (w : World T)
    (hC : F.ctor_throws w.nCtor = true) (hp : p < w.brk) :
    construct_at F p x w = (.throw .elem_ctor, w.rolledBack 0) := by
  simp [construct_at, hC, hp, World.rolledBack]

theorem destroy_n_cleared (n p : Nat) (w : World T)
    (h : ∀ k, k < n → (w.heap (p + k)).isSome = true) :
    destroy_n p n w = (.ok (), w.cleared p n) :=
  destroy_n_eq n p w h

theorem uninitialized_move_n_moved (E : ElemType T) (src n dst : Nat) (w : World T)
    (hsrc : ∀ k, k < n → (w.heap (src + k)).isSome = true)
    (hdisj : src + n ≤ dst ∨ dst + n ≤ src) (hbrk : dst + n ≤ w.brk) :
    uninitialized_move_n E src n dst w = (.ok (), w.moved E src n dst) :=
  uninitialized_move_n_eq E n src dst w hsrc hdisj hbrk

theorem uninitialized_copy_n_cases (F : Faults) (src n dst : Nat) (w : World T)
    (hsrc : ∀ k, k < n → (w.heap (src + k)).isSome = true)
    (hdisj : src + n ≤ dst ∨ dst + n ≤ src)
    (hdst : ∀ k, k < n → w.heap (dst + k) = Option.none) (hbrk : dst + n ≤ w.brk) :
    ((∀ k, k < n → F.ctor_throws (w.nCtor + k) = false) ∧
      uninitialized_copy_n F src n dst w = (.ok (), w.copied src n dst)) ∨
    (∃ j, j < n ∧ F.ctor_throws (w.nCtor + j) = true ∧
      uninitialized_copy_n F src n dst w = (.throw .elem_ctor, w.rolledBack j)) :=
  uninitialized_copy_n_spec F n src dst w hsrc hdisj hdst hbrk

theorem uninitialized_value_construct_n_cases (E : ElemType T) (F : Faults) (p n : Nat)
    (w : World T) (hdst : ∀ k, k < n → w.heap (p + k) = Option.none)
    (hbrk : p + n ≤ w.brk) :
    ((∀ k, k < n → F.ctor_throws (w.nCtor + k) = false) ∧
      uninitialized_value_construct_n E F p n w = (.ok (), w.filled p n E.value_init)) ∨
    (∃ j, j < n ∧ F.ctor_throws (w.nCtor + j) = true ∧
      uninitialized_value_construct_n E F p n w = (.throw .elem_ctor, w.rolledBack j)) :=
  uninitialized_value_construct_n_spec E F n p w hdst hbrk

theorem move_n_shiftedLeft (E : ElemType T) (p n : Nat) (w : World T)
    (h : ∀ k, k ≤ n → (w.heap (p + k)).isSome = true) :
    move_n E (p + 1) n p w = (.ok (), w.shiftedLeft E p n) :=
  move_n_shift_left E n p w h

theorem move_backward_n_shiftedRight (E : ElemType T) (first n : Nat) (w : World T)
    (h : ∀ k, k ≤ n → (w.heap (first + k)).isSome = true) :
    move_backward_n E (first + n) n (first + n + 1) w = (.ok (), w.shiftedRight E first n) :=
  move_backward_n_shift_right E first n w h

/-! ## Lists -/

theorem getElem?_insert (xs : List T) (x : T) (i j : Nat) (hi : i ≤ xs.length) :
    (xs.take i ++ x :: xs.drop i)[j]? =
      if j < i then xs[j]? else if j = i then some x else xs[j - 1]? := by
  have hlen : (xs.take i).length = i := by simp [List.length_take, hi]
  split_ifs with h1 h2
  · rw [List.getElem?_append_left (by omega)]
    simp [List.getElem?_take, h1]
  · rw [List.getElem?_append_right (by omega), hlen, h2]
    simp
  · rw [List.getElem?_append_right (by omega), hlen]
    obtain ⟨m, hm⟩ : ∃ m, j - i = m + 1 := ⟨j - i - 1, by omega⟩
    rw [hm, List.getElem?_cons_succ, List.getElem?_drop]
    congr 1
    omega

theorem getElem?_erase (xs : List T) (i j : Nat) (hi : i ≤ xs.length) :
    (xs.take i ++ xs.drop (i + 1))[j]? = if j < i then xs[j]? else xs[j + 1]? := by
  have hlen : (xs.take i).length = i := by simp [List.length_take, hi]
  split_ifs with h1
  · rw [List.getElem?_append_left (by omega)]
    simp [List.getElem?_take, h1]
  · rw [List.getElem?_append_right (by omega), hlen, List.getElem?_drop]
    congr 1
    omega

theorem getElem?_snoc (xs : List T) (x : T) (j : Nat) :
    (xs ++ [x])[j]? = if j < xs.length then xs[j]? else if j = xs.length then some x else Option.none := by
  split_ifs with h1 h2
  · rw [List.getElem?_append_left h1]
  · rw [List.getElem?_append_right (by omega), h2]
    simp
  · rw [List.getElem?_eq_none]
    simp
    omega

/-! ## Specifications of the growth operations -/

theorem Holds.at {v : Vector} {w : World T} {xs : List T} (h : Holds v w xs) (a : Nat)
    (h1 : v.data_.buffer_ ≤ a) (h2 : a < v.data_.buffer_ + v.data_.capacity_) :
    w.heap a = xs[a - v.data_.buffer_]? := by
  have := h.2.2.2 (a - v.data_.buffer_) (by omega)
  rwa [show v.data_.buffer_ + (a - v.data_.buffer_) = a by omega] at this

theorem Holds.frame {v : Vector} {w w1 : World T} {xs : List T} (h : Holds v w xs)
    (hheap : ∀ a, v.data_.buffer_ ≤ a → a < v.data_.buffer_ + v.data_.capacity_ →
      w1.heap a = w.heap a)
    (hbrk : w.brk ≤ w1.brk) : Holds v w1 xs := by
  obtain ⟨h1, h2, h3, h4⟩ := h
  refine ⟨h1, h2, by omega, ?_⟩
  intro i hi
  rw [hheap _ (by omega) (by omega)]
  exact h4 i hi

theorem EmplaceBack_spec (E : ElemType T) (F : Faults) (x : T) (v : Vector) (w : World T)
    (xs : List T) (h : Holds v w xs) :
    (∃ v1 w1, Vector.EmplaceBack E F x v w = (.ok (v1.data_.buffer_ + xs.length), v1, w1) ∧
      Holds v1 w1 (xs ++ [x]) ∧
      (v.size_ < v.data_.capacity_ → v1.data_ = v.data_ ∧ w1.nAlloc = w.nAlloc) ∧
      (v.size_ = v.data_.capacity_ →
        v1.data_ = ⟨w.brk, if v.data_.capacity_ = 0 then 1 else 2 * v.data_.capacity_⟩ ∧
        w1.nAlloc = w.nAlloc + 1) ∧
      w1.constructed + w.destroyed = w.constructed + w1.destroyed + 1 ∧
      F.ctor_throws w.nCtor = false ∧
      (v.size_ = v.data_.capacity_ → F.bad_alloc w.nAlloc = false ∧
        ((E.nothrow_move_constructible || !E.copy_constructible) = false →
          ∀ k, k < xs.length → F.ctor_throws (w.nCtor + 1 + k) = false))) ∨
    (∃ e w1, Vector.EmplaceBack E F x v w = (.throw e, v, w1) ∧ Holds v w1 xs ∧
      w1.constructed + w.destroyed = w.constructed + w1.destroyed ∧
      (v.size_ < v.data_.capacity_ → w1.nAlloc = w.nAlloc) ∧
      ((e = .bad_alloc ∧ v.size_ = v.data_.capacity_ ∧ F.bad_alloc w.nAlloc = true ∧
          w1 = w.allocFailed) ∨
        (e = .elem_ctor ∧ ∃ k, F.ctor_throws k = true))) := by
  have hl := h.live
  have hfr := fun w1 : World T => @Holds.frame T v w w1 xs h
  obtain ⟨⟨b, c⟩, n⟩ := v
  obtain ⟨h1, h2, h3, h4⟩ := h
  simp only at h1 h2 h3 h4 hl hfr ⊢
  subst h1
  by_cases hfull : xs.length = c
  · -- at capacity
    subst hfull
    have hnc : (if xs.length = 0 then 1 else xs.length * 2) ≠ 0 := by split_ifs <;> omega
    have hle : xs.length ≤ (if xs.length = 0 then 1 else xs.length * 2) := by split_ifs <;> omega
    have hlt : xs.length < (if xs.length = 0 then 1 else xs.length * 2) := by split_ifs <;> omega
    have hcapeq : (if xs.length = 0 then 1 else xs.length * 2) =
        (if xs.length = 0 then 1 else 2 * xs.length) := by split_ifs <;> omega
    have hfit : ¬ w.wraps (if xs.length = 0 then 1 else xs.length * 2) :=
      World.not_wraps_of_le (by split_ifs <;> omega)
    simp only [Vector.EmplaceBack, Vector.Capacity, RawMemory.Capacity, if_true]
    generalize hN : (if xs.length = 0 then 1 else xs.length * 2) = N at *
    by_cases hA : F.bad_alloc w.nAlloc = true
    · right
      rw [RawMemory.ctor_bad_alloc F _ w hnc hA]
      refine ⟨_, _, rfl, hfr _ (fun _ _ _ => rfl) (Nat.le_refl _), rfl, ?_, Or.inl ⟨rfl, ?_, hA, rfl⟩⟩
      · intro hh; simp at hh
      · simp
    · have hA' : F.bad_alloc w.nAlloc = false := by simpa using hA
      rw [RawMemory.ctor_ok F _ w hnc hA' hfit]
      simp only [RawMemory.add, hle, if_true, RawMemory.GetAddress]
      have hb1 : w.brk + xs.length < (w.alloc N).brk := by
        show w.brk + xs.length < w.brk + N
        omega
      have hb2 : w.brk + xs.length ≤ ((w.alloc N).construct (w.brk + xs.length) x).brk := by
        show w.brk + xs.length ≤ w.brk + N
        omega
      by_cases hC : F.ctor_throws w.nCtor = true
      · right
        rw [construct_at_throw F _ x (w.alloc N) hC hb1]
        refine ⟨_, _, rfl, hfr _ ?_ ?_, ?_, ?_, Or.inr ⟨rfl, _, hC⟩⟩
        · intro a ha1 ha2
          have c1 : ¬ (w.brk ≤ a ∧ a < w.brk + N) := by omega
          simp [World.rolledBack, World.alloc, c1]
        · simp [World.rolledBack, World.alloc]
        · simp [World.rolledBack, World.alloc]
        · intro hh; simp at hh
      · have hC' : F.ctor_throws w.nCtor = false := by simpa using hC
        rw [construct_at_ok F _ x (w.alloc N) hC' hb1]
        dsimp only
        have hsrc : ∀ k, k < xs.length →
            (((w.alloc N).construct (w.brk + xs.length) x).heap (b + k)).isSome = true := by
          intro k hk
          have c1 : ¬ (w.brk ≤ b + k ∧ b + k < w.brk + N) := by omega
          have c2 : b + k ≠ w.brk + xs.length := by omega
          simp only [World.construct, World.alloc, upd, c1, c2, if_false]
          exact hl k hk
        have hdst : ∀ k, k < xs.length →
            ((w.alloc N).construct (w.brk + xs.length) x).heap (w.brk + k) = Option.none := by
          intro k hk
          have c1 : w.brk ≤ w.brk + k ∧ w.brk + k < w.brk + N := by omega
          have c2 : w.brk + k ≠ w.brk + xs.length := by omega
          simp only [World.construct, World.alloc, upd, c1, c2, if_false, and_self, if_true]
        by_cases hM : (E.nothrow_move_constructible || !E.copy_constructible) = true
        · left
          simp only [hM, if_true]
          rw [uninitialized_move_n_moved E b _ w.brk _ hsrc (by omega) hb2]
          dsimp only
          rw [destroy_n_cleared]
          · refine ⟨⟨⟨w.brk, N⟩, xs.length + 1⟩, _, rfl, ⟨by simp, by simp; omega, by simp [World.cleared, World.moved, World.construct, World.alloc, RawMemory.Swap], ?_⟩, ?_, ?_, ?_⟩
            · intro j hj
              simp only [RawMemory.Swap, RawMemory.dtor_eq, operator_delete_heap, World.cleared,
                World.moved, World.construct, World.alloc, upd, getElem?_snoc,
                Nat.add_sub_cancel_left] at hj ⊢
              split_ifs <;> first | rfl | (exfalso; omega) | (exact h4 j (by omega))
            · intro hh; simp at hh
            · intro _
              simp [RawMemory.Swap, World.cleared, World.moved, World.construct, World.alloc, hcapeq]
            · refine ⟨?_, hC', fun _ => ⟨hA', fun hh => by simp at hh⟩⟩
              simp [RawMemory.Swap, World.cleared, World.moved, World.construct, World.alloc]
              omega
          · intro k hk
            have c1 : ¬ (w.brk ≤ b + k ∧ b + k < w.brk + xs.length) := by omega
            have c2 : b ≤ b + k ∧ b + k < b + xs.length := by omega
            simp only [World.moved, c1, c2, and_self, if_true, if_false, Option.isSome_map']
            exact hsrc k hk
        · simp only [hM, Bool.false_eq_true, if_false]
          rcases uninitialized_copy_n_cases F b xs.length w.brk _ hsrc (by omega) hdst hb2 with
            ⟨hall, hres⟩ | ⟨j, hj, hjt, hres⟩
          · left
            rw [hres]
            dsimp only
            rw [destroy_n_cleared]
            · refine ⟨⟨⟨w.brk, N⟩, xs.length + 1⟩, _, rfl, ⟨by simp, by simp; omega, by simp [World.cleared, World.copied, World.construct, World.alloc, RawMemory.Swap], ?_⟩, ?_, ?_, ?_⟩
              · intro j hj
                simp only [RawMemory.Swap, RawMemory.dtor_eq, operator_delete_heap, World.cleared,
                  World.copied, World.construct, World.alloc, upd, getElem?_snoc,
                  Nat.add_sub_cancel_left] at hj ⊢
                split_ifs <;> first | rfl | (exfalso; omega) | (exact h4 j (by omega))
              · intro hh; simp at hh
              · intro _
                simp [RawMemory.Swap, World.cleared, World.copied, World.construct, World.alloc, hcapeq]
              · refine ⟨?_, hC', fun _ => ⟨hA', fun _ k hk => hall k hk⟩⟩
                simp [RawMemory.Swap, World.cleared, World.copied, World.construct, World.alloc]
                omega
            · intro k hk
              have c1 : ¬ (w.brk ≤ b + k ∧ b + k < w.brk + xs.length) := by omega
              simp only [World.copied, c1, if_false]
              exact hsrc k hk
          · right
            rw [hres]
            dsimp only
            rw [destroy_n_cleared]
            · refine ⟨_, _, rfl, hfr _ ?_ ?_, ?_, ?_, Or.inr ⟨rfl, _, hjt⟩⟩
              · intro a ha1 ha2
                have c1 : ¬ (w.brk ≤ a ∧ a < w.brk + N) := by omega
                have c2 : ¬ (w.brk + xs.length ≤ a ∧ a < w.brk + xs.length + 1) := by omega
                have c3 : a ≠ w.brk + xs.length := by omega
                simp [World.cleared, World.rolledBack, World.construct, World.alloc, upd, c1, c2, c3]
              · simp [World.cleared, World.rolledBack, World.construct, World.alloc]
              · simp [World.cleared, World.rolledBack, World.construct, World.alloc]
                omega
              · intro hh; simp at hh
            · intro k hk
              have hk0 : k = 0 := by omega
              subst hk0
              simp [World.rolledBack, World.construct, World.alloc, upd]
  · -- spare capacity
    have hlt : xs.length < c := by omega
    simp only [Vector.EmplaceBack, Vector.Capacity, RawMemory.Capacity, hfull, if_false,
      RawMemory.add, h2, if_true]
    by_cases hC : F.ctor_throws w.nCtor = true
    · right
      rw [construct_at_throw F _ x w hC (by omega)]
      refine ⟨_, _, rfl, hfr _ (fun _ _ _ => rfl) (Nat.le_refl _), ?_, ?_, Or.inr ⟨rfl, _, hC⟩⟩
      · simp [World.rolledBack]
      · intro _; simp [World.rolledBack]
    · have hC' : F.ctor_throws w.nCtor = false := by simpa using hC
      left
      rw [construct_at_ok F _ x w hC' (by omega)]
      refine ⟨⟨⟨b, c⟩, xs.length + 1⟩, _, rfl, ⟨by simp, by simp; omega, by simpa [World.construct] using h3, ?_⟩, ?_, ?_, ?_⟩
      · intro j hj
        simp only [World.construct, upd, getElem?_snoc] at hj ⊢
        split_ifs <;> first | rfl | (exfalso; omega) | (exact h4 j (by omega)) | (rw [h4 j (by omega)]; exact List.getElem?_eq_none (by omega))
      · intro _; simp [World.construct]
      · intro hh; exact hh.elim
      · refine ⟨?_, hC', fun hh => hh.elim⟩
        simp [World.construct]
        omega

theorem Reserve_spec (E : ElemType T) (F : Faults) (m : Nat) (v : Vector) (w : World T)
    (xs : List T) (h : Holds v w xs) (hfit : v.data_.capacity_ < m → ¬ w.wraps m) :
    (∃ v1 w1, Vector.Reserve E F m v w = (.ok (), v1, w1) ∧ Holds v1 w1 xs ∧
      (m ≤ v.data_.capacity_ → v1 = v ∧ w1 = w) ∧
      (v.data_.capacity_ < m → v1.data_ = ⟨w.brk, m⟩ ∧ w1.nAlloc = w.nAlloc + 1) ∧
      w1.constructed + w.destroyed = w.constructed + w1.destroyed ∧
      (v.data_.capacity_ < m → F.bad_alloc w.nAlloc = false ∧
        ((E.nothrow_move_constructible || !E.copy_constructible) = false →
          ∀ k, k < xs.length → F.ctor_throws (w.nCtor + k) = false))) ∨
    (∃ e w1, Vector.Reserve E F m v w = (.throw e, v, w1) ∧ Holds v w1 xs ∧
      v.data_.capacity_ < m ∧
      w1.constructed + w.destroyed = w.constructed + w1.destroyed ∧
      ((e = .bad_alloc ∧ F.bad_alloc w.nAlloc = true ∧ w1 = w.allocFailed) ∨
        (e = .elem_ctor ∧ (E.nothrow_move_constructible || !E.copy_constructible) = false ∧
          ∃ k, F.ctor_throws k = true))) := by
  have hl := h.live
  have hfr := fun w1 : World T => @Holds.frame T v w w1 xs h
  have h0 := h
  obtain ⟨⟨b, c⟩, n⟩ := v
  obtain ⟨h1, h2, h3, h4⟩ := h
  simp only at h1 h2 h3 h4 hl hfr h0 hfit ⊢
  subst h1
  by_cases hcap : m ≤ c
  · left
    simp only [Vector.Reserve, RawMemory.Capacity, hcap, if_true]
    exact ⟨_, _, rfl, h0, fun _ => ⟨rfl, rfl⟩, fun hh => by omega, rfl, fun hh => by omega⟩
  · have hm : m ≠ 0 := by omega
    simp only [Vector.Reserve, RawMemory.Capacity, hcap, if_false, RawMemory.GetAddress]
    by_cases hA : F.bad_alloc w.nAlloc = true
    · right
      rw [RawMemory.ctor_bad_alloc F _ w hm hA]
      exact ⟨_, _, rfl, hfr _ (fun _ _ _ => rfl) (Nat.le_refl _), by omega, rfl,
        Or.inl ⟨rfl, hA, rfl⟩⟩
    · have hA' : F.bad_alloc w.nAlloc = false := by simpa using hA
      rw [RawMemory.ctor_ok F _ w hm hA' (hfit (by omega))]
      dsimp only
      have hb2 : w.brk + xs.length ≤ (w.alloc m).brk := by
        show w.brk + xs.length ≤ w.brk + m
        omega
      have hsrc : ∀ k, k < xs.length → ((w.alloc m).heap (b + k)).isSome = true := by
        intro k hk
        have c1 : ¬ (w.brk ≤ b + k ∧ b + k < w.brk + m) := by omega
        simp only [World.alloc, c1, if_false]
        exact hl k hk
      have hdst : ∀ k, k < xs.length → (w.alloc m).heap (w.brk + k) = Option.none := by
        intro k hk
        have c1 : w.brk ≤ w.brk + k ∧ w.brk + k < w.brk + m := by omega
        simp only [World.alloc, c1, and_self, if_true]
      unfold Vector.MoveCnstrN
      by_cases hM : (E.nothrow_move_constructible || !E.copy_constructible) = true
      · left
        simp only [hM, if_true]
        rw [uninitialized_move_n_moved E b _ w.brk _ hsrc (by omega) hb2]
        dsimp only
        rw [destroy_n_cleared]
        · refine ⟨⟨⟨w.brk, m⟩, xs.length⟩, _, rfl, ⟨rfl, by simp; omega, by simp [World.cleared, World.moved, World.alloc, RawMemory.Swap], ?_⟩, ?_, ?_, ?_⟩
          · intro j hj
            simp only [RawMemory.Swap, RawMemory.dtor_eq, operator_delete_heap, World.cleared,
              World.moved, World.alloc, Nat.add_sub_cancel_left] at hj ⊢
            split_ifs <;> first | rfl | (exfalso; omega) | (exact h4 j (by omega)) | (exact (List.getElem?_eq_none (by omega)).symm)
          · intro hh; exact hh.elim
          · intro _
            simp [RawMemory.Swap, World.cleared, World.moved, World.alloc]
          · refine ⟨?_, fun _ => ⟨hA', fun hh => by simp at hh⟩⟩
            simp [RawMemory.Swap, World.cleared, World.moved, World.alloc]
            omega
        · intro k hk
          have c1 : ¬ (w.brk ≤ b + k ∧ b + k < w.brk + xs.length) := by omega
          have c2 : b ≤ b + k ∧ b + k < b + xs.length := by omega
          simp only [World.moved, c1, c2, and_self, if_true, if_false, Option.isSome_map']
          exact hsrc k hk
      · have hM' : (E.nothrow_move_constructible || !E.copy_constructible) = false := by
          simpa using hM
        simp only [hM, Bool.false_eq_true, if_false]
        rcases uninitialized_copy_n_cases F b xs.length w.brk _ hsrc (by omega) hdst hb2 with
          ⟨hall, hres⟩ | ⟨j, hj, hjt, hres⟩
        · left
          rw [hres]
          dsimp only
          rw [destroy_n_cleared]
          · refine ⟨⟨⟨w.brk, m⟩, xs.length⟩, _, rfl, ⟨rfl, by simp; omega, by simp [World.cleared, World.copied, World.alloc, RawMemory.Swap], ?_⟩, ?_, ?_, ?_⟩
            · intro j hj
              simp only [RawMemory.Swap, RawMemory.dtor_eq, operator_delete_heap, World.cleared,
                World.copied, World.alloc, Nat.add_sub_cancel_left] at hj ⊢
              split_ifs <;> first | rfl | (exfalso; omega) | (exact h4 j (by omega)) | (exact (List.getElem?_eq_none (by omega)).symm)
            · intro hh; exact hh.elim
            · intro _
              simp [RawMemory.Swap, World.cleared, World.copied, World.alloc]
            · refine ⟨?_, fun _ => ⟨hA', fun _ k hk => hall k hk⟩⟩
              simp [RawMemory.Swap, World.cleared, World.copied, World.alloc]
              omega
          · intro k hk
            have c1 : ¬ (w.brk ≤ b + k ∧ b + k < w.brk + xs.length) := by omega
            simp only [World.copied, c1, if_false]
            exact hsrc k hk
        · right
          rw [hres]
          dsimp only
          refine ⟨_, _, rfl, hfr _ ?_ ?_, by omega, ?_, Or.inr ⟨rfl, trivial, _, hjt⟩⟩
          · intro a ha1 ha2
            have c1 : ¬ (w.brk ≤ a ∧ a < w.brk + m) := by omega
            simp [World.rolledBack, World.alloc, c1]
          · simp [World.rolledBack, World.alloc]
          · simp [World.rolledBack, World.alloc]
            omega

/-! ## Reading the heap through the closed forms -/

namespace World

theorem alloc_heap_in {w : World T} {n a : Nat} (h : w.brk ≤ a ∧ a < w.brk + n) :
    (w.alloc n).heap a = Option.none := by
  simp only [alloc, h, and_self, if_true]

theorem alloc_heap_out {w : World T} {n a : Nat} (h : a < w.brk ∨ w.brk + n ≤ a) :
    (w.alloc n).heap a = w.heap a := by
  have c : ¬ (w.brk ≤ a ∧ a < w.brk + n) := by omega
  simp only [alloc, c, if_false]

theorem construct_heap_eq {w : World T} {p a : Nat} {x : T} (h : a = p) :
    (w.construct p x).heap a = some x := by
  simp only [construct, upd, h, if_true]

theorem construct_heap_ne {w : World T} {p a : Nat} {x : T} (h : a ≠ p) :
    (w.construct p x).heap a = w.heap a := by
  simp only [construct, upd, h, if_false]

theorem assign_heap_eq {w : World T} {p a : Nat} {x : T} (h : a = p) :
    (w.assign p x).heap a = some x := by
  simp only [assign, upd, h, if_true]

theorem assign_heap_ne {w : World T} {p a : Nat} {x : T} (h : a ≠ p) :
    (w.assign p x).heap a = w.heap a := by
  simp only [assign, upd, h, if_false]

theorem destroy_heap_eq {w : World T} {p a : Nat} (h : a = p) :
    (w.destroy p).heap a = Option.none := by
  simp only [destroy, upd, h, if_true]

theorem destroy_heap_ne {w : World T} {p a : Nat} (h : a ≠ p) :
    (w.destroy p).heap a = w.heap a := by
  simp only [destroy, upd, h, if_false]

theorem cleared_heap_in {w : World T} {p n a : Nat} (h : p ≤ a ∧ a < p + n) :
    (w.cleared p n).heap a = Option.none := by
  simp only [cleared, h, and_self, if_true]

theorem cleared_heap_out {w : World T} {p n a : Nat} (h : a < p ∨ p + n ≤ a) :
    (w.cleared p n).heap a = w.heap a := by
  have c : ¬ (p ≤ a ∧ a < p + n) := by omega
  simp only [cleared, c, if_false]

theorem filled_heap_in {w : World T} {p n a : Nat} {x : T} (h : p ≤ a ∧ a < p + n) :
    (w.filled p n x).heap a = some x := by
  simp only [filled, h, and_self, if_true]

theorem filled_heap_out {w : World T} {p n a : Nat} {x : T} (h : a < p ∨ p + n ≤ a) :
    (w.filled p n x).heap a = w.heap a := by
  have c : ¬ (p ≤ a ∧ a < p + n) := by omega
  simp only [filled, c, if_false]

theorem copied_heap_dst {w : World T} {src n dst a : Nat} (h : dst ≤ a ∧ a < dst + n) :
    (w.copied src n dst).heap a = w.heap (src + (a - dst)) := by
  simp only [copied, h, and_self, if_true]

theorem copied_heap_out {w : World T} {src n dst a : Nat} (h : a < dst ∨ dst + n ≤ a) :
    (w.copied src n dst).heap a = w.heap a := by
  have c : ¬ (dst ≤ a ∧ a < dst + n) := by omega
  simp only [copied, c, if_false]

theorem moved_heap_dst {E : ElemType T} {w : World T} {src n dst a : Nat}
    (h : dst ≤ a ∧ a < dst + n) :
    (w.moved E src n dst).heap a = w.heap (src + (a - dst)) := by
  simp only [moved, h, and_self, if_true]

theorem moved_heap_src {E : ElemType T} {w : World T} {src n dst a : Nat}
    (h : a < dst ∨ dst + n ≤ a) (h2 : src ≤ a ∧ a < src + n) :
    (w.moved E src n dst).heap a = (w.heap a).map E.moved_from := by
  have c : ¬ (dst ≤ a ∧ a < dst + n) := by omega
  simp only [moved, c, h2, and_self, if_true, if_false]

theorem moved_heap_out {E : ElemType T} {w : World T} {src n dst a : Nat}
    (h : a < dst ∨ dst + n ≤ a) (h2 : a < src ∨ src + n ≤ a) :
    (w.moved E src n dst).heap a = w.heap a := by
  have c : ¬ (dst ≤ a ∧ a < dst + n) := by omega
  have c2 : ¬ (src ≤ a ∧ a < src + n) := by omega
  simp only [moved, c, c2, if_false]

theorem rolledBack_heap {w : World T} {j a : Nat} : (w.rolledBack j).heap a = w.heap a := rfl

theorem constructLocal_heap {w : World T} {a : Nat} : w.constructLocal.heap a = w.heap a := rfl

theorem allocFailed_heap {w : World T} {a : Nat} : w.allocFailed.heap a = w.heap a := rfl

end World

/-! ## Specifications of `PopBack` and `Erase` -/

theorem destroy_at_ok (p : Nat) (w : World T) (h : (w.heap p).isSome = true) :
    destroy_at p w = (.ok (), w.destroy p) := by
  obtain ⟨y, hy⟩ := Option.isSome_iff_exists.mp h
  simp [destroy_at, hy, World.destroy]

theorem getElem?_dropLast' (xs : List T) (j : Nat) :
    xs.dropLast[j]? = if j < xs.length - 1 then xs[j]? else Option.none := by
  rw [List.dropLast_eq_take, List.getElem?_take]

theorem PopBack_spec (v : Vector) (w : World T) (xs : List T) (h : Holds v w xs) :
    ∃ v1 w1, Vector.PopBack v w = (.ok (), v1, w1) ∧ Holds v1 w1 xs.dropLast ∧
      v1.data_ = v.data_ ∧ w1.nAlloc = w.nAlloc ∧ w1.brk = w.brk ∧
      (xs = [] → v1 = v ∧ w1 = w) ∧
      w1.constructed = w.constructed ∧
      w1.destroyed = w.destroyed + (if xs.length = 0 then 0 else 1) := by
  have hl := h.live
  have hat := h.at
  have h0 := h
  obtain ⟨⟨b, c⟩, n⟩ := v
  obtain ⟨h1, h2, h3, h4⟩ := h
  simp only at h1 h2 h3 h4 hl hat h0 ⊢
  subst h1
  by_cases hn : xs.length = 0
  · have hxs : xs = [] := List.length_eq_zero.mp hn
    subst hxs
    simp only [Vector.PopBack, List.length_nil, Nat.lt_irrefl, gt_iff_lt, if_false]
    exact ⟨_, _, rfl, h0, rfl, rfl, rfl, fun _ => ⟨rfl, rfl⟩, rfl, by simp⟩
  · have hpos : xs.length > 0 := by omega
    simp only [Vector.PopBack, hpos, if_true, RawMemory.GetAddress]
    rw [destroy_at_ok]
    · refine ⟨_, _, rfl, ⟨by simp, by simp; omega, h3, ?_⟩, rfl, rfl, rfl, ?_, rfl, by simp [World.destroy, hn]⟩
      · intro j hj
        simp only [World.destroy, upd, getElem?_dropLast'] at hj ⊢
        split_ifs <;> first
          | rfl
          | (exfalso; omega)
          | (exact h4 j (by omega))
          | (rw [h4 j (by omega)]; exact List.getElem?_eq_none (by omega))
      · intro hxs
        simp [hxs] at hn
    · have := hl (xs.length - 1) (by omega)
      rwa [show b + (xs.length - 1) = b + xs.length - 1 by omega] at this

theorem Erase_spec (E : ElemType T) (i : Nat) (v : Vector) (w : World T) (xs : List T)
    (h : Holds v w xs) (hi : i < xs.length) :
    ∃ v1 w1, Vector.Erase E (v.begin + i) v w = (.ok (v1.begin + i), v1, w1) ∧
      Holds v1 w1 (xs.take i ++ xs.drop (i + 1)) ∧
      v1.data_ = v.data_ ∧ w1.nAlloc = w.nAlloc ∧
      w1.constructed = w.constructed ∧ w1.destroyed = w.destroyed + 1 := by
  have hl := h.live
  have hat := h.at
  obtain ⟨⟨b, c⟩, n⟩ := v
  obtain ⟨h1, h2, h3, h4⟩ := h
  simp only at h1 h2 h3 h4 hl hat ⊢
  subst h1
  have hpos : xs.length > 0 := by omega
  have ha : b ≤ b + i ∧ b + i < b + xs.length := by omega
  have e1 : b + xs.length - (b + i + 1) = xs.length - i - 1 := by omega
  simp only [Vector.Erase, Vector.«end», RawMemory.add, h2, if_true, Vector.begin,
    RawMemory.GetAddress, ha, and_self, Nat.add_sub_cancel_left, std_move, e1]
  rw [move_n_shiftedLeft]
  · simp only [Vector.PopBack, hpos, if_true, RawMemory.GetAddress]
    rw [destroy_at_ok]
    · refine ⟨_, _, rfl, ⟨by simp [List.length_take, List.length_drop]; omega, by simp [List.length_take, List.length_drop]; omega, h3, ?_⟩, rfl, rfl, rfl, rfl⟩
      intro j hj
      simp only [World.destroy, World.shiftedLeft, upd, getElem?_erase xs i j (by omega)] at hj ⊢
      split_ifs <;> first
        | rfl
        | (exfalso; omega)
        | (symm; exact List.getElem?_eq_none (by omega))
        | (rw [hat _ (by omega) (by omega)]; first
            | (congr 1; omega)
            | (rw [List.getElem?_eq_none (by omega), List.getElem?_eq_none (by omega)]))
    · have hlast := hl (xs.length - 1) (by omega)
      rw [show b + (xs.length - 1) = b + xs.length - 1 by omega] at hlast
      simp only [World.shiftedLeft]
      rw [if_neg (by omega)]
      split_ifs
      · rw [Option.isSome_map']; exact hlast
      · exact hlast
  · intro k hk
    have := hl (i + k) (by omega)
    rwa [show b + (i + k) = b + i + k by omega] at this

/-! ## Specification of `Resize` -/

theorem getElem?_append_replicate (xs : List T) (k : Nat) (x : T) (j : Nat) :
    (xs ++ List.replicate k x)[j]? =
      if j < xs.length then xs[j]? else if j < xs.length + k then some x else Option.none := by
  split_ifs with h1 h2
  · rw [List.getElem?_append_left h1]
  · rw [List.getElem?_append_right (by omega), List.getElem?_replicate]
    simp
    omega
  · rw [List.getElem?_eq_none]
    simp
    omega

theorem Resize_spec (E : ElemType T) (F : Faults) (m : Nat) (v : Vector) (w : World T)
    (xs : List T) (h : Holds v w xs) (hfit : v.data_.capacity_ < m → ¬ w.wraps m) :
    (∃ v1 w1, Vector.Resize E F m v w = (.ok (), v1, w1) ∧
      Holds v1 w1 (xs.take m ++ List.replicate (m - xs.length) E.value_init) ∧
      v1.data_.capacity_ = max v.data_.capacity_ m ∧
      (m ≤ v.data_.capacity_ → v1.data_ = v.data_ ∧ w1.nAlloc = w.nAlloc) ∧
      w1.constructed + w.destroyed + (xs.length - m) =
        w.constructed + w1.destroyed + (m - xs.length)) ∨
    (∃ e v1 w1, Vector.Resize E F m v w = (.throw e, v1, w1) ∧ xs.length < m ∧
      Holds v1 w1 xs ∧
      w1.constructed + w.destroyed = w.constructed + w1.destroyed ∧
      (m ≤ v.data_.capacity_ → v1.data_ = v.data_ ∧ w1.nAlloc = w.nAlloc) ∧
      ((v1 = v ∧ v.data_.capacity_ < m ∧
          ((e = .bad_alloc ∧ F.bad_alloc w.nAlloc = true ∧ w1 = w.allocFailed) ∨
            (e = .elem_ctor ∧
              (E.nothrow_move_constructible || !E.copy_constructible) = false ∧
              ∃ k, F.ctor_throws k = true))) ∨
        (e = .elem_ctor ∧ v1.data_.capacity_ = max v.data_.capacity_ m ∧
          ∃ k, F.ctor_throws k = true))) := by
  by_cases hm : m > xs.length
  · have hsz : v.size_ = xs.length := h.1
    have hgt : m > v.size_ := by omega
    simp only [Vector.Resize, hgt, if_true]
    rcases Reserve_spec E F m v w xs h hfit with
      ⟨v1, w1, e1, hH1, hsame, hgrow, hbal⟩ | ⟨e, w1, e1, hH1, hlt, hbal, hwhy⟩
    · rw [e1]
      dsimp only
      have hcap1 : m ≤ v1.data_.capacity_ ∧ v1.data_.capacity_ = max v.data_.capacity_ m := by
        by_cases hc : m ≤ v.data_.capacity_
        · have := (hsame hc).1
          subst this
          exact ⟨hc, by omega⟩
        · have := (hgrow (by omega)).1
          rw [this]
          exact ⟨Nat.le_refl _, by simp; omega⟩
      have hkeep : m ≤ v.data_.capacity_ → v1.data_ = v.data_ ∧ w1.nAlloc = w.nAlloc := by
        intro hc
        obtain ⟨hv, hw⟩ := hsame hc
        subst hv; subst hw
        exact ⟨rfl, rfl⟩
      have hraw := hH1.raw
      obtain ⟨⟨b1, c1⟩, n1⟩ := v1
      obtain ⟨g1, g2, g3, g4⟩ := hH1
      simp only at g1 g2 g3 g4 hraw hcap1 hkeep ⊢
      subst g1
      simp only [RawMemory.GetAddress]
      rcases uninitialized_value_construct_n_cases E F (b1 + xs.length) (m - xs.length) w1
          (by
            intro k hk
            have := hraw (xs.length + k) (by omega) (by omega)
            rwa [show b1 + (xs.length + k) = b1 + xs.length + k by omega] at this)
          (by omega) with
        ⟨_, hres⟩ | ⟨j, hj, hjt, hres⟩
      · left
        rw [hres]
        refine ⟨_, _, rfl, ⟨by simp [List.length_take]; omega, by simp [List.length_take]; omega, by simpa [World.filled] using g3, ?_⟩, hcap1.2, ?_, ?_⟩
        · intro j hj
          rw [List.take_of_length_le (by omega)]
          simp only [World.filled, getElem?_append_replicate] at hj ⊢
          split_ifs <;> first
            | rfl
            | (exfalso; omega)
            | (exact g4 j (by omega))
            | (rw [g4 j (by omega)]; exact List.getElem?_eq_none (by omega))
        · intro hc
          exact ⟨(hkeep hc).1, by simpa [World.filled] using (hkeep hc).2⟩
        · simp only [World.filled]
          omega
      · right
        rw [hres]
        refine ⟨_, _, _, rfl, hm, ⟨rfl, g2, by simpa [World.rolledBack] using g3, ?_⟩, ?_, ?_, Or.inr ⟨rfl, hcap1.2, _, hjt⟩⟩
        · intro i hi
          simpa [World.rolledBack] using g4 i hi
        · simp only [World.rolledBack]
          omega
        · intro hc
          exact ⟨(hkeep hc).1, by simpa [World.rolledBack] using (hkeep hc).2⟩
    · right
      rw [e1]
      refine ⟨_, _, _, rfl, hm, hH1, hbal, fun hc => by omega, Or.inl ⟨rfl, hlt, ?_⟩⟩
      rcases hwhy with ⟨he, hA, hw⟩ | ⟨he, hM, hk⟩
      · exact Or.inl ⟨he, hA, hw⟩
      · exact Or.inr ⟨he, hM, hk⟩
  · left
    have hl := h.live
    obtain ⟨⟨b, c⟩, n⟩ := v
    obtain ⟨h1, h2, h3, h4⟩ := h
    simp only at h1 h2 h3 h4 hl ⊢
    subst h1
    simp only [Vector.Resize, hm, if_false, RawMemory.GetAddress]
    rw [destroy_n_cleared]
    · refine ⟨_, _, rfl, ⟨by simp [List.length_take]; omega, by simp [List.length_take]; omega, h3, ?_⟩, by simp; omega, fun _ => ⟨rfl, rfl⟩, ?_⟩
      · intro j hj
        rw [show m - xs.length = 0 by omega]
        simp only [World.cleared, List.replicate_zero, List.append_nil, List.getElem?_take] at hj ⊢
        split_ifs <;> first
          | rfl
          | (exfalso; omega)
          | (exact h4 j (by omega))
          | (rw [h4 j (by omega)]; exact List.getElem?_eq_none (by omega))
      · simp only [World.cleared]
        omega
    · intro k hk
      have := hl (m + k) (by omega)
      rwa [show b + (m + k) = b + m + k by omega] at this

/-! ## Specification of `Emplace` -/

theorem construct_local_ok (F : Faults) (x : T) (w : World T)
    (hC : F.ctor_throws w.nCtor = false) :
    construct_local F x w = (.ok x, w.constructLocal) := by
  simp [construct_local, hC, World.constructLocal]

theorem construct_local_throw (F : Faults) (x : T) (w : World T)
    (hC : F.ctor_throws w.nCtor = true) :
    construct_local F x w = (.throw .elem_ctor, w.rolledBack 0) := by
  simp [construct_local, hC, World.rolledBack]

theorem move_assign_local_ok (p : Nat) (x : T) (w : World T) (h : (w.heap p).isSome = true) :
    move_assign_local p x w = (.ok (), w.assign p x) := by
  obtain ⟨y, hy⟩ := Option.isSome_iff_exists.mp h
  simp [move_assign_local, hy, World.assign]

/-- `Emplace` strictly inside the sequence, spare capacity. -/
theorem Emplace_spare (E : ElemType T) (F : Faults) (i : Nat) (x : T) (v : Vector)
    (w : World T) (xs : List T) (h : Holds v w xs) (hi : i < xs.length)
    (hsp : v.size_ < v.data_.capacity_) :
    (∃ w1, Vector.Emplace E F (v.begin + i) x v w =
        (.ok (v.begin + i), { v with size_ := v.size_ + 1 }, w1) ∧
      Holds { v with size_ := v.size_ + 1 } w1 (xs.take i ++ x :: xs.drop i) ∧
      w1.nAlloc = w.nAlloc ∧
      w1.constructed + w.destroyed = w.constructed + w1.destroyed + 1 ∧
      F.ctor_throws w.nCtor = false) ∨
    (Vector.Emplace E F (v.begin + i) x v w = (.throw .elem_ctor, v, w.rolledBack 0) ∧
      F.ctor_throws w.nCtor = true) := by
  have hl := h.live
  have hat := h.at
  obtain ⟨⟨b, c⟩, n⟩ := v
  obtain ⟨h1, h2, h3, h4⟩ := h
  simp only at h1 h2 h3 h4 hl hat hsp ⊢
  subst h1
  have ha : b ≤ b + i ∧ b + i ≤ b + xs.length := by omega
  have hne : b + i ≠ b + xs.length := by omega
  have hncap : xs.length ≠ c := by omega
  simp only [Vector.Emplace, Vector.«end», RawMemory.add, h2, if_true, Vector.begin,
    RawMemory.GetAddress, ha, and_self, hne, if_false, Vector.Capacity, RawMemory.Capacity,
    hncap]
  by_cases hC : F.ctor_throws w.nCtor = true
  · right
    rw [construct_local_throw F x w hC]
    exact ⟨rfl, hC⟩
  · have hC' : F.ctor_throws w.nCtor = false := by simpa using hC
    left
    rw [construct_local_ok F x w hC']
    dsimp only
    rw [uninitialized_move_n_moved E _ 1 _ _ ?hsrc (by omega)
      (by show _ ≤ w.brk; omega)]
    case hsrc =>
      intro k hk
      have hk0 : k = 0 := by omega
      subst hk0
      have := hl (xs.length - 1) (by omega)
      simp only [World.constructLocal, Nat.add_zero]
      rwa [show b + (xs.length - 1) = b + xs.length - 1 by omega] at this
    dsimp only
    obtain ⟨m, hm⟩ : ∃ m, xs.length = i + 1 + m := ⟨xs.length - i - 1, by omega⟩
    have e1 : b + xs.length - 1 = b + i + m := by omega
    have e2 : b + xs.length = b + i + m + 1 := by omega
    have e3 : b + i + m - (b + i) = m := by omega
    simp only [move_backward, e2, Nat.add_sub_cancel, e3]
    rw [move_backward_n_shiftedRight E (b + i) m _ ?hlive]
    case hlive =>
      intro k hk
      have := hl (i + k) (by omega)
      rw [show b + (i + k) = b + i + k by omega] at this
      simp only [World.moved, World.constructLocal]
      split_ifs <;> first
        | (exfalso; omega)
        | exact this
        | (rw [Option.isSome_map']; exact this)
    dsimp only
    rw [move_assign_local_ok _ x _ ?hpos]
    case hpos =>
      have := hl i (by omega)
      simp only [World.shiftedRight, World.moved, World.constructLocal]
      split_ifs <;> first
        | (exfalso; omega)
        | exact this
        | (rw [Option.isSome_map']; exact this)
        | (rw [Option.isSome_map', Option.isSome_map']; exact this)
    refine ⟨_, rfl, ⟨by simp [List.length_take, List.length_drop]; omega, by simp [List.length_take, List.length_drop]; omega, h3, ?_⟩, rfl, ?_⟩
    · intro j hj
      simp only [destroy_local, World.assign, World.shiftedRight, World.moved,
        World.constructLocal, upd, getElem?_insert xs x i j (by omega)] at hj ⊢
      split_ifs <;> first
        | rfl
        | (exfalso; omega)
        | (symm; exact List.getElem?_eq_none (by omega))
        | (rw [hat _ (by omega) (by omega)]; first
            | (congr 1; omega)
            | (rw [List.getElem?_eq_none (by omega), List.getElem?_eq_none (by omega)]))
    · refine ⟨?_, hC'⟩
      simp only [destroy_local, World.assign, World.shiftedRight, World.moved,
        World.constructLocal]
      omega

set_option maxHeartbeats 1000000 in
/-- `Emplace` strictly inside the sequence, at capacity. -/
theorem Emplace_full (E : ElemType T) (F : Faults) (i : Nat) (x : T) (v : Vector)
    (w : World T) (xs : List T) (h : Holds v w xs) (hi : i < xs.length)
    (hfull : v.size_ = v.data_.capacity_) :
    (∃ w1, Vector.Emplace E F (v.begin + i) x v w =
        (.ok (w.brk + i),
          ⟨⟨w.brk, if v.data_.capacity_ = 0 then 1 else 2 * v.data_.capacity_⟩, v.size_ + 1⟩,
          w1) ∧
      Holds ⟨⟨w.brk, if v.data_.capacity_ = 0 then 1 else 2 * v.data_.capacity_⟩, v.size_ + 1⟩
        w1 (xs.take i ++ x :: xs.drop i) ∧
      w1.nAlloc = w.nAlloc + 1 ∧
      w1.constructed + w.destroyed = w.constructed + w1.destroyed + 1 ∧
      F.bad_alloc w.nAlloc = false ∧ F.ctor_throws w.nCtor = false ∧
      ((E.nothrow_move_constructible || !E.copy_constructible) = false →
        ∀ k, k < xs.length → F.ctor_throws (w.nCtor + 1 + k) = false)) ∨
    (∃ e w1, Vector.Emplace E F (v.begin + i) x v w = (.throw e, v, w1) ∧ Holds v w1 xs ∧
      ((e = .bad_alloc ∧ F.bad_alloc w.nAlloc = true ∧ w1 = w.allocFailed) ∨
        (e = .elem_ctor ∧ ∃ k, F.ctor_throws k = true))) := by
  have hl := h.live
  have hat := h.at
  have hfr := fun w1 : World T => @Holds.frame T v w w1 xs h
  obtain ⟨⟨b, c⟩, n⟩ := v
  obtain ⟨h1, h2, h3, h4⟩ := h
  simp only at h1 h2 h3 h4 hl hat hfr hfull ⊢
  subst h1
  subst hfull
  have ha : b ≤ b + i ∧ b + i ≤ b + xs.length := by omega
  have hne : b + i ≠ b + xs.length := by omega
  have hn0 : xs.length ≠ 0 := by omega
  have e1 : b + xs.length - (b + i) = xs.length - i := by omega
  simp only [Vector.Emplace, Vector.«end», RawMemory.add, Nat.le_refl, if_true, Vector.begin,
    RawMemory.GetAddress, ha, and_self, hne, if_false, Vector.Capacity, RawMemory.Capacity,
    hn0, Nat.add_sub_cancel_left, e1]
  have hN : xs.length * 2 = 2 * xs.length := by omega
  rw [hN]
  generalize hNdef : 2 * xs.length = N at *
  have hnc : N ≠ 0 := by omega
  by_cases hA : F.bad_alloc w.nAlloc = true
  · right
    rw [RawMemory.ctor_bad_alloc F _ w hnc hA]
    exact ⟨_, _, rfl, hfr _ (fun _ _ _ => rfl) (Nat.le_refl _), Or.inl ⟨rfl, hA, rfl⟩⟩
  · have hA' : F.bad_alloc w.nAlloc = false := by simpa using hA
    rw [RawMemory.ctor_ok F _ w hnc hA' (World.not_wraps_of_le (by omega))]
    have hiN : i ≤ N := by omega
    simp only [hiN, if_true]
    by_cases hC : F.ctor_throws w.nCtor = true
    · right
      rw [construct_at_throw F _ x (w.alloc N) hC (by show _ < w.brk + N; omega)]
      refine ⟨_, _, rfl, hfr _ ?_ ?_, Or.inr ⟨rfl, _, hC⟩⟩
      · intro a ha1 ha2
        have c1 : ¬ (w.brk ≤ a ∧ a < w.brk + N) := by omega
        simp [World.rolledBack, World.alloc, c1]
      · simp [World.rolledBack, World.alloc]
    · have hC' : F.ctor_throws w.nCtor = false := by simpa using hC
      rw [construct_at_ok F _ x (w.alloc N) hC' (by show _ < w.brk + N; omega)]
      dsimp only
      have hW2 : ∀ a, a < w.brk → ((w.alloc N).construct (w.brk + i) x).heap a = w.heap a := by
        intro a ha
        have c1 : ¬ (w.brk ≤ a ∧ a < w.brk + N) := by omega
        have c2 : a ≠ w.brk + i := by omega
        simp only [World.construct, World.alloc, upd, c1, c2, if_false]
      have hW2n : ∀ a, w.brk ≤ a → a < w.brk + N → a ≠ w.brk + i →
          ((w.alloc N).construct (w.brk + i) x).heap a = Option.none := by
        intro a ha1 ha2 ha3
        have c1 : w.brk ≤ a ∧ a < w.brk + N := by omega
        simp only [World.construct, World.alloc, upd, c1, ha3, if_false, and_self, if_true]
      unfold Vector.MoveCnstrN
      by_cases hM : (E.nothrow_move_constructible || !E.copy_constructible) = true
      · left
        simp only [hM, if_true]
        rw [uninitialized_move_n_moved E b i w.brk _ ?hsrc1 (by omega)
          (by show _ ≤ w.brk + N; omega)]
        case hsrc1 =>
          intro k hk
          rw [hW2 _ (by omega)]
          exact hl k (by omega)
        dsimp only
        rw [uninitialized_move_n_moved E (b + i) (xs.length - i) (w.brk + i + 1) _ ?hsrc2
          (by omega) (by show _ ≤ w.brk + N; omega)]
        case hsrc2 =>
          intro k hk
          have := hl (i + k) (by omega)
          rw [show b + (i + k) = b + i + k by omega] at this
          rw [World.moved_heap_out (by omega) (by omega), hW2 _ (by omega)]
          exact this
        dsimp only
        rw [destroy_n_cleared _ _ _ ?hlive]
        case hlive =>
          intro k hk
          have := hl k hk
          by_cases c1 : k < i
          · rw [World.moved_heap_out (by omega) (by omega),
              World.moved_heap_src (by omega) (by omega), Option.isSome_map', hW2 _ (by omega)]
            exact this
          · rw [World.moved_heap_src (by omega) (by omega), Option.isSome_map',
              World.moved_heap_out (by omega) (by omega), hW2 _ (by omega)]
            exact this
        refine ⟨_, rfl, ⟨by simp [List.length_take, List.length_drop]; omega, by simp [List.length_take, List.length_drop]; omega, by simp [World.cleared, World.moved, World.construct, World.alloc, RawMemory.Swap], ?_⟩, by simp [World.cleared, World.moved, World.construct, World.alloc, RawMemory.Swap], ?_⟩
        · intro j hj
          simp only [RawMemory.Swap, RawMemory.dtor_eq, operator_delete_heap] at hj ⊢
          rw [World.cleared_heap_out (by omega), getElem?_insert xs x i j (by omega)]
          by_cases c1 : j < i
          · rw [if_pos c1, World.moved_heap_out (by omega) (by omega),
              World.moved_heap_dst (by omega), hW2 _ (by omega), hat _ (by omega) (by omega)]
            congr 1
            omega
          · rw [if_neg c1]
            by_cases c2 : j = i
            · rw [if_pos c2, World.moved_heap_out (by omega) (by omega),
                World.moved_heap_out (by omega) (by omega), World.construct_heap_eq (by omega)]
            · rw [if_neg c2]
              by_cases c3 : j ≤ xs.length
              · rw [World.moved_heap_dst (by omega), World.moved_heap_out (by omega) (by omega),
                  hW2 _ (by omega), hat _ (by omega) (by omega)]
                congr 1
                omega
              · rw [World.moved_heap_out (by omega) (by omega),
                  World.moved_heap_out (by omega) (by omega),
                  hW2n _ (by omega) (by omega) (by omega)]
                exact (List.getElem?_eq_none (by omega)).symm
        · refine ⟨?_, hA', hC', fun hh => by simp at hh⟩
          simp only [RawMemory.Swap, RawMemory.dtor_eq, operator_delete_constructed,
            operator_delete_destroyed, World.cleared, World.moved, World.construct, World.alloc]
          omega
      · simp only [hM, Bool.false_eq_true, if_false]
        rcases uninitialized_copy_n_cases F b i w.brk _ (by
            intro k hk
            rw [hW2 _ (by omega)]
            exact hl k (by omega)) (by omega) (by
            intro k hk
            exact hW2n _ (by omega) (by omega) (by omega))
            (by show _ ≤ w.brk + N; omega) with
          ⟨hall1, hres⟩ | ⟨j, hj, hjt, hres⟩
        · rw [hres]
          dsimp only
          rcases uninitialized_copy_n_cases F (b + i) (xs.length - i) (w.brk + i + 1)
              (((w.alloc N).construct (w.brk + i) x).copied b i w.brk) (by
              intro k hk
              have := hl (i + k) (by omega)
              rw [show b + (i + k) = b + i + k by omega] at this
              rw [World.copied_heap_out (by omega), hW2 _ (by omega)]
              exact this) (by omega) (by
              intro k hk
              rw [World.copied_heap_out (by omega)]
              exact hW2n _ (by omega) (by omega) (by omega))
              (by show _ ≤ w.brk + N; omega) with
            ⟨hall2, hres2⟩ | ⟨j, hj, hjt, hres2⟩
          · left
            rw [hres2]
            dsimp only
            rw [destroy_n_cleared _ _ _ ?hlive]
            case hlive =>
              intro k hk
              have := hl k hk
              rw [World.copied_heap_out (by omega), World.copied_heap_out (by omega),
                hW2 _ (by omega)]
              exact this
            refine ⟨_, rfl, ⟨by simp [List.length_take, List.length_drop]; omega, by simp [List.length_take, List.length_drop]; omega, by simp [World.cleared, World.copied, World.construct, World.alloc, RawMemory.Swap], ?_⟩, by simp [World.cleared, World.copied, World.construct, World.alloc, RawMemory.Swap], ?_⟩
            · intro j hj
              simp only [RawMemory.Swap, RawMemory.dtor_eq, operator_delete_heap] at hj ⊢
              rw [World.cleared_heap_out (by omega), getElem?_insert xs x i j (by omega)]
              by_cases c1 : j < i
              · rw [if_pos c1, World.copied_heap_out (by omega),
                  World.copied_heap_dst (by omega), hW2 _ (by omega),
                  hat _ (by omega) (by omega)]
                congr 1
                omega
              · rw [if_neg c1]
                by_cases c2 : j = i
                · rw [if_pos c2, World.copied_heap_out (by omega),
                    World.copied_heap_out (by omega), World.construct_heap_eq (by omega)]
                · rw [if_neg c2]
                  by_cases c3 : j ≤ xs.length
                  · rw [World.copied_heap_dst (by omega), World.copied_heap_out (by omega),
                      hW2 _ (by omega), hat _ (by omega) (by omega)]
                    congr 1
                    omega
                  · rw [World.copied_heap_out (by omega), World.copied_heap_out (by omega),
                      hW2n _ (by omega) (by omega) (by omega)]
                    exact (List.getElem?_eq_none (by omega)).symm
            · refine ⟨?_, hA', hC', fun _ k hk => ?_⟩
              · simp only [RawMemory.Swap, RawMemory.dtor_eq, operator_delete_constructed,
                  operator_delete_destroyed, World.cleared, World.copied, World.construct,
                  World.alloc]
                omega
              · by_cases hki : k < i
                · exact hall1 k hki
                · have := hall2 (k - i) (by omega)
                  simp only [World.copied, World.construct, World.alloc] at this
                  rw [show w.nCtor + 1 + k = w.nCtor + 1 + i + (k - i) by omega]
                  exact this
          · right
            rw [hres2]
            refine ⟨_, _, rfl, hfr _ ?_ ?_, Or.inr ⟨rfl, _, hjt⟩⟩
            · intro a ha1 ha2
              simp only [RawMemory.dtor_eq, operator_delete_heap]
              rw [World.rolledBack_heap, World.copied_heap_out (by omega), hW2 _ (by omega)]
            · simp [World.rolledBack, World.copied, World.construct, World.alloc]
        · right
          rw [hres]
          refine ⟨_, _, rfl, hfr _ ?_ ?_, Or.inr ⟨rfl, _, hjt⟩⟩
          · intro a ha1 ha2
            simp only [RawMemory.dtor_eq, operator_delete_heap]
            rw [World.rolledBack_heap, hW2 _ (by omega)]
          · simp [World.rolledBack, World.construct, World.alloc]

/-- `Emplace` at `end()` is `EmplaceBack`. -/
theorem Emplace_at_end (E : ElemType T) (F : Faults) (x : T) (v : Vector) (w : World T)
    (hinv : v.size_ ≤ v.data_.capacity_) :
    Vector.Emplace E F (v.begin + v.size_) x v w = Vector.EmplaceBack E F x v w := by
  have ha : v.data_.buffer_ ≤ v.data_.buffer_ + v.size_ := by omega
  simp only [Vector.Emplace, Vector.«end», RawMemory.add, hinv, if_true, Vector.begin,
    RawMemory.GetAddress, ha, Nat.le_refl, and_self]

theorem Emplace_spec (E : ElemType T) (F : Faults) (i : Nat) (x : T) (v : Vector)
    (w : World T) (xs : List T) (h : Holds v w xs) (hi : i ≤ xs.length) :
    (∃ v1 w1, Vector.Emplace E F (v.begin + i) x v w = (.ok (v1.begin + i), v1, w1) ∧
      Holds v1 w1 (xs.take i ++ x :: xs.drop i) ∧
      (v.size_ < v.data_.capacity_ → v1.data_ = v.data_ ∧ w1.nAlloc = w.nAlloc) ∧
      (v.size_ = v.data_.capacity_ →
        v1.data_ = ⟨w.brk, if v.data_.capacity_ = 0 then 1 else 2 * v.data_.capacity_⟩ ∧
        w1.nAlloc = w.nAlloc + 1) ∧
      w1.constructed + w.destroyed = w.constructed + w1.destroyed + 1 ∧
      F.ctor_throws w.nCtor = false ∧
      (v.size_ = v.data_.capacity_ → F.bad_alloc w.nAlloc = false ∧
        ((E.nothrow_move_constructible || !E.copy_constructible) = false →
          ∀ k, k < xs.length → F.ctor_throws (w.nCtor + 1 + k) = false))) ∨
    (∃ e w1, Vector.Emplace E F (v.begin + i) x v w = (.throw e, v, w1) ∧ Holds v w1 xs ∧
      (v.size_ < v.data_.capacity_ → w1.nAlloc = w.nAlloc) ∧
      ((e = .bad_alloc ∧ v.size_ = v.data_.capacity_ ∧ F.bad_alloc w.nAlloc = true ∧
          w1 = w.allocFailed) ∨
        (e = .elem_ctor ∧ ∃ k, F.ctor_throws k = true))) := by
  have hsz : v.size_ = xs.length := h.1
  have hcap : xs.length ≤ v.data_.capacity_ := h.2.1
  by_cases hend : i = xs.length
  · subst hend
    rw [← hsz, Emplace_at_end E F x v w (by omega), hsz, List.take_length, List.drop_length]
    rcases EmplaceBack_spec E F x v w xs h with
      ⟨v1, w1, e1, hH, hsame, hgrow, hbal⟩ | ⟨e, w1, e1, hH, hbal, hsame, hwhy⟩
    · exact Or.inl ⟨v1, w1, e1, hH, by rwa [hsz] at hsame, by rwa [hsz] at hgrow,
        by rwa [hsz] at hbal⟩
    · exact Or.inr ⟨e, w1, e1, hH, by rwa [hsz] at hsame, by rwa [hsz] at hwhy⟩
  · have hlt : i < xs.length := by omega
    by_cases hfull : v.size_ = v.data_.capacity_
    · rcases Emplace_full E F i x v w xs h hlt hfull with
        ⟨w1, e1, hH, hna, hbal, hA, hC, hcp⟩ | ⟨e, w1, e1, hH, hwhy⟩
      · left
        exact ⟨⟨⟨w.brk, if v.data_.capacity_ = 0 then 1 else 2 * v.data_.capacity_⟩, v.size_ + 1⟩,
          w1, e1, hH, fun hh => by omega, fun _ => ⟨rfl, hna⟩, hbal, hC, fun _ => ⟨hA, hcp⟩⟩
      · right
        refine ⟨e, w1, e1, hH, fun hh => by omega, ?_⟩
        rcases hwhy with ⟨he, hA, hw⟩ | hc
        · exact Or.inl ⟨he, hfull, hA, hw⟩
        · exact Or.inr hc
    · have hsp : v.size_ < v.data_.capacity_ := by omega
      rcases Emplace_spare E F i x v w xs h hlt hsp with
        ⟨w1, e1, hH, hna, hbal, hC⟩ | ⟨e1, hC⟩
      · left
        exact ⟨{ v with size_ := v.size_ + 1 }, w1, e1, hH, fun _ => ⟨rfl, hna⟩,
          fun hh => absurd hh hfull, hbal, hC, fun hh => absurd hh hfull⟩
      · right
        refine ⟨_, _, e1, h.frame (fun _ _ _ => rfl) (Nat.le_refl _), fun _ => rfl,
          Or.inr ⟨rfl, _, hC⟩⟩

/-! ## Fault schedules -/

theorem Faults.none_noThrow : Faults.none.NoThrow :=
  ⟨fun _ => rfl, fun _ => rfl⟩

theorem Faults.NoThrow.alloc {F : Faults} (hF : F.NoThrow) {k : Nat}
    (h : F.bad_alloc k = true) : False := by
  rw [hF.1 k] at h
  exact Bool.noConfusion h

theorem Faults.NoThrow.ctor {F : Faults} (hF : F.NoThrow) (h : ∃ k, F.ctor_throws k = true) :
    False := by
  obtain ⟨k, hk⟩ := h
  rw [hF.2 k] at hk
  exact Bool.noConfusion hk

/-! ## The claims -/

/-- Claim C1. `Insert(begin()+i, x)` on a vector holding `xs`, `i ≤ xs.length`, in any capacity
state: either the call returns `begin()+i` of the resulting vector, which then holds
`take i xs ++ [x] ++ drop i xs`, has size `xs.length + 1` and has `x` live at the returned
position; or it throws, which only happens when the fault schedule makes an allocation or a
constructor throw. -/
theorem insert_at_index (E : ElemType T) (F : Faults) (x : T) (i : Nat) (v : Vector)
    (w : World T) (xs : List T) (h : Holds v w xs) (hi : i ≤ xs.length) :
    (∃ v1 w1, Vector.Insert E F (v.begin + i) x v w = (.ok (v1.begin + i), v1, w1) ∧
      Holds v1 w1 (xs.take i ++ [x] ++ xs.drop i) ∧ v1.Size = xs.length + 1 ∧
      w1.heap (v1.begin + i) = some x) ∨
    (∃ e w1, Vector.Insert E F (v.begin + i) x v w = (.throw e, v, w1) ∧ ¬ F.NoThrow) := by
  unfold Vector.Insert
  rcases Emplace_spec E F i x v w xs h hi with
    ⟨v1, w1, e1, hH, _, _, _⟩ | ⟨e, w1, e1, _, _, hwhy⟩
  · left
    have hH' : Holds v1 w1 (xs.take i ++ [x] ++ xs.drop i) := by
      simpa [List.append_assoc] using hH
    refine ⟨v1, w1, e1, hH', ?_, ?_⟩
    · have := hH.1
      simp only [List.length_append, List.length_take, List.length_cons, List.length_drop] at this
      simp only [Vector.Size]
      omega
    · have hlen : i < v1.data_.capacity_ := by
        have h1 := hH.1
        have h2 := hH.2.1
        simp only [List.length_append, List.length_take, List.length_cons,
          List.length_drop] at h1 h2
        omega
      have := hH.2.2.2 i hlen
      rw [getElem?_insert xs x i i hi] at this
      simpa [Vector.begin, RawMemory.GetAddress] using this
  · right
    refine ⟨e, w1, e1, fun hF => ?_⟩
    rcases hwhy with ⟨_, _, hA, _⟩ | ⟨_, hk⟩
    · exact hF.alloc hA
    · exact hF.ctor hk

/-- Witness for C1: `[1,2,3,4,5]` at capacity, `i = 2`, `x = 99` gives `[1,2,99,3,4,5]`. -/
theorem insert_at_index_witness :
    Holds (demoVector 0) (demoWorld 0) [1, 2, 3, 4, 5] ∧ 2 ≤ [1, 2, 3, 4, 5].length ∧
    ∃ v1 w1, Vector.Insert copyElem Faults.none ((demoVector 0).begin + 2) 99 (demoVector 0)
        (demoWorld 0) = (.ok (v1.begin + 2), v1, w1) ∧
      Holds v1 w1 [1, 2, 99, 3, 4, 5] ∧ v1.Size = 6 := by
  refine ⟨by decide, by decide, ?_⟩
  rcases insert_at_index copyElem Faults.none 99 2 (demoVector 0) (demoWorld 0) [1, 2, 3, 4, 5]
      (by decide) (by decide) with ⟨v1, w1, e1, hH, hs, _⟩ | ⟨_, _, _, hno⟩
  · exact ⟨v1, w1, e1, hH, hs⟩
  · exact absurd Faults.none_noThrow hno

/-- Claim C2. `Erase(begin()+i)` on a vector holding `xs`, `i < xs.length`, returns `begin()+i`
and leaves the vector holding `take i xs ++ drop (i+1) xs`, with size `xs.length - 1` and the
capacity (and buffer) unchanged; the returned position holds the element that followed the
erased one, and is `end()` when the last element was erased. -/
theorem erase_at_index (E : ElemType T) (i : Nat) (v : Vector) (w : World T) (xs : List T)
    (h : Holds v w xs) (hi : i < xs.length) :
    ∃ v1 w1, Vector.Erase E (v.begin + i) v w = (.ok (v1.begin + i), v1, w1) ∧
      Holds v1 w1 (xs.take i ++ xs.drop (i + 1)) ∧ v1.Size = xs.length - 1 ∧
      v1.Capacity = v.Capacity ∧ v1.begin = v.begin ∧
      w1.heap (v1.begin + i) = xs[i + 1]? ∧
      (i + 1 = xs.length → v1.«end» = .ok (v1.begin + i)) := by
  obtain ⟨v1, w1, e1, hH, hd, _, _, _⟩ := Erase_spec E i v w xs h hi
  have hsz : v1.size_ = xs.length - 1 := by
    have := hH.1
    simp only [List.length_append, List.length_take, List.length_drop] at this
    omega
  have hcap : xs.length ≤ v1.data_.capacity_ := by rw [hd]; exact h.2.1
  refine ⟨v1, w1, e1, hH, hsz, by simp [Vector.Capacity, hd], by simp [Vector.begin, hd], ?_, ?_⟩
  · have := hH.2.2.2 i (by omega)
    rw [getElem?_erase xs i i (by omega), if_neg (by omega)] at this
    simpa [Vector.begin, RawMemory.GetAddress] using this
  · intro hlast
    have hle : v1.size_ ≤ v1.data_.capacity_ := by omega
    simp only [Vector.«end», RawMemory.add, hle, if_true, Vector.begin, RawMemory.GetAddress]
    rw [hsz]
    congr 2
    omega

/-- Witness for C2: `[1,2,3,4,5]`, `i = 1` gives `[1,3,4,5]`. -/
theorem erase_at_index_witness :
    Holds (demoVector 0) (demoWorld 0) [1, 2, 3, 4, 5] ∧ 1 < [1, 2, 3, 4, 5].length ∧
    ∃ v1 w1, Vector.Erase copyElem ((demoVector 0).begin + 1) (demoVector 0) (demoWorld 0) =
        (.ok (v1.begin + 1), v1, w1) ∧
      Holds v1 w1 [1, 3, 4, 5] ∧ v1.Size = 4 ∧ v1.Capacity = 5 := by
  refine ⟨by decide, by decide, ?_⟩
  obtain ⟨v1, w1, e1, hH, hs, hc, _⟩ :=
    erase_at_index copyElem 1 (demoVector 0) (demoWorld 0) [1, 2, 3, 4, 5] (by decide)
      (by decide)
  exact ⟨v1, w1, e1, hH, hs, hc⟩

theorem result_inj {α : Type} {r r1 : Res α} {v v1 : Vector} {w w1 : World T}
    (h : (r, v, w) = (r1, v1, w1)) : r = r1 ∧ v = v1 ∧ w = w1 := by
  simpa using h

theorem PushBack_spec (E : ElemType T) (F : Faults) (x : T) (v : Vector) (w : World T)
    (xs : List T) (h : Holds v w xs) :
    (∃ v1 w1, Vector.PushBack E F x v w = (.ok (), v1, w1) ∧ Holds v1 w1 (xs ++ [x]) ∧
      (v.size_ < v.data_.capacity_ → v1.data_ = v.data_ ∧ w1.nAlloc = w.nAlloc) ∧
      (v.size_ = v.data_.capacity_ →
        v1.data_ = ⟨w.brk, if v.data_.capacity_ = 0 then 1 else 2 * v.data_.capacity_⟩ ∧
        w1.nAlloc = w.nAlloc + 1)) ∨
    (∃ e w1, Vector.PushBack E F x v w = (.throw e, v, w1) ∧ Holds v w1 xs ∧
      (v.size_ < v.data_.capacity_ → w1.nAlloc = w.nAlloc) ∧
      ((e = .bad_alloc ∧ v.size_ = v.data_.capacity_ ∧ F.bad_alloc w.nAlloc = true ∧
          w1 = w.allocFailed) ∨
        (e = .elem_ctor ∧ ∃ k, F.ctor_throws k = true))) := by
  unfold Vector.PushBack
  rcases EmplaceBack_spec E F x v w xs h with
    ⟨v1, w1, e1, hH, hsame, hgrow, _⟩ | ⟨e, w1, e1, hH, _, hsame, hwhy⟩
  · left
    rw [e1]
    exact ⟨v1, w1, rfl, hH, hsame, hgrow⟩
  · right
    rw [e1]
    exact ⟨e, w1, rfl, hH, hsame, hwhy⟩

theorem sizeAfter_cons_push (x : T) (cs : List (StackCall T)) (s : Nat) :
    sizeAfter (StackCall.PushBack x :: cs) s = sizeAfter cs (s + 1) := rfl

theorem sizeAfter_cons_pop (cs : List (StackCall T)) (s : Nat) :
    sizeAfter (StackCall.PopBack :: cs) s = sizeAfter cs (s - 1) := rfl

theorem runCalls_spec (E : ElemType T) (F : Faults) (cs : List (StackCall T)) :
    ∀ (v : Vector) (w : World T) (xs : List T), Holds v w xs →
    (∃ v1 w1 ys, runCalls E F cs v w = (.ok (), v1, w1) ∧ Holds v1 w1 ys ∧
      ys.length = sizeAfter cs xs.length) ∨
    (∃ e v1 w1, runCalls E F cs v w = (.throw e, v1, w1) ∧ ¬ F.NoThrow) := by
  induction cs with
  | nil =>
    intro v w xs h
    exact Or.inl ⟨v, w, xs, rfl, h, rfl⟩
  | cons c cs ih =>
    intro v w xs h
    cases c with
    | PushBack x =>
      simp only [runCalls, StackCall.apply, sizeAfter_cons_push]
      rcases PushBack_spec E F x v w xs h with ⟨v1, w1, e1, hH, _, _⟩ | ⟨e, w1, e1, _, _, hwhy⟩
      · rw [e1]
        dsimp only
        have := ih v1 w1 (xs ++ [x]) hH
        simpa using this
      · rw [e1]
        right
        refine ⟨e, v, w1, rfl, fun hF => ?_⟩
        rcases hwhy with ⟨_, _, hA, _⟩ | ⟨_, hk⟩
        · exact hF.alloc hA
        · exact hF.ctor hk
    | PopBack =>
      simp only [runCalls, StackCall.apply, sizeAfter_cons_pop]
      obtain ⟨v1, w1, e1, hH, _⟩ := PopBack_spec v w xs h
      rw [e1]
      dsimp only
      have := ih v1 w1 xs.dropLast hH
      simpa using this

/-- Claim C3. For a sequence of `PushBack`/`PopBack` calls on a vector of size `s`: when every
call returns normally the final size is the fold of `+1` per `PushBack` and saturating `-1` per
`PopBack` from `s`; every call does return normally when no allocation or constructor throws;
and `PopBack` on an empty vector returns normally and changes nothing at all. -/
theorem size_after_pushes_and_pops (E : ElemType T) (F : Faults) (cs : List (StackCall T))
    (v : Vector) (w : World T) (xs : List T) (h : Holds v w xs) :
    ((runCalls E F cs v w).1 = .ok () →
      (runCalls E F cs v w).2.1.Size = sizeAfter cs v.Size) ∧
    (F.NoThrow → (runCalls E F cs v w).1 = .ok ()) ∧
    (v.Size = 0 → Vector.PopBack v w = (.ok (), v, w)) := by
  have hsz : v.Size = xs.length := h.1
  refine ⟨?_, ?_, ?_⟩
  · intro hok
    rcases runCalls_spec E F cs v w xs h with ⟨v1, w1, ys, e1, hH, hlen⟩ | ⟨e, v1, w1, e1, _⟩
    · rw [e1, hsz, ← hlen]
      exact hH.1
    · rw [e1] at hok
      cases hok
  · intro hF
    rcases runCalls_spec E F cs v w xs h with ⟨v1, w1, ys, e1, _, _⟩ | ⟨e, v1, w1, _, hno⟩
    · rw [e1]
    · exact absurd hF hno
  · intro h0
    have : ¬ v.size_ > 0 := by
      simp only [Vector.Size] at h0
      omega
    simp only [Vector.PopBack, this, if_false]

/-- Witness for C3: three pushes and four pops (one on the empty vector) from the empty vector
leave size `0`, then one more push leaves size `1`. -/
theorem size_after_pushes_and_pops_witness :
    Holds Vector.default (demoWorld 0) ([] : List Nat) ∧
    (runCalls copyElem Faults.none
      [.PushBack 7, .PushBack 8, .PopBack, .PopBack, .PopBack, .PushBack 9]
      Vector.default (demoWorld 0)).2.1.Size = 1 := by
  refine ⟨by decide, ?_⟩
  have h := size_after_pushes_and_pops copyElem Faults.none
    [.PushBack 7, .PushBack 8, .PopBack, .PopBack, .PopBack, .PushBack 9]
    Vector.default (demoWorld 0) [] (by decide)
  rw [h.1 (h.2.1 Faults.none_noThrow)]
  rfl

/-- Claim C4. Doubling policy: on a vector of size `s` and capacity `c`, a `PushBack`,
`EmplaceBack`, `Emplace` or `Insert` (at any index `i ≤ s`) that returns normally leaves the
capacity `c` when `s < c` and `if c = 0 then 1 else 2 * c` when `s = c`; and each of them does
return normally when no allocation or constructor throws. -/
theorem capacity_doubling (E : ElemType T) (F : Faults) (x : T) (i : Nat) (v : Vector)
    (w : World T) (xs : List T) (h : Holds v w xs) (hi : i ≤ xs.length) :
    (∀ r v1 w1,
      (Vector.EmplaceBack E F x v w = (.ok r, v1, w1) ∨
        Vector.PushBack E F x v w = (.ok (), v1, w1) ∨
        Vector.Emplace E F (v.begin + i) x v w = (.ok r, v1, w1) ∨
        Vector.Insert E F (v.begin + i) x v w = (.ok r, v1, w1)) →
      (v.Size < v.Capacity → v1.Capacity = v.Capacity) ∧
      (v.Size = v.Capacity → v1.Capacity = if v.Capacity = 0 then 1 else 2 * v.Capacity)) ∧
    (F.NoThrow →
      (∃ r v1 w1, Vector.EmplaceBack E F x v w = (.ok r, v1, w1)) ∧
      (∃ v1 w1, Vector.PushBack E F x v w = (.ok (), v1, w1)) ∧
      (∃ r v1 w1, Vector.Emplace E F (v.begin + i) x v w = (.ok r, v1, w1)) ∧
      (∃ r v1 w1, Vector.Insert E F (v.begin + i) x v w = (.ok r, v1, w1))) := by
  have key : ∀ v1 : Vector,
      (v.size_ < v.data_.capacity_ → v1.data_ = v.data_) →
      (v.size_ = v.data_.capacity_ →
        v1.data_ = ⟨w.brk, if v.data_.capacity_ = 0 then 1 else 2 * v.data_.capacity_⟩) →
      (v.Size < v.Capacity → v1.Capacity = v.Capacity) ∧
      (v.Size = v.Capacity → v1.Capacity = if v.Capacity = 0 then 1 else 2 * v.Capacity) := by
    intro v1 h1 h2
    simp only [Vector.Size, Vector.Capacity, RawMemory.Capacity]
    exact ⟨fun hh => by rw [h1 hh], fun hh => by rw [h2 hh]⟩
  have hEB := EmplaceBack_spec E F x v w xs h
  have hPB := PushBack_spec E F x v w xs h
  have hEm := Emplace_spec E F i x v w xs h hi
  refine ⟨?_, ?_⟩
  · intro r v1 w1 hcall
    rcases hcall with hc | hc | hc | hc
    · rcases hEB with ⟨v2, w2, e2, _, hsame, hgrow, _⟩ | ⟨e, w2, e2, _⟩
      · rw [e2] at hc
        obtain ⟨_, rfl, _⟩ := result_inj hc
        exact key v2 (fun hh => (hsame hh).1) (fun hh => (hgrow hh).1)
      · rw [e2] at hc
        cases hc
    · rcases hPB with ⟨v2, w2, e2, _, hsame, hgrow⟩ | ⟨e, w2, e2, _⟩
      · rw [e2] at hc
        obtain ⟨_, rfl, _⟩ := result_inj hc
        exact key v2 (fun hh => (hsame hh).1) (fun hh => (hgrow hh).1)
      · rw [e2] at hc
        cases hc
    · rcases hEm with ⟨v2, w2, e2, _, hsame, hgrow, _⟩ | ⟨e, w2, e2, _⟩
      · rw [e2] at hc
        obtain ⟨_, rfl, _⟩ := result_inj hc
        exact key v2 (fun hh => (hsame hh).1) (fun hh => (hgrow hh).1)
      · rw [e2] at hc
        cases hc
    · unfold Vector.Insert at hc
      rcases hEm with ⟨v2, w2, e2, _, hsame, hgrow, _⟩ | ⟨e, w2, e2, _⟩
      · rw [e2] at hc
        obtain ⟨_, rfl, _⟩ := result_inj hc
        exact key v2 (fun hh => (hsame hh).1) (fun hh => (hgrow hh).1)
      · rw [e2] at hc
        cases hc
  · intro hF
    have nothrow : ∀ e : Exn,
        ((e = .bad_alloc ∧ v.size_ = v.data_.capacity_ ∧ F.bad_alloc w.nAlloc = true ∧
            (∃ w1 : World T, w1 = w.allocFailed)) ∨
          (e = .elem_ctor ∧ ∃ k, F.ctor_throws k = true)) → False := by
      intro e hwhy
      rcases hwhy with ⟨_, _, hA, _⟩ | ⟨_, hk⟩
      · exact hF.alloc hA
      · exact hF.ctor hk
    refine ⟨?_, ?_, ?_, ?_⟩
    · rcases hEB with ⟨v2, w2, e2, _⟩ | ⟨e, w2, _, _, _, _, hwhy⟩
      · exact ⟨_, v2, w2, e2⟩
      · exact (nothrow e (hwhy.imp (fun a => ⟨a.1, a.2.1, a.2.2.1, w2, a.2.2.2⟩) id)).elim
    · rcases hPB with ⟨v2, w2, e2, _⟩ | ⟨e, w2, _, _, _, hwhy⟩
      · exact ⟨v2, w2, e2⟩
      · exact (nothrow e (hwhy.imp (fun a => ⟨a.1, a.2.1, a.2.2.1, w2, a.2.2.2⟩) id)).elim
    · rcases hEm with ⟨v2, w2, e2, _⟩ | ⟨e, w2, _, _, _, hwhy⟩
      · exact ⟨_, v2, w2, e2⟩
      · exact (nothrow e (hwhy.imp (fun a => ⟨a.1, a.2.1, a.2.2.1, w2, a.2.2.2⟩) id)).elim
    · unfold Vector.Insert
      rcases hEm with ⟨v2, w2, e2, _⟩ | ⟨e, w2, _, _, _, hwhy⟩
      · exact ⟨_, v2, w2, e2⟩
      · exact (nothrow e (hwhy.imp (fun a => ⟨a.1, a.2.1, a.2.2.1, w2, a.2.2.2⟩) id)).elim

/-- Witness for C4: inserting into `[1,2,3,4,5]` doubles a capacity of `5` to `10` and keeps a
capacity of `8`. -/
theorem capacity_doubling_witness :
    Holds (demoVector 0) (demoWorld 0) [1, 2, 3, 4, 5] ∧
    Holds (demoVector 3) (demoWorld 3) [1, 2, 3, 4, 5] ∧ 2 ≤ [1, 2, 3, 4, 5].length ∧
    (Vector.Insert copyElem Faults.none ((demoVector 0).begin + 2) 99 (demoVector 0)
      (demoWorld 0)).2.1.Capacity = 10 ∧
    (Vector.Insert copyElem Faults.none ((demoVector 3).begin + 2) 99 (demoVector 3)
      (demoWorld 3)).2.1.Capacity = 8 := by
  refine ⟨by decide, by decide, by decide, ?_, ?_⟩
  · have h := capacity_doubling copyElem Faults.none 99 2 (demoVector 0) (demoWorld 0)
      [1, 2, 3, 4, 5] (by decide) (by decide)
    obtain ⟨r, v1, w1, e1⟩ := (h.2 Faults.none_noThrow).2.2.2
    rw [e1]
    exact ((h.1 r v1 w1 (Or.inr (Or.inr (Or.inr e1)))).2 (by decide))
  · have h := capacity_doubling copyElem Faults.none 99 2 (demoVector 3) (demoWorld 3)
      [1, 2, 3, 4, 5] (by decide) (by decide)
    obtain ⟨r, v1, w1, e1⟩ := (h.2 Faults.none_noThrow).2.2.2
    rw [e1]
    exact ((h.1 r v1 w1 (Or.inr (Or.inr (Or.inr e1)))).1 (by decide))

/-- Claim C5, amended. `Reserve(n)` on a vector holding `xs` with capacity `c`: for `n ≤ c` the
call returns with the vector and the world exactly as they were; for `n > c` with a byte count
`n * sizeof(T)` that does not wrap in `size_t`, a call that returns normally leaves capacity
exactly `n`, the size unchanged and the vector holding `xs` in the same order; and the call does
return normally when no allocation or constructor throws. -/
theorem reserve_exact (E : ElemType T) (F : Faults) (n : Nat) (v : Vector) (w : World T)
    (xs : List T) (h : Holds v w xs) (hfit : v.Capacity < n → n * w.sizeof_T < 2 ^ 64) :
    (n ≤ v.Capacity → Vector.Reserve E F n v w = (.ok (), v, w)) ∧
    (v.Capacity < n → ∀ v1 w1, Vector.Reserve E F n v w = (.ok (), v1, w1) →
      v1.Capacity = n ∧ v1.Size = v.Size ∧ Holds v1 w1 xs) ∧
    (F.NoThrow → ∃ v1 w1, Vector.Reserve E F n v w = (.ok (), v1, w1)) := by
  have hnw : v.data_.capacity_ < n → ¬ w.wraps n :=
    fun hc => World.not_wraps_of_fit (hfit hc)
  refine ⟨?_, ?_, ?_⟩
  · intro hle
    simp only [Vector.Capacity] at hle
    simp only [Vector.Reserve, hle, if_true]
  · intro hlt v1 w1 hc
    rcases Reserve_spec E F n v w xs h hnw with ⟨v2, w2, e2, hH, _, hgrow, _⟩ | ⟨e, w2, e2, _⟩
    · rw [e2] at hc
      obtain ⟨_, rfl, rfl⟩ := result_inj hc
      refine ⟨?_, ?_, hH⟩
      · simp only [Vector.Capacity, RawMemory.Capacity, (hgrow hlt).1]
      · simp only [Vector.Size]
        rw [hH.1, h.1]
    · rw [e2] at hc
      cases hc
  · intro hF
    rcases Reserve_spec E F n v w xs h hnw with ⟨v2, w2, e2, _⟩ | ⟨e, w2, _, _, _, _, hwhy⟩
    · exact ⟨v2, w2, e2⟩
    · rcases hwhy with ⟨_, hA, _⟩ | ⟨_, _, hk⟩
      · exact (hF.alloc hA).elim
      · exact (hF.ctor hk).elim

/-- Witness for C5: reserving `12` slots for `[1,2,3,4,5]` (capacity `5`, `sizeof(T) = 4`) gives
capacity `12` and the same contents. -/
theorem reserve_exact_witness :
    Holds (demoVector 0) (demoWorld 0) [1, 2, 3, 4, 5] ∧
    12 * (demoWorld 0).sizeof_T < 2 ^ 64 ∧
    ∃ v1 w1, Vector.Reserve copyElem Faults.none 12 (demoVector 0) (demoWorld 0) =
        (.ok (), v1, w1) ∧
      v1.Capacity = 12 ∧ v1.Size = 5 ∧ Holds v1 w1 [1, 2, 3, 4, 5] := by
  refine ⟨by decide, by decide, ?_⟩
  have h := reserve_exact copyElem Faults.none 12 (demoVector 0) (demoWorld 0) [1, 2, 3, 4, 5]
    (by decide) (fun _ => by decide)
  obtain ⟨v1, w1, e1⟩ := h.2.2 Faults.none_noThrow
  exact ⟨v1, w1, e1, h.2.1 (by decide) v1 w1 e1⟩

/-- Counterexample to C5 as stated: `Reserve(2^62 + 1)` on `[1,2,3,4,5]` with `sizeof(T) = 4` and
nothing throwing. The byte count `(2^62 + 1) * 4` wraps to `4`, the block obtained has one cell,
and the relocation of the second element constructs outside that block: the call neither
returns nor throws, so it does not leave capacity `2^62 + 1` with the contents preserved. -/
theorem reserve_exact_counterexample :
    Holds (demoVector 0) (demoWorld 0) [1, 2, 3, 4, 5] ∧
    (demoVector 0).Capacity < 2 ^ 62 + 1 ∧
    Faults.none.NoThrow ∧
    (demoWorld 0).block_cells (2 ^ 62 + 1) = 1 ∧
    (Vector.Reserve copyElem Faults.none (2 ^ 62 + 1) (demoVector 0) (demoWorld 0)).1 = .abort ∧
    ¬ ∃ v1 w1, Vector.Reserve copyElem Faults.none (2 ^ 62 + 1) (demoVector 0) (demoWorld 0) =
        (.ok (), v1, w1) ∧
      v1.Capacity = 2 ^ 62 + 1 ∧ v1.Size = 5 ∧ Holds v1 w1 [1, 2, 3, 4, 5] := by
  have hab : (Vector.Reserve copyElem Faults.none (2 ^ 62 + 1) (demoVector 0)
      (demoWorld 0)).1 = .abort := by decide
  refine ⟨by decide, by decide, Faults.none_noThrow, by decide, hab, ?_⟩
  rintro ⟨v1, w1, e1, _⟩
  rw [e1] at hab
  cases hab

theorem Reserve_bad_alloc (E : ElemType T) (F : Faults) (n : Nat) (v : Vector) (w : World T)
    (hlt : v.data_.capacity_ < n) (hA : F.bad_alloc w.nAlloc = true) :
    Vector.Reserve E F n v w = (.throw .bad_alloc, v, w.allocFailed) := by
  have hnle : ¬ n ≤ v.data_.capacity_ := by omega
  simp only [Vector.Reserve, RawMemory.Capacity, hnle, if_false]
  rw [RawMemory.ctor_bad_alloc F n w (by omega) hA]

theorem EmplaceBack_bad_alloc (E : ElemType T) (F : Faults) (x : T) (v : Vector) (w : World T)
    (hfull : v.size_ = v.data_.capacity_) (hA : F.bad_alloc w.nAlloc = true) :
    Vector.EmplaceBack E F x v w = (.throw .bad_alloc, v, w.allocFailed) := by
  simp only [Vector.EmplaceBack, Vector.Capacity, RawMemory.Capacity, hfull, if_true]
  rw [RawMemory.ctor_bad_alloc F _ w (by split_ifs <;> omega) hA]

theorem Emplace_bad_alloc (E : ElemType T) (F : Faults) (x : T) (i : Nat) (v : Vector)
    (w : World T) (hfull : v.size_ = v.data_.capacity_) (hi : i ≤ v.size_)
    (hA : F.bad_alloc w.nAlloc = true) :
    Vector.Emplace E F (v.begin + i) x v w = (.throw .bad_alloc, v, w.allocFailed) := by
  by_cases hend : i = v.size_
  · rw [hend, Emplace_at_end E F x v w (by omega)]
    exact EmplaceBack_bad_alloc E F x v w hfull hA
  · obtain ⟨⟨b, c⟩, n⟩ := v
    simp only at hfull hi hend ⊢
    subst hfull
    have ha : b ≤ b + i ∧ b + i ≤ b + n := by omega
    have hne : b + i ≠ b + n := by omega
    simp only [Vector.Emplace, Vector.«end», RawMemory.add, Nat.le_refl, if_true, Vector.begin,
      RawMemory.GetAddress, ha, and_self, hne, if_false, Vector.Capacity, RawMemory.Capacity]
    rw [RawMemory.ctor_bad_alloc F _ w (by split_ifs <;> omega) hA]

/-- Claim C8. Allocation failure is atomic: when the allocation of the new buffer fails, each
growth path (`Reserve(n)` with `n > capacity`; `EmplaceBack`, `PushBack`, `Emplace`, `Insert` at
capacity) throws `bad_alloc` and leaves the vector object and the whole free store as they were;
only the count of allocation attempts has moved. -/
theorem bad_alloc_atomic (E : ElemType T) (F : Faults) (x : T) (i n : Nat) (v : Vector)
    (w : World T) (xs : List T) (h : Holds v w xs) (hi : i ≤ xs.length)
    (hA : F.bad_alloc w.nAlloc = true) :
    (v.Capacity < n →
      Vector.Reserve E F n v w = (.throw .bad_alloc, v, { w with nAlloc := w.nAlloc + 1 })) ∧
    (v.Size = v.Capacity →
      Vector.EmplaceBack E F x v w =
        (.throw .bad_alloc, v, { w with nAlloc := w.nAlloc + 1 }) ∧
      Vector.PushBack E F x v w = (.throw .bad_alloc, v, { w with nAlloc := w.nAlloc + 1 }) ∧
      Vector.Emplace E F (v.begin + i) x v w =
        (.throw .bad_alloc, v, { w with nAlloc := w.nAlloc + 1 }) ∧
      Vector.Insert E F (v.begin + i) x v w =
        (.throw .bad_alloc, v, { w with nAlloc := w.nAlloc + 1 })) ∧
    Holds v { w with nAlloc := w.nAlloc + 1 } xs := by
  have hsz : v.size_ = xs.length := h.1
  refine ⟨fun hlt => Reserve_bad_alloc E F n v w hlt hA, fun hfull => ⟨?_, ?_, ?_, ?_⟩, ?_⟩
  · exact EmplaceBack_bad_alloc E F x v w hfull hA
  · unfold Vector.PushBack
    rw [EmplaceBack_bad_alloc E F x v w hfull hA]
    rfl
  · exact Emplace_bad_alloc E F x i v w hfull (by omega) hA
  · exact Emplace_bad_alloc E F x i v w hfull (by omega) hA
  · exact h.frame (fun _ _ _ => rfl) (Nat.le_refl _)

/-- Witness for C8: with no memory left, `Insert` into the full vector `[1,2,3,4,5]` throws
`bad_alloc` and the vector still holds `[1,2,3,4,5]`. -/
theorem bad_alloc_atomic_witness :
    Holds (demoVector 0) (demoWorld 0) [1, 2, 3, 4, 5] ∧ 2 ≤ [1, 2, 3, 4, 5].length ∧
    noMemory.bad_alloc (demoWorld 0).nAlloc = true ∧
    (Vector.Insert copyElem noMemory ((demoVector 0).begin + 2) 99 (demoVector 0)
      (demoWorld 0)).1 = .throw .bad_alloc ∧
    (Vector.Insert copyElem noMemory ((demoVector 0).begin + 2) 99 (demoVector 0)
      (demoWorld 0)).2.1 = demoVector 0 := by
  refine ⟨by decide, by decide, by decide, ?_, ?_⟩
  · rw [((bad_alloc_atomic copyElem noMemory 99 2 0 (demoVector 0) (demoWorld 0)
      [1, 2, 3, 4, 5] (by decide) (by decide) (by decide)).2.1 (by decide)).2.2.2]
  · exact congrArg (fun r => r.2.1)
      ((bad_alloc_atomic copyElem noMemory 99 2 0 (demoVector 0) (demoWorld 0)
        [1, 2, 3, 4, 5] (by decide) (by decide) (by decide)).2.1 (by decide)).2.2.2

theorem eq_of_fst {α : Type} (r : Res α × Vector × World T) (a : Res α) (h : r.1 = a) :
    r = (a, r.2.1, r.2.2) := by
  obtain ⟨r1, v1, w1⟩ := r
  simp only at h
  rw [h]

theorem Emplace_abort (E : ElemType T) (F : Faults) (x : T) (i : Nat) (v : Vector)
    (w : World T) (hi : v.size_ < i) :
    (Vector.Emplace E F (v.begin + i) x v w).1 = .abort := by
  simp only [Vector.Emplace, Vector.«end», RawMemory.add, Vector.begin, RawMemory.GetAddress]
  by_cases hle : v.size_ ≤ v.data_.capacity_
  · have hn : ¬ (v.data_.buffer_ ≤ v.data_.buffer_ + i ∧
        v.data_.buffer_ + i ≤ v.data_.buffer_ + v.size_) := by omega
    simp only [hle, if_true, hn, if_false]
  · simp only [hle, if_false]

theorem Erase_abort (E : ElemType T) (i : Nat) (v : Vector) (w : World T)
    (hi : v.size_ ≤ i) :
    (Vector.Erase E (v.begin + i) v w).1 = .abort := by
  simp only [Vector.Erase, Vector.«end», RawMemory.add, Vector.begin, RawMemory.GetAddress]
  by_cases hle : v.size_ ≤ v.data_.capacity_
  · have hn : ¬ (v.data_.buffer_ ≤ v.data_.buffer_ + i ∧
        v.data_.buffer_ + i < v.data_.buffer_ + v.size_) := by omega
    simp only [hle, if_true, hn, if_false]
  · simp only [hle, if_false]

/-! ## Emplace at the end -/

/-- Claim C13. Whenever `end()` evaluates (to `e`), `Emplace(end(), args)` and `EmplaceBack(args)`
return the same outcome, the same vector (buffer, capacity and size) and the same world, hence the
same element sequence and the same reallocation behaviour; for a vector holding `xs`, a normal
return leaves it holding `xs ++ [x]` with size `xs.length + 1`, and the returned iterator is the
address of the new last element, which holds `x`. -/
theorem emplace_at_end_is_emplace_back (E : ElemType T) (F : Faults) (x : T) (v : Vector)
    (w : World T) (e : Nat) (he : v.«end» = .ok e) :
    Vector.Emplace E F e x v w = Vector.EmplaceBack E F x v w ∧
    ∀ xs, Holds v w xs → ∀ p v1 w1, Vector.Emplace E F e x v w = (.ok p, v1, w1) →
      Holds v1 w1 (xs ++ [x]) ∧ v1.Size = xs.length + 1 ∧ p = v1.begin + xs.length ∧
      w1.heap p = some x ∧
      (v.Size < v.Capacity → v1.Capacity = v.Capacity ∧ v1.begin = v.begin ∧
        w1.nAlloc = w.nAlloc) ∧
      (v.Size = v.Capacity → v1.Capacity = (if v.Capacity = 0 then 1 else 2 * v.Capacity) ∧
        w1.nAlloc = w.nAlloc + 1) := by
  have hinv : v.size_ ≤ v.data_.capacity_ := by
    by_contra hc
    simp [Vector.«end», RawMemory.add, hc] at he
  have hev : e = v.begin + v.size_ := by
    simp [Vector.«end», RawMemory.add, hinv] at he
    simp [Vector.begin, RawMemory.GetAddress, he]
  subst hev
  have heq := Emplace_at_end E F x v w hinv
  refine ⟨heq, ?_⟩
  intro xs h p v1 w1 hr
  rw [heq] at hr
  rcases EmplaceBack_spec E F x v w xs h with
    ⟨v2, w2, e1, hH, hsame, hgrow, _⟩ | ⟨ex, w2, e1, _⟩
  · rw [e1] at hr
    obtain ⟨hp, hv, hw⟩ := result_inj hr
    have hp1 : p = v2.data_.buffer_ + xs.length := by
      injection hp with hp
      exact hp.symm
    subst hv hw hp1
    have hcell := hH.2.2.2 xs.length (by have := hH.2.1; simp at this; omega)
    refine ⟨hH, ?_, rfl, ?_, ?_, ?_⟩
    · have := hH.1
      simpa [Vector.Size] using this
    · rw [hcell]
      simp
    · intro hlt
      obtain ⟨hd, hn⟩ := hsame hlt
      exact ⟨by simp [Vector.Capacity, RawMemory.Capacity, hd],
        by simp [Vector.begin, RawMemory.GetAddress, hd], hn⟩
    · intro hfull
      obtain ⟨hd, hn⟩ := hgrow hfull
      exact ⟨by simp [Vector.Capacity, RawMemory.Capacity, hd], hn⟩
  · rw [e1] at hr
    obtain ⟨hp, _, _⟩ := result_inj hr
    cases hp

/-- Witness for C13: `[1,2,3,4,5]` at capacity, `Emplace(end(), 99)`. -/
theorem emplace_at_end_is_emplace_back_witness :
    (demoVector 0).«end» = .ok 6 ∧
    Vector.Emplace copyElem Faults.none 6 99 (demoVector 0) (demoWorld 0) =
      Vector.EmplaceBack copyElem Faults.none 99 (demoVector 0) (demoWorld 0) ∧
    (Vector.Emplace copyElem Faults.none 6 99 (demoVector 0) (demoWorld 0)).1 = .ok 11 ∧
    Holds (Vector.Emplace copyElem Faults.none 6 99 (demoVector 0) (demoWorld 0)).2.1
      (Vector.Emplace copyElem Faults.none 6 99 (demoVector 0) (demoWorld 0)).2.2
      [1, 2, 3, 4, 5, 99] :=
  ⟨by decide,
    (emplace_at_end_is_emplace_back copyElem Faults.none 99 (demoVector 0) (demoWorld 0) 6
      (by decide)).1,
    by decide, by decide⟩

/-! ## Swap and moves -/

theorem Holds.default (w : World T) : Holds Vector.default w [] := by
  refine ⟨rfl, Nat.le_refl _, Nat.zero_le _, ?_⟩
  intro i hi
  exact absurd hi (Nat.not_lt_zero i)

/-- Claim C12. `Swap`, move assignment between distinct vectors and move construction are pure
exchanges of the members `data_` and `size_`: they take and return no world, so the free store
and the construction and destruction counters are untouched. For `a` holding `xs` and `b` holding
`ys`: after `a.Swap(b)` (and after `a = std::move(b)`) `a` holds `ys` and `b` holds `xs` with
sizes, capacities and buffers exchanged, the sum of the sizes is unchanged, and swapping twice
gives back the original pair; move construction from `b` yields a vector holding `ys` with the
size and capacity of `b` and leaves `b` equal to the empty vector of capacity `0`. -/
theorem swap_and_move_conserve (a b : Vector) (w : World T) (xs ys : List T)
    (ha : Holds a w xs) (hb : Holds b w ys) :
    (Holds (a.Swap b).1 w ys ∧ Holds (a.Swap b).2 w xs ∧
      (a.Swap b).1.Size = b.Size ∧ (a.Swap b).2.Size = a.Size ∧
      (a.Swap b).1.Capacity = b.Capacity ∧ (a.Swap b).2.Capacity = a.Capacity ∧
      (a.Swap b).1.Size + (a.Swap b).2.Size = a.Size + b.Size ∧
      (a.Swap b).1.Size + (a.Swap b).2.Size = (xs ++ ys).length ∧
      (a.Swap b).1.Swap (a.Swap b).2 = (a, b)) ∧
    Vector.operator_assign_move false a b = a.Swap b ∧
    ((Vector.ctor_move b).1 = b ∧ Holds (Vector.ctor_move b).1 w ys ∧
      (Vector.ctor_move b).1.Size = ys.length ∧ (Vector.ctor_move b).1.Capacity = b.Capacity ∧
      (Vector.ctor_move b).2 = Vector.default ∧ Holds (Vector.ctor_move b).2 w [] ∧
      (Vector.ctor_move b).2.Size = 0 ∧ (Vector.ctor_move b).2.Capacity = 0) := by
  obtain ⟨⟨ab, ac⟩, an⟩ := a
  obtain ⟨⟨bb, bc⟩, bn⟩ := b
  have hsa : an = xs.length := ha.1
  have hsb : bn = ys.length := hb.1
  have hsw : (Vector.Swap ⟨⟨ab, ac⟩, an⟩ ⟨⟨bb, bc⟩, bn⟩) =
      ((⟨⟨bb, bc⟩, bn⟩ : Vector), (⟨⟨ab, ac⟩, an⟩ : Vector)) := rfl
  have hmv : Vector.ctor_move ⟨⟨bb, bc⟩, bn⟩ =
      ((⟨⟨bb, bc⟩, bn⟩ : Vector), Vector.default) := rfl
  refine ⟨?_, ?_, ?_⟩
  · rw [hsw]
    refine ⟨hb, ha, rfl, rfl, rfl, rfl, ?_, ?_, rfl⟩
    · simp only [Vector.Size]
      omega
    · simp only [Vector.Size, List.length_append]
      omega
  · rfl
  · rw [hmv]
    exact ⟨rfl, hb, hsb, rfl, rfl, Holds.default w, rfl, rfl⟩

/-- Witness for C12: `[1,2,3,4,5]` and `[100,110,120]` in one world. -/
theorem swap_and_move_conserve_witness :
    Holds (demoVector 0) pairWorld [1, 2, 3, 4, 5] ∧ Holds secondVector pairWorld [100, 110, 120] ∧
    Holds ((demoVector 0).Swap secondVector).1 pairWorld [100, 110, 120] ∧
    Holds ((demoVector 0).Swap secondVector).2 pairWorld [1, 2, 3, 4, 5] :=
  ⟨by decide, by decide,
    (swap_and_move_conserve (demoVector 0) secondVector pairWorld [1, 2, 3, 4, 5]
      [100, 110, 120] (by decide) (by decide)).1.1,
    by decide⟩

/-! ## Objects left in a discarded buffer -/

/-- Claim C19, evaluated on `[1,2,3,4,5]` at capacity with an element type relocated by copying.
`Insert(begin()+2, 99)` in which the copy of the fourth element throws: the call throws and the
vector still holds `[1,2,3,4,5]`, but the new buffer (addresses `6..15`) is released while its
cells `6`, `7` and `8` still hold the live objects `1`, `2` and `99`, so `8` objects are live
instead of `5`. On the same state `EmplaceBack(99)` and `Reserve(10)` with a failing copy leave
every cell of the new buffer raw and `5` objects live. -/
theorem emplace_at_capacity_leaks_on_copy_failure :
    (Vector.Insert copyElem (throwAt 9) ((demoVector 0).begin + 2) 99 (demoVector 0)
      (demoWorld 0)).1 = .throw .elem_ctor ∧
    (Vector.Insert copyElem (throwAt 9) ((demoVector 0).begin + 2) 99 (demoVector 0)
      (demoWorld 0)).2.1 = demoVector 0 ∧
    Holds (demoVector 0) (Vector.Insert copyElem (throwAt 9) ((demoVector 0).begin + 2) 99
      (demoVector 0) (demoWorld 0)).2.2 [1, 2, 3, 4, 5] ∧
    (Vector.Insert copyElem (throwAt 9) ((demoVector 0).begin + 2) 99 (demoVector 0)
      (demoWorld 0)).2.2.nFree = (demoWorld 0).nFree + 1 ∧
    (Vector.Insert copyElem (throwAt 9) ((demoVector 0).begin + 2) 99 (demoVector 0)
      (demoWorld 0)).2.2.heap 6 = some 1 ∧
    (Vector.Insert copyElem (throwAt 9) ((demoVector 0).begin + 2) 99 (demoVector 0)
      (demoWorld 0)).2.2.heap 7 = some 2 ∧
    (Vector.Insert copyElem (throwAt 9) ((demoVector 0).begin + 2) 99 (demoVector 0)
      (demoWorld 0)).2.2.heap 8 = some 99 ∧
    (demoWorld 0).constructed - (demoWorld 0).destroyed = 5 ∧
    (Vector.Insert copyElem (throwAt 9) ((demoVector 0).begin + 2) 99 (demoVector 0)
      (demoWorld 0)).2.2.constructed -
      (Vector.Insert copyElem (throwAt 9) ((demoVector 0).begin + 2) 99 (demoVector 0)
        (demoWorld 0)).2.2.destroyed = 8 ∧
    ((Vector.EmplaceBack copyElem (throwAt 9) 99 (demoVector 0) (demoWorld 0)).1 =
        .throw .elem_ctor ∧
      (List.range 10).all (fun k =>
        ((Vector.EmplaceBack copyElem (throwAt 9) 99 (demoVector 0)
          (demoWorld 0)).2.2.heap (6 + k)).isNone) = true ∧
      (Vector.EmplaceBack copyElem (throwAt 9) 99 (demoVector 0) (demoWorld 0)).2.2.constructed -
        (Vector.EmplaceBack copyElem (throwAt 9) 99 (demoVector 0) (demoWorld 0)).2.2.destroyed
        = 5) ∧
    ((Vector.Reserve copyElem (throwAt 8) 10 (demoVector 0) (demoWorld 0)).1 =
        .throw .elem_ctor ∧
      (List.range 10).all (fun k =>
        ((Vector.Reserve copyElem (throwAt 8) 10 (demoVector 0)
          (demoWorld 0)).2.2.heap (6 + k)).isNone) = true ∧
      (Vector.Reserve copyElem (throwAt 8) 10 (demoVector 0) (demoWorld 0)).2.2.constructed -
        (Vector.Reserve copyElem (throwAt 8) 10 (demoVector 0) (demoWorld 0)).2.2.destroyed
        = 5) := by
  refine ⟨by decide, by decide, by decide, by decide, by decide, by decide, by decide,
    by decide, by decide, ⟨by decide, by decide, by decide⟩, by decide, by decide, by decide⟩

/-! ## The size never exceeds the capacity -/

theorem RawMemory.ctor_capacity (F : Faults) (n : Nat) (w : World T) (m : RawMemory)
    (w1 : World T) (h : RawMemory.ctor F n w = (.ok m, w1)) : m.capacity_ = n := by
  unfold RawMemory.ctor at h
  split at h
  · injection h with h1 _
    injection h1 with h1
    rw [← h1]
  · cases h
  · cases h

theorem Reserve_inv (E : ElemType T) (F : Faults) (n : Nat) (v : Vector) (w : World T)
    (hv : v.size_ ≤ v.data_.capacity_) :
    (Vector.Reserve E F n v w).2.1.size_ ≤ (Vector.Reserve E F n v w).2.1.data_.capacity_ ∧
    (Vector.Reserve E F n v w).2.1.size_ = v.size_ ∧
    ((Vector.Reserve E F n v w).1 = .ok () → n ≤ (Vector.Reserve E F n v w).2.1.data_.capacity_) := by
  unfold Vector.Reserve
  split
  · rename_i hle
    exact ⟨hv, rfl, fun _ => hle⟩
  · rename_i hnle
    simp only [RawMemory.Capacity] at hnle
    split
    · rename_i new_data w1 hc
      have hcap := RawMemory.ctor_capacity F n w new_data w1 hc
      split
      · split
        · refine ⟨?_, rfl, fun _ => ?_⟩ <;> simp only [RawMemory.Swap, hcap] <;> omega
        · exact ⟨hv, rfl, fun hh => by cases hh⟩
        · exact ⟨hv, rfl, fun hh => by cases hh⟩
      · exact ⟨hv, rfl, fun hh => by cases hh⟩
      · exact ⟨hv, rfl, fun hh => by cases hh⟩
    · exact ⟨hv, rfl, fun hh => by cases hh⟩
    · exact ⟨hv, rfl, fun hh => by cases hh⟩

theorem RawMemory.ctor_cases (F : Faults) (n : Nat) (w : World T) :
    (∃ b w1, RawMemory.ctor F n w = (.ok ⟨b, n⟩, w1)) ∨
    (∃ e w1, RawMemory.ctor F n w = (.throw e, w1)) := by
  unfold RawMemory.ctor RawMemory.Allocate operator_new
  split_ifs
  · exact Or.inr ⟨_, _, rfl⟩
  · exact Or.inl ⟨_, _, rfl⟩
  · exact Or.inl ⟨_, _, rfl⟩

theorem EmplaceBack_inv (E : ElemType T) (F : Faults) (x : T) (v : Vector) (w : World T)
    (hv : v.size_ ≤ v.data_.capacity_) :
    (Vector.EmplaceBack E F x v w).2.1.size_ ≤
      (Vector.EmplaceBack E F x v w).2.1.data_.capacity_ := by
  unfold Vector.EmplaceBack
  rcases RawMemory.ctor_cases F (if v.size_ = 0 then 1 else v.size_ * 2) w with
    ⟨b, w1, hc⟩ | ⟨e, w1, hc⟩ <;> simp only [hc, Vector.Capacity, RawMemory.Capacity] <;>
    repeat' split
  all_goals first
    | exact hv
    | (simp only [RawMemory.Swap]; omega)
    | omega

theorem PopBack_inv (v : Vector) (w : World T) (hv : v.size_ ≤ v.data_.capacity_) :
    (Vector.PopBack v w).2.1.size_ ≤ (Vector.PopBack v w).2.1.data_.capacity_ := by
  unfold Vector.PopBack
  repeat' split
  all_goals first
    | exact hv
    | (simp only; omega)

theorem Emplace_inv (E : ElemType T) (F : Faults) (pos : Nat) (x : T) (v : Vector) (w : World T)
    (hv : v.size_ ≤ v.data_.capacity_) :
    (Vector.Emplace E F pos x v w).2.1.size_ ≤
      (Vector.Emplace E F pos x v w).2.1.data_.capacity_ := by
  unfold Vector.Emplace
  split
  · split
    · simp only
      split
      · exact EmplaceBack_inv E F x v w hv
      · rcases RawMemory.ctor_cases F (if v.size_ = 0 then 1 else v.size_ * 2) w with
          ⟨b, w1, hc⟩ | ⟨e, w1, hc⟩ <;> simp only [hc, Vector.Capacity, RawMemory.Capacity] <;>
          repeat' split
        all_goals first
          | exact hv
          | (simp only [RawMemory.Swap]; omega)
          | omega
    · exact hv
  · exact hv
  · exact hv

theorem Erase_inv (E : ElemType T) (pos : Nat) (v : Vector) (w : World T)
    (hv : v.size_ ≤ v.data_.capacity_) :
    (Vector.Erase E pos v w).2.1.size_ ≤ (Vector.Erase E pos v w).2.1.data_.capacity_ := by
  unfold Vector.Erase
  split
  · split
    · simp only
      split
      · rename_i w1 _
        have hp := PopBack_inv v w1 hv
        split
        · rename_i hq
          rw [hq] at hp
          exact hp
        · rename_i hq
          rw [hq] at hp
          exact hp
        · rename_i hq
          rw [hq] at hp
          exact hp
      · exact hv
      · exact hv
    · exact hv
  · exact hv
  · exact hv

theorem PushBack_inv (E : ElemType T) (F : Faults) (x : T) (v : Vector) (w : World T)
    (hv : v.size_ ≤ v.data_.capacity_) :
    (Vector.PushBack E F x v w).2.1.size_ ≤ (Vector.PushBack E F x v w).2.1.data_.capacity_ := by
  have hp := EmplaceBack_inv E F x v w hv
  unfold Vector.PushBack
  split <;> rename_i hq <;> rw [hq] at hp <;> exact hp

theorem Resize_inv (E : ElemType T) (F : Faults) (n : Nat) (v : Vector) (w : World T)
    (hv : v.size_ ≤ v.data_.capacity_) :
    (Vector.Resize E F n v w).2.1.size_ ≤ (Vector.Resize E F n v w).2.1.data_.capacity_ := by
  obtain ⟨hp, _, hn⟩ := Reserve_inv E F n v w hv
  unfold Vector.Resize
  split
  · split
    · rename_i hq
      rw [hq] at hp hn
      split
      · exact hn rfl
      · exact hp
      · exact hp
    · rename_i hq
      rw [hq] at hp
      exact hp
    · rename_i hq
      rw [hq] at hp
      exact hp
  · repeat' split
    all_goals first
      | exact hv
      | (simp only; omega)

theorem ctor_sized_inv (E : ElemType T) (F : Faults) (n : Nat) (w : World T) (v1 : Vector)
    (w1 : World T) (h : Vector.ctor_sized E F n w = (.ok v1, w1)) :
    v1.size_ ≤ v1.data_.capacity_ := by
  unfold Vector.ctor_sized at h
  rcases RawMemory.ctor_cases F n w with ⟨b, w2, hc⟩ | ⟨e, w2, hc⟩ <;> simp only [hc] at h
  · split at h
    · injection h with h1 _
      injection h1 with h1
      rw [← h1]
    · cases h
    · cases h
  · cases h

theorem ctor_copy_inv (F : Faults) (other : Vector) (w : World T) (v1 : Vector)
    (w1 : World T) (h : Vector.ctor_copy F other w = (.ok v1, w1)) :
    v1.size_ ≤ v1.data_.capacity_ ∧ v1.size_ = other.size_ ∧ v1.data_.capacity_ = other.size_ := by
  unfold Vector.ctor_copy at h
  rcases RawMemory.ctor_cases F other.size_ w with ⟨b, w2, hc⟩ | ⟨e, w2, hc⟩ <;>
    simp only [hc] at h
  · split at h
    · injection h with h1 _
      injection h1 with h1
      rw [← h1]
      exact ⟨Nat.le_refl _, rfl, rfl⟩
    · cases h
    · cases h
  · cases h

theorem operator_assign_inv (F : Faults) (same : Bool) (v other : Vector) (w : World T)
    (hv : v.size_ ≤ v.data_.capacity_) :
    (Vector.operator_assign F same v other w).2.1.size_ ≤
      (Vector.operator_assign F same v other w).2.1.data_.capacity_ := by
  unfold Vector.operator_assign
  split
  · split
    · split
      · rename_i buf w1 hq
        have hb := (ctor_copy_inv F other w buf w1 hq).1
        simp only [Vector.Swap]
        split <;> exact hb
      · exact hv
      · exact hv
    · rename_i hle
      simp only [RawMemory.Capacity] at hle
      repeat' split
      all_goals first
        | exact hv
        | (simp only; omega)
  · exact hv

/-- Claim C18. `Size() <= Capacity()` holds for the default-constructed vector and for every
vector returned by the sized, copy and move constructors, and every public operation started on
vectors satisfying it leaves the vector (and, for `Swap` and the moves, both vectors) satisfying
it, whatever the outcome of the call (normal return, exception or failed assertion). -/
theorem size_le_capacity_invariant (E : ElemType T) (F : Faults) (v other : Vector)
    (w : World T) (x : T) (pos n : Nat) (same : Bool)
    (hv : v.Size ≤ v.Capacity) (ho : other.Size ≤ other.Capacity) :
    (Vector.default.Size ≤ Vector.default.Capacity ∧
      (∀ v1 w1, Vector.ctor_sized E F n w = (.ok v1, w1) → v1.Size ≤ v1.Capacity) ∧
      (∀ v1 w1, Vector.ctor_copy F other w = (.ok v1, w1) → v1.Size ≤ v1.Capacity) ∧
      (Vector.ctor_move other).1.Size ≤ (Vector.ctor_move other).1.Capacity ∧
      (Vector.ctor_move other).2.Size ≤ (Vector.ctor_move other).2.Capacity) ∧
    ((Vector.operator_assign F same v other w).2.1.Size ≤
        (Vector.operator_assign F same v other w).2.1.Capacity ∧
      (Vector.operator_assign_move same v other).1.Size ≤
        (Vector.operator_assign_move same v other).1.Capacity ∧
      (Vector.operator_assign_move same v other).2.Size ≤
        (Vector.operator_assign_move same v other).2.Capacity ∧
      (v.Swap other).1.Size ≤ (v.Swap other).1.Capacity ∧
      (v.Swap other).2.Size ≤ (v.Swap other).2.Capacity) ∧
    ((Vector.Reserve E F n v w).2.1.Size ≤ (Vector.Reserve E F n v w).2.1.Capacity ∧
      (Vector.Resize E F n v w).2.1.Size ≤ (Vector.Resize E F n v w).2.1.Capacity ∧
      (Vector.PushBack E F x v w).2.1.Size ≤ (Vector.PushBack E F x v w).2.1.Capacity ∧
      (Vector.EmplaceBack E F x v w).2.1.Size ≤ (Vector.EmplaceBack E F x v w).2.1.Capacity ∧
      (Vector.PopBack v w).2.1.Size ≤ (Vector.PopBack v w).2.1.Capacity ∧
      (Vector.Emplace E F pos x v w).2.1.Size ≤ (Vector.Emplace E F pos x v w).2.1.Capacity ∧
      (Vector.Insert E F pos x v w).2.1.Size ≤ (Vector.Insert E F pos x v w).2.1.Capacity ∧
      (Vector.Erase E pos v w).2.1.Size ≤ (Vector.Erase E pos v w).2.1.Capacity) := by
  simp only [Vector.Size, Vector.Capacity, RawMemory.Capacity] at hv ho ⊢
  refine ⟨⟨Nat.le_refl _, ?_, ?_, ho, Nat.le_refl _⟩, ⟨?_, ?_, ?_, ho, hv⟩,
    ⟨(Reserve_inv E F n v w hv).1, Resize_inv E F n v w hv, PushBack_inv E F x v w hv,
      EmplaceBack_inv E F x v w hv, PopBack_inv v w hv, Emplace_inv E F pos x v w hv,
      Emplace_inv E F pos x v w hv, Erase_inv E pos v w hv⟩⟩
  · intro v1 w1 h
    exact ctor_sized_inv E F n w v1 w1 h
  · intro v1 w1 h
    exact (ctor_copy_inv F other w v1 w1 h).1
  · exact operator_assign_inv F same v other w hv
  · cases same
    · exact ho
    · exact hv
  · cases same
    · exact hv
    · exact ho

/-- Witness for C18: the vectors `[100,110,120]` (capacity `4`) and `[1,2,3,4,5]` (capacity `5`),
with a `Resize(9)` whose third value-initialisation throws. -/
theorem size_le_capacity_invariant_witness :
    secondVector.Size ≤ secondVector.Capacity ∧ (demoVector 0).Size ≤ (demoVector 0).Capacity ∧
    (Vector.Resize copyElem (throwAt 13) 9 secondVector pairWorld).1 = .throw .elem_ctor ∧
    (Vector.Resize copyElem (throwAt 13) 9 secondVector pairWorld).2.1.Size ≤
      (Vector.Resize copyElem (throwAt 13) 9 secondVector pairWorld).2.1.Capacity :=
  ⟨by decide, by decide, by decide,
    (size_le_capacity_invariant copyElem (throwAt 13) secondVector (demoVector 0) pairWorld 7
      11 9 false (by decide) (by decide)).2.2.2.1⟩

/-! ## Copy assignment -/

theorem copy_n_spec (F : Faults) (n : Nat) : ∀ (first d : Nat) (w : World T),
    (∀ k, k < n → (w.heap (first + k)).isSome = true) →
    (first + n ≤ d ∨ d + n ≤ first) →
    (∀ k, k < n → (w.heap (d + k)).isSome = true) →
    ((∀ k, k < n → F.ctor_throws (w.nCtor + k) = false) ∧
      copy_n F first n d w = (.ok (), w.assigned first n d)) ∨
    (∃ j, j < n ∧ F.ctor_throws (w.nCtor + j) = true ∧
      copy_n F first n d w =
        (.throw .elem_ctor, { w.assigned first j d with nCtor := w.nCtor + j + 1 })) := by
  induction n with
  | zero =>
    intro first d w _ _ _
    left
    refine ⟨by intro k hk; omega, ?_⟩
    simp only [copy_n, World.assigned]
    congr 1
    apply World.ext <;> simp
    funext a
    split_ifs <;> first | rfl | (exfalso; omega)
  | succ n ih =>
    intro first d w h hd hn
    have h0 := h 0 (by omega)
    obtain ⟨y, hy⟩ := Option.isSome_iff_exists.mp h0
    simp only [Nat.add_zero] at hy
    have hd0 := hn 0 (by omega)
    obtain ⟨z, hz⟩ := Option.isSome_iff_exists.mp hd0
    simp only [Nat.add_zero] at hz
    by_cases hf : F.ctor_throws w.nCtor = true
    · right
      refine ⟨0, by omega, by simpa using hf, ?_⟩
      simp only [copy_n, copy_assign_at, hy, hz, hf, if_true, World.assigned]
      congr 1
      apply World.ext <;> simp
      funext a
      split_ifs <;> first | rfl | (exfalso; omega)
    · have hf' : F.ctor_throws w.nCtor = false := by simpa using hf
      have key := ih (first + 1) (d + 1)
        ({ w with heap := upd w.heap d (some y), nCtor := w.nCtor + 1 })
        (by
          intro k hk
          have := h (k + 1) (by omega)
          simp only [upd]
          have hne : first + 1 + k ≠ d := by omega
          simp only [hne, if_false]
          rw [show first + 1 + k = first + (k + 1) by omega]
          exact this)
        (by omega)
        (by
          intro k hk
          have := hn (k + 1) (by omega)
          simp only [upd]
          have hne : d + 1 + k ≠ d := by omega
          simp only [hne, if_false]
          rw [show d + 1 + k = d + (k + 1) by omega]
          exact this)
      rcases key with ⟨hall, hres⟩ | ⟨j, hj, hjt, hres⟩
      · left
        refine ⟨?_, ?_⟩
        · intro k hk
          rcases k with _ | k
          · simpa using hf'
          · have := hall k (by omega)
            simp only at this
            rw [show w.nCtor + (k + 1) = w.nCtor + 1 + k by omega]
            exact this
        · simp only [copy_n, copy_assign_at, hy, hz, hf']
          simp only [Bool.false_eq_true, if_false]
          rw [hres]
          simp only [World.assigned]
          congr 1
          apply World.ext <;> simp
          · funext a
            simp only [upd]
            by_cases c1 : a = d
            · subst c1
              have e1 : ¬ (a + 1 ≤ a ∧ a < a + 1 + n) := by omega
              have e2 : a ≤ a ∧ a < a + (n + 1) := by omega
              simp only [e1, e2, if_false, if_true, and_self, Nat.sub_self, Nat.add_zero, hy]
            · by_cases c2 : d + 1 ≤ a ∧ a < d + 1 + n
              · have e2 : d ≤ a ∧ a < d + (n + 1) := by omega
                have e3 : first + 1 + (a - (d + 1)) ≠ d := by omega
                simp only [c2, e2, e3, if_false, if_true, and_self]
                congr 1
                omega
              · have e2 : ¬ (d ≤ a ∧ a < d + (n + 1)) := by omega
                simp only [c2, e2, c1, if_false]
          · omega
      · right
        refine ⟨j + 1, by omega, ?_, ?_⟩
        · simp only at hjt
          rw [show w.nCtor + (j + 1) = w.nCtor + 1 + j by omega]
          exact hjt
        · simp only [copy_n, copy_assign_at, hy, hz, hf']
          simp only [Bool.false_eq_true, if_false]
          rw [hres]
          simp only [World.assigned]
          congr 1
          apply World.ext <;> simp
          · funext a
            simp only [upd]
            by_cases c1 : a = d
            · subst c1
              have e1 : ¬ (a + 1 ≤ a ∧ a < a + 1 + j) := by omega
              have e2 : a ≤ a ∧ a < a + (j + 1) := by omega
              simp only [e1, e2, if_false, if_true, and_self, Nat.sub_self, Nat.add_zero, hy]
            · by_cases c2 : d + 1 ≤ a ∧ a < d + 1 + j
              · have e2 : d ≤ a ∧ a < d + (j + 1) := by omega
                have e3 : first + 1 + (a - (d + 1)) ≠ d := by omega
                simp only [c2, e2, e3, if_false, if_true, and_self]
                congr 1
                omega
              · have e2 : ¬ (d ≤ a ∧ a < d + (j + 1)) := by omega
                simp only [c2, e2, c1, if_false]
          · omega

theorem World.assigned_heap_dst {w : World T} {src n dst a : Nat} (h : dst ≤ a ∧ a < dst + n) :
    (w.assigned src n dst).heap a = w.heap (src + (a - dst)) := by
  simp only [World.assigned, h, and_self, if_true]

theorem World.assigned_heap_out {w : World T} {src n dst a : Nat} (h : a < dst ∨ dst + n ≤ a) :
    (w.assigned src n dst).heap a = w.heap a := by
  have c : ¬ (dst ≤ a ∧ a < dst + n) := by omega
  simp only [World.assigned, c, if_false]

theorem copy_n_cases (F : Faults) (src n dst : Nat) (w : World T)
    (hsrc : ∀ k, k < n → (w.heap (src + k)).isSome = true)
    (hdisj : src + n ≤ dst ∨ dst + n ≤ src)
    (hdst : ∀ k, k < n → (w.heap (dst + k)).isSome = true) :
    copy_n F src n dst w = (.ok (), w.assigned src n dst) ∨
    (∃ k w1, F.ctor_throws k = true ∧ copy_n F src n dst w = (.throw .elem_ctor, w1)) := by
  rcases copy_n_spec F n src dst w hsrc hdisj hdst with ⟨_, hres⟩ | ⟨j, _, hjt, hres⟩
  · exact Or.inl hres
  · exact Or.inr ⟨_, _, hjt, hres⟩

/-- Copy assignment into a destination whose capacity is too small: copy-construct a new vector,
swap, destroy the old contents. -/
theorem operator_assign_realloc (F : Faults) (dst src : Vector) (w : World T) (ds ss : List T)
    (hd : Holds dst w ds) (hs : Holds src w ss)
    (hdisj : dst.data_.buffer_ + dst.data_.capacity_ ≤ src.data_.buffer_ ∨
      src.data_.buffer_ + src.data_.capacity_ ≤ dst.data_.buffer_)
    (hgt : dst.data_.capacity_ < ss.length) :
    (∃ w1, Vector.operator_assign F false dst src w =
        (.ok (), ⟨⟨w.brk, ss.length⟩, ss.length⟩, w1) ∧
      Holds ⟨⟨w.brk, ss.length⟩, ss.length⟩ w1 ss ∧ Holds src w1 ss ∧
      w1.nAlloc = w.nAlloc + 1 ∧ w1.brk = w.brk + ss.length) ∨
    (∃ e w1, Vector.operator_assign F false dst src w = (.throw e, dst, w1) ∧
      ((e = .bad_alloc ∧ F.bad_alloc w.nAlloc = true) ∨
        (e = .elem_ctor ∧ ∃ k, F.ctor_throws k = true))) := by
  have hdl := hd.live
  have hsl := hs.live
  have hsfr := fun w1 : World T => @Holds.frame T src w w1 ss hs
  obtain ⟨⟨b, c⟩, n⟩ := dst
  obtain ⟨⟨sb, sc⟩, sn⟩ := src
  obtain ⟨hd1, hd2, hd3, hd4⟩ := hd
  obtain ⟨hs1, hs2, hs3, hs4⟩ := hs
  simp only at hd1 hd2 hd3 hd4 hs1 hs2 hs3 hs4 hdl hsl hsfr hdisj hgt ⊢
  subst hd1 hs1
  have hN : ss.length ≠ 0 := by omega
  have hgt' : ss.length > c := hgt
  simp only [Vector.operator_assign, Bool.not_false, if_true, RawMemory.Capacity, hgt',
    Vector.ctor_copy, RawMemory.GetAddress]
  by_cases hA : F.bad_alloc w.nAlloc = true
  · right
    rw [RawMemory.ctor_bad_alloc F _ w hN hA]
    exact ⟨_, _, rfl, Or.inl ⟨rfl, hA⟩⟩
  · have hA' : F.bad_alloc w.nAlloc = false := by simpa using hA
    rw [RawMemory.ctor_ok F _ w hN hA' (World.not_wraps_of_le (by omega))]
    dsimp only
    have hsrc : ∀ k, k < ss.length → ((w.alloc ss.length).heap (sb + k)).isSome = true := by
      intro k hk
      rw [World.alloc_heap_out (by omega)]
      exact hsl k hk
    have hdst : ∀ k, k < ss.length → (w.alloc ss.length).heap (w.brk + k) = Option.none := by
      intro k hk
      rw [World.alloc_heap_in (by omega)]
    rcases uninitialized_copy_n_cases F sb ss.length w.brk _ hsrc (by omega) hdst
        (by show _ ≤ w.brk + ss.length; omega) with
      ⟨hall, hres⟩ | ⟨j, hj, hjt, hres⟩
    · left
      rw [hres]
      dsimp only [Vector.Swap, RawMemory.Swap, Vector.dtor, RawMemory.GetAddress]
      rw [destroy_n_cleared]
      · dsimp only
        refine ⟨_, rfl, ⟨rfl, Nat.le_refl _, ?_, ?_⟩, hsfr _ ?_ ?_, ?_, ?_⟩
        · simp [World.cleared, World.copied, World.alloc]
        · intro i hi
          simp only at hi ⊢
          rw [RawMemory.dtor_eq, operator_delete_heap, World.cleared_heap_out (by omega),
            World.copied_heap_dst (by omega), World.alloc_heap_out (by omega),
            Nat.add_sub_cancel_left]
          exact hs4 i (by omega)
        · intro a ha1 ha2
          rw [RawMemory.dtor_eq, operator_delete_heap, World.cleared_heap_out (by omega),
            World.copied_heap_out (by omega), World.alloc_heap_out (by omega)]
        · simp [World.cleared, World.copied, World.alloc]
        · simp [World.cleared, World.copied, World.alloc]
        · simp [World.cleared, World.copied, World.alloc]
      · intro k hk
        rw [World.copied_heap_out (by omega), World.alloc_heap_out (by omega)]
        exact hdl k hk
    · right
      rw [hres]
      exact ⟨_, _, rfl, Or.inr ⟨rfl, _, hjt⟩⟩

/-- Copy assignment into a destination with enough capacity: copy-assign the common prefix, then
destroy the surplus or copy-construct the missing tail, all in place. -/
theorem operator_assign_in_place (F : Faults) (dst src : Vector) (w : World T) (ds ss : List T)
    (hd : Holds dst w ds) (hs : Holds src w ss)
    (hdisj : dst.data_.buffer_ + dst.data_.capacity_ ≤ src.data_.buffer_ ∨
      src.data_.buffer_ + src.data_.capacity_ ≤ dst.data_.buffer_)
    (hle : ss.length ≤ dst.data_.capacity_) :
    (∃ w1, Vector.operator_assign F false dst src w =
        (.ok (), ⟨dst.data_, ss.length⟩, w1) ∧
      Holds ⟨dst.data_, ss.length⟩ w1 ss ∧ Holds src w1 ss ∧
      w1.nAlloc = w.nAlloc ∧ w1.brk = w.brk) ∨
    (∃ e w1, Vector.operator_assign F false dst src w = (.throw e, dst, w1) ∧
      ((e = .bad_alloc ∧ F.bad_alloc w.nAlloc = true) ∨
        (e = .elem_ctor ∧ ∃ k, F.ctor_throws k = true))) := by
  have hdl := hd.live
  have hsl := hs.live
  have hsfr := fun w1 : World T => @Holds.frame T src w w1 ss hs
  obtain ⟨⟨b, c⟩, n⟩ := dst
  obtain ⟨⟨sb, sc⟩, sn⟩ := src
  obtain ⟨hd1, hd2, hd3, hd4⟩ := hd
  obtain ⟨hs1, hs2, hs3, hs4⟩ := hs
  simp only at hd1 hd2 hd3 hd4 hs1 hs2 hs3 hs4 hdl hsl hsfr hdisj hle ⊢
  subst hd1 hs1
  have hngt : ¬ (ss.length > c) := by omega
  simp only [Vector.operator_assign, Bool.not_false, if_true, RawMemory.Capacity, hngt,
    if_false, RawMemory.GetAddress]
  have hmin1 : min ds.length ss.length ≤ ds.length := Nat.min_le_left _ _
  have hmin2 : min ds.length ss.length ≤ ss.length := Nat.min_le_right _ _
  rcases copy_n_cases F sb (min ds.length ss.length) b w
      (fun k hk => hsl k (by omega)) (by omega) (fun k hk => hdl k (by omega)) with
    hres | ⟨k, w1, hkt, hres⟩
  · rw [hres]
    dsimp only
    by_cases hshrink : ds.length > ss.length
    · -- destroy the surplus
      left
      have hm : min ds.length ss.length = ss.length := Nat.min_eq_right (by omega)
      simp only [hshrink, if_true, RawMemory.add, hle, hm]
      rw [destroy_n_cleared]
      · dsimp only
        refine ⟨_, rfl, ⟨rfl, hle, ?_, ?_⟩, hsfr _ ?_ ?_, ?_, ?_⟩
        · simpa [World.cleared, World.assigned] using hd3
        · intro i hi
          simp only at hi ⊢
          by_cases c1 : i < ss.length
          · rw [World.cleared_heap_out (by omega), World.assigned_heap_dst (by omega),
              Nat.add_sub_cancel_left]
            exact hs4 i (by omega)
          · by_cases c2 : i < ds.length
            · rw [World.cleared_heap_in (by omega)]
              exact (List.getElem?_eq_none (by omega)).symm
            · rw [World.cleared_heap_out (by omega), World.assigned_heap_out (by omega),
                hd4 i hi, List.getElem?_eq_none (by omega), List.getElem?_eq_none (by omega)]
        · intro a ha1 ha2
          rw [World.cleared_heap_out (by omega), World.assigned_heap_out (by omega)]
        · simp [World.cleared, World.assigned]
        · simp [World.cleared, World.assigned]
        · simp [World.cleared, World.assigned]
      · intro k hk
        rw [World.assigned_heap_out (by omega),
          show b + ss.length + k = b + (ss.length + k) by omega]
        exact hdl _ (by omega)
    · -- copy-construct the missing tail
      have hm : min ds.length ss.length = ds.length := Nat.min_eq_left (by omega)
      have hds : ds.length ≤ sc := by omega
      simp only [hshrink, if_false, RawMemory.add, hds, hd2, if_true, hm]
      rcases uninitialized_copy_n_cases F (sb + ds.length) (ss.length - ds.length)
          (b + ds.length) (w.assigned sb ds.length b)
          (by
            intro k hk
            rw [World.assigned_heap_out (by omega),
              show sb + ds.length + k = sb + (ds.length + k) by omega]
            exact hsl _ (by omega))
          (by omega)
          (by
            intro k hk
            rw [World.assigned_heap_out (by omega),
              show b + ds.length + k = b + (ds.length + k) by omega, hd4 _ (by omega)]
            exact List.getElem?_eq_none (by omega))
          (by show _ ≤ w.brk; omega) with
        ⟨hall, hres2⟩ | ⟨j, hj, hjt, hres2⟩
      · left
        rw [hres2]
        dsimp only
        refine ⟨_, rfl, ⟨rfl, hle, ?_, ?_⟩, hsfr _ ?_ ?_, ?_, ?_⟩
        · simpa [World.copied, World.assigned] using hd3
        · intro i hi
          simp only at hi ⊢
          by_cases c1 : i < ds.length
          · rw [World.copied_heap_out (by omega), World.assigned_heap_dst (by omega),
              Nat.add_sub_cancel_left]
            exact hs4 i (by omega)
          · by_cases c2 : i < ss.length
            · rw [World.copied_heap_dst (by omega), World.assigned_heap_out (by omega),
                show sb + ds.length + (b + i - (b + ds.length)) = sb + i by omega]
              exact hs4 i (by omega)
            · rw [World.copied_heap_out (by omega), World.assigned_heap_out (by omega),
                hd4 i hi, List.getElem?_eq_none (by omega), List.getElem?_eq_none (by omega)]
        · intro a ha1 ha2
          rw [World.copied_heap_out (by omega), World.assigned_heap_out (by omega)]
        · simp [World.copied, World.assigned]
        · simp [World.copied, World.assigned]
        · simp [World.copied, World.assigned]
      · right
        rw [hres2]
        exact ⟨_, _, rfl, Or.inr ⟨rfl, _, hjt⟩⟩
  · right
    rw [hres]
    exact ⟨_, _, rfl, Or.inr ⟨rfl, _, hkt⟩⟩

/-- Claim C11. Copy assignment `dst = src` between two vectors with separate storage, `dst`
holding `ds` and `src` holding `ss`. When the call returns normally, `dst` holds `ss` with
`Size() == ss.length`, `src` still holds `ss`, and the two buffers are disjoint, so any later
change of the world confined to the buffer of `src` leaves `dst` holding `ss`; if
`ss.length <= Capacity()` (whether shrinking or growing) the buffer and the capacity of `dst` are
unchanged and nothing is allocated, otherwise one block is allocated and the capacity becomes
`ss.length`. The call fails only when an allocation or an element operation throws, and then the
members of `dst` are unchanged. Self-assignment returns at once with vector and world
unchanged. -/
theorem copy_assignment (F : Faults) (dst src : Vector) (w : World T) (ds ss : List T)
    (hd : Holds dst w ds) (hs : Holds src w ss)
    (hdisj : dst.begin + dst.Capacity ≤ src.begin ∨ src.begin + src.Capacity ≤ dst.begin) :
    ((∃ v1 w1, Vector.operator_assign F false dst src w = (.ok (), v1, w1) ∧
        Holds v1 w1 ss ∧ v1.Size = ss.length ∧ Holds src w1 ss ∧
        (v1.begin + v1.Capacity ≤ src.begin ∨ src.begin + src.Capacity ≤ v1.begin) ∧
        (∀ w2 : World T, w1.brk ≤ w2.brk →
          (∀ a, (a < src.begin ∨ src.begin + src.Capacity ≤ a) → w2.heap a = w1.heap a) →
          Holds v1 w2 ss) ∧
        (ss.length ≤ dst.Capacity →
          v1.Capacity = dst.Capacity ∧ v1.begin = dst.begin ∧ w1.nAlloc = w.nAlloc) ∧
        (dst.Capacity < ss.length → v1.Capacity = ss.length ∧ w1.nAlloc = w.nAlloc + 1)) ∨
      (∃ e w1, Vector.operator_assign F false dst src w = (.throw e, dst, w1) ∧
        ¬ F.NoThrow)) ∧
    Vector.operator_assign F true dst dst w = (.ok (), dst, w) := by
  refine ⟨?_, rfl⟩
  simp only [Vector.begin, Vector.Capacity, RawMemory.GetAddress, RawMemory.Capacity,
    Vector.Size] at hdisj ⊢
  have hs3 : src.data_.buffer_ + src.data_.capacity_ ≤ w.brk := hs.2.2.1
  have hsl : ss.length ≤ src.data_.capacity_ := hs.2.1
  have hfail : ∀ e : Exn, ((e = .bad_alloc ∧ F.bad_alloc w.nAlloc = true) ∨
      (e = .elem_ctor ∧ ∃ k, F.ctor_throws k = true)) → ¬ F.NoThrow := by
    intro e hwhy hF
    rcases hwhy with ⟨_, hA⟩ | ⟨_, hk⟩
    · exact hF.alloc hA
    · exact hF.ctor hk
  by_cases hle : ss.length ≤ dst.data_.capacity_
  · rcases operator_assign_in_place F dst src w ds ss hd hs hdisj hle with
      ⟨w1, e1, hH, hS, hna, hbrk⟩ | ⟨e, w1, e1, hwhy⟩
    · left
      refine ⟨_, w1, e1, hH, rfl, hS, hdisj, ?_, fun _ => ⟨rfl, rfl, hna⟩, fun hh => ?_⟩
      · intro w2 hb hheap
        refine hH.frame ?_ hb
        intro a ha1 ha2
        simp only at ha1 ha2
        exact hheap a (by omega)
      · exact absurd hh (by omega)
    · exact Or.inr ⟨e, w1, e1, hfail e hwhy⟩
  · rcases operator_assign_realloc F dst src w ds ss hd hs hdisj (by omega) with
      ⟨w1, e1, hH, hS, hna, hbrk⟩ | ⟨e, w1, e1, hwhy⟩
    · left
      refine ⟨_, w1, e1, hH, rfl, hS, Or.inr (by simpa using hs3), ?_,
        fun hh => absurd hh hle, fun _ => ⟨rfl, hna⟩⟩
      intro w2 hb hheap
      refine hH.frame ?_ hb
      intro a ha1 ha2
      simp only at ha1 ha2
      exact hheap a (by omega)
    · exact Or.inr ⟨e, w1, e1, hfail e hwhy⟩

/-- Witness for C11: `dst = [100,110,120]` (capacity `4`) assigned from `src = [1,2,3,4,5]`. -/
theorem copy_assignment_witness :
    Holds secondVector pairWorld [100, 110, 120] ∧ Holds (demoVector 0) pairWorld [1, 2, 3, 4, 5] ∧
    ((demoVector 0).begin + (demoVector 0).Capacity ≤ secondVector.begin) ∧
    (Vector.operator_assign Faults.none false secondVector (demoVector 0) pairWorld).1 = .ok () ∧
    Holds (Vector.operator_assign Faults.none false secondVector (demoVector 0) pairWorld).2.1
      (Vector.operator_assign Faults.none false secondVector (demoVector 0) pairWorld).2.2
      [1, 2, 3, 4, 5] ∧
    Vector.operator_assign Faults.none true secondVector secondVector pairWorld =
      (.ok (), secondVector, pairWorld) :=
  ⟨by decide, by decide, by decide, by decide, by decide,
    (copy_assignment Faults.none secondVector (demoVector 0) pairWorld [100, 110, 120]
      [1, 2, 3, 4, 5] (by decide) (by decide) (Or.inr (by decide))).2⟩

/-! ## `SimpleVector`: checked access -/

/-- Claim C14. `At(index)` (either overload) signals `std::out_of_range` exactly when
`index >= GetSize()`; when `index < GetSize()` it returns the element at that index. `At` only
reads the vector: it is a function of the vector and the index that yields the element and
no new state. -/
theorem at_out_of_range_iff (v : SimpleVector T) (index : Nat)
    (hwf : v.GetSize ≤ v.elements_.cells.length) :
    (v.At index = .out_of_range ↔ index ≥ v.GetSize) ∧
    (index < v.GetSize →
      ∃ y, v.items[index]? = some y ∧ v.elements_.cells[index]? = some y ∧
        v.At index = .ok y) := by
  simp only [SimpleVector.GetSize] at hwf ⊢
  constructor
  · constructor
    · intro h
      by_contra hc
      unfold SimpleVector.At at h
      rw [if_neg hc] at h
      split at h <;> cases h
    · intro h
      unfold SimpleVector.At
      rw [if_pos h]
  · intro hlt
    have hlen : index < v.elements_.cells.length := by omega
    refine ⟨v.elements_.cells[index], ?_, List.getElem?_eq_getElem hlen, ?_⟩
    · unfold SimpleVector.items
      rw [List.getElem?_take, if_pos hlt]
      exact List.getElem?_eq_getElem hlen
    · unfold SimpleVector.At ArrayPtr.index
      rw [if_neg (by omega), List.getElem?_eq_getElem hlen]

/-- Witness for C14: `{1,2,3}` read at index `1`. -/
theorem at_out_of_range_iff_witness :
    (⟨⟨[1, 2, 3]⟩, 3, 3⟩ : SimpleVector Nat).GetSize ≤ [1, 2, 3].length ∧
    ((⟨⟨[1, 2, 3]⟩, 3, 3⟩ : SimpleVector Nat).At 1 = .out_of_range ↔
      1 ≥ (⟨⟨[1, 2, 3]⟩, 3, 3⟩ : SimpleVector Nat).GetSize) ∧
    (⟨⟨[1, 2, 3]⟩, 3, 3⟩ : SimpleVector Nat).At 1 = .ok 2 ∧
    (⟨⟨[1, 2, 3]⟩, 3, 3⟩ : SimpleVector Nat).At 3 = .out_of_range :=
  ⟨by decide, (at_out_of_range_iff ⟨⟨[1, 2, 3]⟩, 3, 3⟩ 1 (by decide)).1, by decide, by decide⟩

/-! ## `SimpleVector`: `Resize` and `Insert` on concrete vectors -/

/-- Claim C15, evaluated on `{1,2,3}`, `Resize(1)`, `Resize(5)`: the second call takes the
`new_size > capacity` branch, which moves `capacity_` (not `size_`) elements and resets only the
indices from `capacity_` on, so the vector holds `[1,2,3,0,0]`: the new elements at indices `1`
and `2` are the stale `2` and `3`, not `Type{}`. The `new_size <= capacity` branch, `Resize(3)` on
the same state, resets every new element and gives `[1,0,0]`. -/
theorem resize_beyond_capacity_keeps_stale_values :
    SimpleVector.ctor_init freshInt [1, 2, 3] = .ok ⟨⟨[1, 2, 3]⟩, 3, 3⟩ ∧
    SimpleVector.Resize intElem freshInt 1 ⟨⟨[1, 2, 3]⟩, 3, 3⟩ = .ok ⟨⟨[1, 2, 3]⟩, 1, 3⟩ ∧
    (⟨⟨[1, 2, 3]⟩, 1, 3⟩ : SimpleVector Nat).items = [1] ∧
    SimpleVector.Resize intElem freshInt 5 ⟨⟨[1, 2, 3]⟩, 1, 3⟩ =
      .ok ⟨⟨[1, 2, 3, 0, 0]⟩, 5, 5⟩ ∧
    (⟨⟨[1, 2, 3, 0, 0]⟩, 5, 5⟩ : SimpleVector Nat).items = [1, 2, 3, 0, 0] ∧
    (⟨⟨[1, 2, 3, 0, 0]⟩, 5, 5⟩ : SimpleVector Nat).items ≠
      [1] ++ List.replicate 4 intElem.value_init ∧
    SimpleVector.Resize intElem freshInt 3 ⟨⟨[1, 2, 3]⟩, 1, 3⟩ = .ok ⟨⟨[1, 0, 0]⟩, 3, 3⟩ := by
  refine ⟨by decide, by decide, by decide, by decide, by decide, by decide, by decide⟩

/-- Claim C16, evaluated on full vectors of capacity `0` and `1`: `capacity_` is set to
`std::max(capacity_ * 2, size_ + 1)` after `++size_`, so inserting into the empty vector gives
capacity `2` (not `1`) and inserting into a full vector of capacity `1` gives capacity `3`
(not `2`), in both overloads, while the array then holds `1` resp. `2` objects only. From
capacity `2` on the result is the doubled capacity, as for `{1,2}` and `{1,2,3,4,5}`. -/
theorem insert_capacity_of_small_full_vectors :
    SimpleVector.Insert freshInt 0 7 (SimpleVector.default : SimpleVector Nat) =
      .ok (0, ⟨⟨[7]⟩, 1, 2⟩) ∧
    SimpleVector.Insert_rvalue intElem freshInt 0 7 (SimpleVector.default : SimpleVector Nat) =
      .ok (0, ⟨⟨[7]⟩, 1, 2⟩) ∧
    SimpleVector.Insert freshInt 1 7 ⟨⟨[1]⟩, 1, 1⟩ = .ok (1, ⟨⟨[1, 7]⟩, 2, 3⟩) ∧
    SimpleVector.Insert_rvalue intElem freshInt 1 7 ⟨⟨[1]⟩, 1, 1⟩ = .ok (1, ⟨⟨[1, 7]⟩, 2, 3⟩) ∧
    SimpleVector.Insert freshInt 2 7 ⟨⟨[1, 2]⟩, 2, 2⟩ = .ok (2, ⟨⟨[1, 2, 7]⟩, 3, 4⟩) ∧
    SimpleVector.Insert_rvalue intElem freshInt 2 7 ⟨⟨[1, 2]⟩, 2, 2⟩ =
      .ok (2, ⟨⟨[1, 2, 7, freshInt 3]⟩, 3, 4⟩) ∧
    SimpleVector.Insert freshInt 2 99 ⟨⟨[1, 2, 3, 4, 5]⟩, 5, 5⟩ =
      .ok (2, ⟨⟨[1, 2, 99, 3, 4, 5]⟩, 6, 10⟩) := by
  refine ⟨by decide, by decide, by decide, by decide, by decide, by decide, by decide⟩

/-- Claim C17, evaluated on `{1,2,3,4,5}` (size and capacity `5`), index `2`, value `99`: the
`Type&&` overload overwrites index `2` of the new array with `99` and moves the tail to the
indices from `size_ + 1` on, so the vector holds `[1,2,99,4,5,x]` where `x` is the untouched
sixth object of the new array; into the full vector `{1}` at index `0` the tail is moved past the
end of the new array. The `const Type&` overload gives `[1,2,99,3,4,5]`, and so do both overloads
when the vector has spare capacity. -/
theorem insert_rvalue_at_capacity_misplaces_tail :
    SimpleVector.Insert_rvalue intElem freshInt 2 99 ⟨⟨[1, 2, 3, 4, 5]⟩, 5, 5⟩ =
      .ok (2, ⟨⟨[1, 2, 99, 4, 5, freshInt 5, 3, 4, 5, freshInt 9]⟩, 6, 10⟩) ∧
    (⟨⟨[1, 2, 99, 4, 5, freshInt 5, 3, 4, 5, freshInt 9]⟩, 6, 10⟩ : SimpleVector Nat).items =
      [1, 2, 99, 4, 5, freshInt 5] ∧
    (⟨⟨[1, 2, 99, 4, 5, freshInt 5, 3, 4, 5, freshInt 9]⟩, 6, 10⟩ : SimpleVector Nat).items ≠
      [1, 2, 99, 3, 4, 5] ∧
    SimpleVector.Insert_rvalue intElem freshInt 0 99 ⟨⟨[1]⟩, 1, 1⟩ = .undefined ∧
    SimpleVector.Insert freshInt 2 99 ⟨⟨[1, 2, 3, 4, 5]⟩, 5, 5⟩ =
      .ok (2, ⟨⟨[1, 2, 99, 3, 4, 5]⟩, 6, 10⟩) ∧
    SimpleVector.Insert freshInt 2 99 ⟨⟨[1, 2, 3, 4, 5, 0, 0]⟩, 5, 7⟩ =
      .ok (2, ⟨⟨[1, 2, 99, 3, 4, 5, 0]⟩, 6, 7⟩) ∧
    SimpleVector.Insert_rvalue intElem freshInt 2 99 ⟨⟨[1, 2, 3, 4, 5, 0, 0]⟩, 5, 7⟩ =
      .ok (2, ⟨⟨[1, 2, 99, 3, 4, 5, 0]⟩, 6, 7⟩) := by
  refine ⟨by decide, by decide, by decide, by decide, by decide, by decide, by decide⟩

/-! ## `SimpleVector`: equality -/

theorem lexicographical_compare_both_false [LinearOrder T] :
    ∀ l r : List T, l.length = r.length →
      ((lexicographical_compare l r = false ∧ lexicographical_compare r l = false) ↔ l = r)
  | [], [], _ => by simp [lexicographical_compare]
  | [], _ :: _, h => by simp at h
  | _ :: _, [], h => by simp at h
  | a :: as, b :: bs, h => by
    have hlen : as.length = bs.length := by simpa using h
    have ih := lexicographical_compare_both_false as bs hlen
    rcases lt_trichotomy a b with hab | hab | hab
    · have hba : ¬ b < a := not_lt.mpr (le_of_lt hab)
      have hne : a ≠ b := ne_of_lt hab
      simp [lexicographical_compare, hab, hba, hne]
    · subst hab
      simp only [lexicographical_compare, lt_irrefl, if_false, List.cons.injEq, true_and]
      exact ih
    · have hba : ¬ a < b := not_lt.mpr (le_of_lt hab)
      have hne : a ≠ b := (ne_of_lt hab).symm
      simp [lexicographical_compare, hab, hba, hne]

theorem SimpleVector.items_length (v : SimpleVector T)
    (hwf : v.GetSize ≤ v.elements_.cells.length) : v.items.length = v.GetSize := by
  simp only [SimpleVector.items, SimpleVector.GetSize, List.length_take] at hwf ⊢
  omega

theorem SimpleVector.items_eq_iff (lhs rhs : SimpleVector T) (hs : lhs.GetSize = rhs.GetSize) :
    lhs.items = rhs.items ↔
      ∀ i, i < lhs.GetSize → lhs.elements_.cells[i]? = rhs.elements_.cells[i]? := by
  simp only [SimpleVector.items, SimpleVector.GetSize] at hs ⊢
  constructor
  · intro h i hi
    have := congrArg (fun l : List T => l[i]?) h
    simp only [List.getElem?_take, if_pos hi, ← hs] at this
    exact this
  · intro h
    apply List.ext_getElem?
    intro i
    simp only [List.getElem?_take, ← hs]
    split_ifs with hi
    · exact h i hi
    · rfl

/-- Claim C20. For a linearly ordered element type, `operator==` (equal sizes and `lhs >= rhs`
and `rhs >= lhs`, with `>=` the negation of the lexicographic `<`) returns true exactly when the
two vectors have the same size and equal elements at every index below it, that is when their
ranges `[begin(), end())` are equal; `operator!=` is its negation. -/
theorem equality_is_elementwise [LinearOrder T] (lhs rhs : SimpleVector T)
    (hl : lhs.GetSize ≤ lhs.elements_.cells.length)
    (hr : rhs.GetSize ≤ rhs.elements_.cells.length) :
    (SimpleVector.operator_eq lhs rhs = true ↔
      lhs.GetSize = rhs.GetSize ∧
        ∀ i, i < lhs.GetSize → lhs.elements_.cells[i]? = rhs.elements_.cells[i]?) ∧
    (SimpleVector.operator_eq lhs rhs = true ↔ lhs.items = rhs.items) ∧
    SimpleVector.operator_ne lhs rhs = !SimpleVector.operator_eq lhs rhs := by
  have hll := SimpleVector.items_length lhs hl
  have hrl := SimpleVector.items_length rhs hr
  have key : SimpleVector.operator_eq lhs rhs = true ↔ lhs.items = rhs.items := by
    unfold SimpleVector.operator_eq SimpleVector.operator_ge SimpleVector.operator_lt
    by_cases hs : lhs.GetSize = rhs.GetSize
    · have hlen : lhs.items.length = rhs.items.length := by rw [hll, hrl, hs]
      have := lexicographical_compare_both_false lhs.items rhs.items hlen
      rw [if_pos hs, ← this]
      cases lexicographical_compare lhs.items rhs.items <;>
        cases lexicographical_compare rhs.items lhs.items <;> simp
    · rw [if_neg hs]
      constructor
      · intro h
        cases h
      · intro h
        exact absurd (by rw [← hll, ← hrl, h]) hs
  refine ⟨?_, key, rfl⟩
  rw [key]
  constructor
  · intro h
    have hs : lhs.GetSize = rhs.GetSize := by rw [← hll, ← hrl, h]
    exact ⟨hs, (SimpleVector.items_eq_iff lhs rhs hs).mp h⟩
  · rintro ⟨hs, h⟩
    exact (SimpleVector.items_eq_iff lhs rhs hs).mpr h

/-- Witness for C20: `{1,2,3}` resized to `2` against `{1,2}`, and against `{1,3}`. -/
theorem equality_is_elementwise_witness :
    (⟨⟨[1, 2, 3]⟩, 2, 3⟩ : SimpleVector Nat).GetSize ≤ [1, 2, 3].length ∧
    (⟨⟨[1, 2]⟩, 2, 2⟩ : SimpleVector Nat).GetSize ≤ [1, 2].length ∧
    (SimpleVector.operator_eq (⟨⟨[1, 2, 3]⟩, 2, 3⟩ : SimpleVector Nat) ⟨⟨[1, 2]⟩, 2, 2⟩ = true ↔
      (⟨⟨[1, 2, 3]⟩, 2, 3⟩ : SimpleVector Nat).items = (⟨⟨[1, 2]⟩, 2, 2⟩ : SimpleVector Nat).items) ∧
    SimpleVector.operator_eq (⟨⟨[1, 2, 3]⟩, 2, 3⟩ : SimpleVector Nat) ⟨⟨[1, 2]⟩, 2, 2⟩ = true ∧
    SimpleVector.operator_eq (⟨⟨[1, 2, 3]⟩, 2, 3⟩ : SimpleVector Nat) ⟨⟨[1, 3]⟩, 2, 2⟩ = false ∧
    SimpleVector.operator_ne (⟨⟨[1, 2, 3]⟩, 2, 3⟩ : SimpleVector Nat) ⟨⟨[1, 3]⟩, 2, 2⟩ = true :=
  ⟨by decide, by decide,
    (equality_is_elementwise (⟨⟨[1, 2, 3]⟩, 2, 3⟩ : SimpleVector Nat) ⟨⟨[1, 2]⟩, 2, 2⟩
      (by decide) (by decide)).2.1,
    by decide, by decide, by decide⟩

/-! ## The assertions of `RawMemory` -/

theorem Res.ok_ne_abort {α β γ : Type} {r : Res α × β × γ} {a : α} {b : β} {c : γ}
    (h : r = (.ok a, b, c)) : r.1 ≠ .abort := by
  rw [h]
  intro hh
  cases hh

theorem Res.throw_ne_abort {α β γ : Type} {r : Res α × β × γ} {e : Exn} {b : β} {c : γ}
    (h : r = (.throw e, b, c)) : r.1 ≠ .abort := by
  rw [h]
  intro hh
  cases hh

theorem operator_assign_no_abort (F : Faults) (same : Bool) (dst src : Vector) (w : World T)
    (ds ss : List T) (hd : Holds dst w ds) (hs : Holds src w ss)
    (hdisj : dst.data_.buffer_ + dst.data_.capacity_ ≤ src.data_.buffer_ ∨
      src.data_.buffer_ + src.data_.capacity_ ≤ dst.data_.buffer_) :
    (Vector.operator_assign F same dst src w).1 ≠ .abort := by
  cases same
  · by_cases hle : ss.length ≤ dst.data_.capacity_
    · rcases operator_assign_in_place F dst src w ds ss hd hs hdisj hle with
        ⟨w1, e1, _⟩ | ⟨e, w1, e1, _⟩
      · exact Res.ok_ne_abort e1
      · exact Res.throw_ne_abort e1
    · rcases operator_assign_realloc F dst src w ds ss hd hs hdisj (by omega) with
        ⟨w1, e1, _⟩ | ⟨e, w1, e1, _⟩
      · exact Res.ok_ne_abort e1
      · exact Res.throw_ne_abort e1
  · have e1 : Vector.operator_assign F true dst src w = (.ok (), dst, w) := rfl
    exact Res.ok_ne_abort e1

/-- Claim C21. A failed assertion of `RawMemory::operator+` or `RawMemory::operator[]` is the
outcome `abort` of `RawMemory.add` resp. `RawMemory.index`. For vectors with
`Size() <= Capacity()` every use of the two operators inside `Vector` passes its assertion:
`data_ + size_` (in `end()`, `EmplaceBack` and copy assignment) and `data_[index]` for
`index < Size()`; `new_data + size_` and `new_data + distance` for the buffer allocated on the
growth paths of `EmplaceBack` and of `Emplace` with `pos` in `[begin(), end()]`; and
`data_ + other.size_`, `other.data_ + size_`, `data_ + size_` on the in-place paths of copy
assignment. Consequently no public operation called within its precondition on a vector holding
some sequence `xs` aborts: it returns or throws (for `Reserve(n)` and `Resize(n)`, which use
neither operator, when the byte count `n * sizeof(T)` does not wrap in `size_t`). -/
theorem raw_memory_assertions_unreachable (E : ElemType T) (F : Faults) (v other : Vector)
    (w : World T) (x : T) (pos index n : Nat)
    (hv : v.Size ≤ v.Capacity) (ho : other.Size ≤ other.Capacity) :
    (v.«end» = .ok (v.begin + v.Size) ∧
      v.data_.add v.size_ = .ok (v.data_.GetAddress + v.size_) ∧
      (index < v.Size →
        v.data_.index index = .ok (v.data_.GetAddress + index) ∧
        v.subscript index = .ok (v.begin + index))) ∧
    (∀ new_data w1,
      RawMemory.ctor F (if v.size_ = 0 then 1 else v.size_ * 2) w = (.ok new_data, w1) →
        new_data.add v.size_ = .ok (new_data.GetAddress + v.size_) ∧
        (v.begin ≤ pos ∧ pos ≤ v.begin + v.Size →
          new_data.add (pos - v.begin) = .ok (new_data.GetAddress + (pos - v.begin)))) ∧
    (other.size_ ≤ v.data_.Capacity →
      (v.size_ > other.size_ →
        v.data_.add other.size_ = .ok (v.data_.GetAddress + other.size_)) ∧
      (¬ v.size_ > other.size_ →
        other.data_.add v.size_ = .ok (other.data_.GetAddress + v.size_) ∧
        v.data_.add v.size_ = .ok (v.data_.GetAddress + v.size_))) ∧
    (∀ xs, Holds v w xs →
      (Vector.EmplaceBack E F x v w).1 ≠ .abort ∧
      (Vector.PushBack E F x v w).1 ≠ .abort ∧
      (v.begin ≤ pos ∧ pos ≤ v.begin + v.Size →
        (Vector.Emplace E F pos x v w).1 ≠ .abort ∧
        (Vector.Insert E F pos x v w).1 ≠ .abort) ∧
      (v.begin ≤ pos ∧ pos < v.begin + v.Size → (Vector.Erase E pos v w).1 ≠ .abort) ∧
      (Vector.PopBack v w).1 ≠ .abort ∧
      (n * w.sizeof_T < 2 ^ 64 → (Vector.Reserve E F n v w).1 ≠ .abort) ∧
      (n * w.sizeof_T < 2 ^ 64 → (Vector.Resize E F n v w).1 ≠ .abort) ∧
      (∀ (ys : List T) (same : Bool), Holds other w ys →
        (v.begin + v.Capacity ≤ other.begin ∨ other.begin + other.Capacity ≤ v.begin) →
        (Vector.operator_assign F same v other w).1 ≠ .abort)) := by
  simp only [Vector.Size, Vector.Capacity, RawMemory.Capacity, Vector.begin,
    RawMemory.GetAddress] at hv ho ⊢
  refine ⟨⟨?_, ?_, ?_⟩, ?_, ?_, ?_⟩
  · simp only [Vector.«end», RawMemory.add, hv, if_true]
  · simp only [RawMemory.add, hv, if_true]
  · intro hi
    have hc : index < v.data_.capacity_ := by omega
    simp only [Vector.subscript, RawMemory.index, hi, hc, if_true, and_self]
  · intro new_data w1 hc
    have hcap := RawMemory.ctor_capacity F _ w new_data w1 hc
    have h1 : v.size_ ≤ new_data.capacity_ := by
      rw [hcap]
      split_ifs <;> omega
    refine ⟨by simp only [RawMemory.add, h1, if_true], fun hp => ?_⟩
    have h2 : pos - v.data_.buffer_ ≤ new_data.capacity_ := by omega
    simp only [RawMemory.add, h2, if_true]
  · intro hle
    refine ⟨fun _ => ?_, fun hgt => ⟨?_, ?_⟩⟩
    · simp only [RawMemory.add, hle, if_true]
    · have h1 : v.size_ ≤ other.data_.capacity_ := by omega
      simp only [RawMemory.add, h1, if_true]
    · simp only [RawMemory.add, hv, if_true]
  · intro xs h
    have hsz : v.size_ = xs.length := h.1
    refine ⟨?_, ?_, ?_, ?_, ?_, ?_, ?_, ?_⟩
    · rcases EmplaceBack_spec E F x v w xs h with ⟨v1, w1, e1, _⟩ | ⟨e, w1, e1, _⟩
      · exact Res.ok_ne_abort e1
      · exact Res.throw_ne_abort e1
    · rcases PushBack_spec E F x v w xs h with ⟨v1, w1, e1, _⟩ | ⟨e, w1, e1, _⟩
      · exact Res.ok_ne_abort e1
      · exact Res.throw_ne_abort e1
    · intro hp
      have hpe : pos = v.begin + (pos - v.data_.buffer_) := by
        simp only [Vector.begin, RawMemory.GetAddress]
        omega
      have key : (Vector.Emplace E F pos x v w).1 ≠ .abort := by
        rw [hpe]
        rcases Emplace_spec E F (pos - v.data_.buffer_) x v w xs h (by omega) with
          ⟨v1, w1, e1, _⟩ | ⟨e, w1, e1, _⟩
        · exact Res.ok_ne_abort e1
        · exact Res.throw_ne_abort e1
      exact ⟨key, key⟩
    · intro hp
      have hpe : pos = v.begin + (pos - v.data_.buffer_) := by
        simp only [Vector.begin, RawMemory.GetAddress]
        omega
      rw [hpe]
      obtain ⟨v1, w1, e1, _⟩ := Erase_spec E (pos - v.data_.buffer_) v w xs h (by omega)
      exact Res.ok_ne_abort e1
    · obtain ⟨v1, w1, e1, _⟩ := PopBack_spec v w xs h
      exact Res.ok_ne_abort e1
    · intro hfit
      rcases Reserve_spec E F n v w xs h (fun _ => World.not_wraps_of_fit hfit) with
        ⟨v1, w1, e1, _⟩ | ⟨e, w1, e1, _⟩
      · exact Res.ok_ne_abort e1
      · exact Res.throw_ne_abort e1
    · intro hfit
      rcases Resize_spec E F n v w xs h (fun _ => World.not_wraps_of_fit hfit) with
        ⟨v1, w1, e1, _⟩ | ⟨e, v1, w1, e1, _⟩
      · exact Res.ok_ne_abort e1
      · exact Res.throw_ne_abort e1
    · intro ys same hs hdisj
      exact operator_assign_no_abort F same v other w xs ys h hs hdisj

/-- Witness for C21: `[1,2,3,4,5]` at capacity, `Emplace(begin()+2, 99)` in which a relocating
copy throws; the call throws and does not abort. -/
theorem raw_memory_assertions_unreachable_witness :
    (demoVector 0).Size ≤ (demoVector 0).Capacity ∧ secondVector.Size ≤ secondVector.Capacity ∧
    Holds (demoVector 0) pairWorld [1, 2, 3, 4, 5] ∧
    ((demoVector 0).begin ≤ 3 ∧ 3 ≤ (demoVector 0).begin + (demoVector 0).Size) ∧
    (Vector.Emplace copyElem (throwAt 10) 3 99 (demoVector 0) pairWorld).1 ≠ .abort ∧
    (Vector.Emplace copyElem (throwAt 10) 3 99 (demoVector 0) pairWorld).1 = .throw .elem_ctor :=
  ⟨by decide, by decide, by decide, by decide,
    (((raw_memory_assertions_unreachable copyElem (throwAt 10) (demoVector 0) secondVector
      pairWorld 99 3 2 9 (by decide) (by decide)).2.2.2 [1, 2, 3, 4, 5]
      (by decide)).2.2.1 (by decide)).1,
    by decide⟩

/-! ## No reallocation after `Reserve` -/

theorem construct_at_nAlloc (F : Faults) (p : Nat) (x : T) (w : World T) :
    (construct_at F p x w).2.nAlloc = w.nAlloc := by
  unfold construct_at
  split_ifs <;> rfl

theorem construct_local_nAlloc (F : Faults) (x : T) (w : World T) :
    (construct_local F x w).2.nAlloc = w.nAlloc := by
  unfold construct_local
  split_ifs <;> rfl

theorem destroy_at_nAlloc (p : Nat) (w : World T) :
    (destroy_at p w).2.nAlloc = w.nAlloc := by
  unfold destroy_at
  split <;> rfl

theorem move_assign_nAlloc (E : ElemType T) (d s : Nat) (w : World T) :
    (move_assign E d s w).2.nAlloc = w.nAlloc := by
  unfold move_assign
  split <;> rfl

theorem move_assign_local_nAlloc (d : Nat) (x : T) (w : World T) :
    (move_assign_local d x w).2.nAlloc = w.nAlloc := by
  unfold move_assign_local
  split <;> rfl

theorem move_construct_at_nAlloc (E : ElemType T) (p s : Nat) (w : World T) :
    (move_construct_at E p s w).2.nAlloc = w.nAlloc := by
  unfold move_construct_at
  split_ifs
  · split <;> rfl
  · rfl

theorem destroy_n_nAlloc (n : Nat) : ∀ (p : Nat) (w : World T),
    (destroy_n p n w).2.nAlloc = w.nAlloc := by
  induction n with
  | zero => intro p w; rfl
  | succ n ih =>
    intro p w
    have h1 := destroy_at_nAlloc p w
    unfold destroy_n
    generalize destroy_at p w = r at h1
    obtain ⟨t, w1⟩ := r
    cases t with
    | ok a => dsimp only; rw [ih]; exact h1
    | throw e => exact h1
    | abort => exact h1

theorem uninitialized_move_n_nAlloc (E : ElemType T) (n : Nat) : ∀ (s d : Nat) (w : World T),
    (uninitialized_move_n E s n d w).2.nAlloc = w.nAlloc := by
  induction n with
  | zero => intro s d w; rfl
  | succ n ih =>
    intro s d w
    have h1 := move_construct_at_nAlloc E d s w
    unfold uninitialized_move_n
    generalize move_construct_at E d s w = r at h1
    obtain ⟨t, w1⟩ := r
    cases t with
    | ok a => dsimp only; rw [ih]; exact h1
    | throw e => exact h1
    | abort => exact h1

theorem move_n_nAlloc (E : ElemType T) (n : Nat) : ∀ (s d : Nat) (w : World T),
    (move_n E s n d w).2.nAlloc = w.nAlloc := by
  induction n with
  | zero => intro s d w; rfl
  | succ n ih =>
    intro s d w
    have h1 := move_assign_nAlloc E d s w
    unfold move_n
    generalize move_assign E d s w = r at h1
    obtain ⟨t, w1⟩ := r
    cases t with
    | ok a => dsimp only; rw [ih]; exact h1
    | throw e => exact h1
    | abort => exact h1

theorem move_backward_n_nAlloc (E : ElemType T) (n : Nat) : ∀ (l d : Nat) (w : World T),
    (move_backward_n E l n d w).2.nAlloc = w.nAlloc := by
  induction n with
  | zero => intro l d w; rfl
  | succ n ih =>
    intro l d w
    have h1 := move_assign_nAlloc E (d - 1) (l - 1) w
    unfold move_backward_n
    generalize move_assign E (d - 1) (l - 1) w = r at h1
    obtain ⟨t, w1⟩ := r
    cases t with
    | ok a => dsimp only; rw [ih]; exact h1
    | throw e => exact h1
    | abort => exact h1

theorem uninitialized_value_construct_n_nAlloc (E : ElemType T) (F : Faults) (n : Nat) :
    ∀ (p : Nat) (w : World T),
    (uninitialized_value_construct_n E F p n w).2.nAlloc = w.nAlloc := by
  induction n with
  | zero => intro p w; rfl
  | succ n ih =>
    intro p w
    have h1 := construct_at_nAlloc F p E.value_init w
    unfold uninitialized_value_construct_n
    generalize construct_at F p E.value_init w = r at h1
    obtain ⟨t, w1⟩ := r
    cases t with
    | ok a =>
      dsimp only
      have h2 := ih (p + 1) w1
      generalize uninitialized_value_construct_n E F (p + 1) n w1 = r2 at h2
      obtain ⟨t2, w2⟩ := r2
      cases t2 with
      | ok a => dsimp only; rw [h2]; exact h1
      | throw e => dsimp only; rw [destroy_at_nAlloc, h2]; exact h1
      | abort => dsimp only; rw [h2]; exact h1
    | throw e => exact h1
    | abort => exact h1

theorem EmplaceBack_keeps (E : ElemType T) (F : Faults) (x : T) (v : Vector) (w : World T)
    (hlt : v.size_ < v.data_.capacity_) :
    (Vector.EmplaceBack E F x v w).2.1.data_ = v.data_ ∧
    (Vector.EmplaceBack E F x v w).2.2.nAlloc = w.nAlloc := by
  have hne : ¬ v.size_ = v.data_.capacity_ := by omega
  have hle : v.size_ ≤ v.data_.capacity_ := by omega
  simp only [Vector.EmplaceBack, Vector.Capacity, RawMemory.Capacity, hne, if_false,
    RawMemory.add, hle, if_true]
  have h1 := construct_at_nAlloc F (v.data_.buffer_ + v.size_) x w
  generalize construct_at F (v.data_.buffer_ + v.size_) x w = r at h1
  obtain ⟨t, w1⟩ := r
  cases t <;> exact ⟨rfl, h1⟩

theorem PopBack_keeps (v : Vector) (w : World T) :
    (Vector.PopBack v w).2.1.data_ = v.data_ ∧ (Vector.PopBack v w).2.2.nAlloc = w.nAlloc := by
  unfold Vector.PopBack
  split_ifs
  · have h1 := destroy_at_nAlloc (v.data_.GetAddress + v.size_ - 1) w
    generalize destroy_at (v.data_.GetAddress + v.size_ - 1) w = r at h1
    obtain ⟨t, w1⟩ := r
    cases t <;> exact ⟨rfl, h1⟩
  · exact ⟨rfl, rfl⟩

theorem Erase_keeps (E : ElemType T) (pos : Nat) (v : Vector) (w : World T) :
    (Vector.Erase E pos v w).2.1.data_ = v.data_ ∧
    (Vector.Erase E pos v w).2.2.nAlloc = w.nAlloc := by
  unfold Vector.Erase
  split
  · rename_i e _
    split_ifs
    · dsimp only
      have h1 := move_n_nAlloc E (e - (v.begin + (pos - v.begin) + 1))
        (v.begin + (pos - v.begin) + 1) (v.begin + (pos - v.begin)) w
      unfold std_move
      generalize move_n E (v.begin + (pos - v.begin) + 1)
        (e - (v.begin + (pos - v.begin) + 1)) (v.begin + (pos - v.begin)) w = r at h1
      obtain ⟨t, w1⟩ := r
      cases t with
      | ok a =>
        dsimp only
        have h2 := PopBack_keeps v w1
        generalize Vector.PopBack v w1 = r2 at h2
        obtain ⟨t2, v2, w2⟩ := r2
        cases t2 <;> exact ⟨h2.1, by rw [h2.2]; exact h1⟩
      | throw e => exact ⟨rfl, h1⟩
      | abort => exact ⟨rfl, h1⟩
    · exact ⟨rfl, rfl⟩
  · exact ⟨rfl, rfl⟩
  · exact ⟨rfl, rfl⟩

theorem Resize_keeps (E : ElemType T) (F : Faults) (k : Nat) (v : Vector) (w : World T)
    (hk : k ≤ v.data_.capacity_) :
    (Vector.Resize E F k v w).2.1.data_ = v.data_ ∧
    (Vector.Resize E F k v w).2.2.nAlloc = w.nAlloc := by
  unfold Vector.Resize
  split_ifs
  · have hres : Vector.Reserve E F k v w = (.ok (), v, w) := by
      simp only [Vector.Reserve, RawMemory.Capacity, hk, if_true]
    rw [hres]
    dsimp only
    have h1 := uninitialized_value_construct_n_nAlloc E F (k - v.size_)
      (v.data_.GetAddress + v.size_) w
    generalize uninitialized_value_construct_n E F (v.data_.GetAddress + v.size_)
      (k - v.size_) w = r at h1
    obtain ⟨t, w1⟩ := r
    cases t <;> exact ⟨rfl, h1⟩
  · have h1 := destroy_n_nAlloc (v.size_ - k) (v.data_.GetAddress + k) w
    generalize destroy_n (v.data_.GetAddress + k) (v.size_ - k) w = r at h1
    obtain ⟨t, w1⟩ := r
    cases t <;> exact ⟨rfl, h1⟩

theorem Emplace_keeps (E : ElemType T) (F : Faults) (pos : Nat) (x : T) (v : Vector)
    (w : World T) (hlt : v.size_ < v.data_.capacity_) :
    (Vector.Emplace E F pos x v w).2.1.data_ = v.data_ ∧
    (Vector.Emplace E F pos x v w).2.2.nAlloc = w.nAlloc := by
  have hne : ¬ v.size_ = v.Capacity := by
    simp only [Vector.Capacity, RawMemory.Capacity]
    omega
  unfold Vector.Emplace
  split
  · rename_i e _
    by_cases hr : v.begin ≤ pos ∧ pos ≤ e
    · by_cases hpe : pos = e
      · subst hpe
        simp only [hr, and_self, if_true]
        exact EmplaceBack_keeps E F x v w hlt
      · simp only [hr, hpe, hne, and_self, if_true, if_false]
        have h1 : (construct_local F x w).2.nAlloc = w.nAlloc := construct_local_nAlloc F x w
        generalize construct_local F x w = r1 at h1
        obtain ⟨t1, w1⟩ := r1
        replace h1 : w1.nAlloc = w.nAlloc := h1
        cases t1 with
        | ok temporary =>
          dsimp only
          have h2 : (uninitialized_move_n E (e - 1) 1 e w1).2.nAlloc = w1.nAlloc :=
            uninitialized_move_n_nAlloc E 1 (e - 1) e w1
          generalize uninitialized_move_n E (e - 1) 1 e w1 = r2 at h2
          obtain ⟨t2, w2⟩ := r2
          replace h2 : w2.nAlloc = w.nAlloc := h2.trans h1
          cases t2 with
          | ok a =>
            dsimp only
            have h3 : (move_backward E pos (e - 1) e w2).2.nAlloc = w2.nAlloc :=
              move_backward_n_nAlloc E (e - 1 - pos) (e - 1) e w2
            generalize move_backward E pos (e - 1) e w2 = r3 at h3
            obtain ⟨t3, w3⟩ := r3
            replace h3 : w3.nAlloc = w.nAlloc := h3.trans h2
            cases t3 with
            | ok a =>
              dsimp only
              have h4 : (move_assign_local pos temporary w3).2.nAlloc = w3.nAlloc :=
                move_assign_local_nAlloc pos temporary w3
              generalize move_assign_local pos temporary w3 = r4 at h4
              obtain ⟨t4, w4⟩ := r4
              replace h4 : w4.nAlloc = w.nAlloc := h4.trans h3
              cases t4 <;> exact ⟨rfl, h4⟩
            | throw ex => exact ⟨rfl, h3⟩
            | abort => exact ⟨rfl, h3⟩
          | throw ex => exact ⟨rfl, h2⟩
          | abort => exact ⟨rfl, h2⟩
        | throw ex => exact ⟨rfl, h1⟩
        | abort => exact ⟨rfl, h1⟩
    · simp only [hr, if_false]
      exact ⟨trivial, trivial⟩
  · exact ⟨rfl, rfl⟩
  · exact ⟨rfl, rfl⟩

theorem Reserve_ok_capacity (E : ElemType T) (F : Faults) (n : Nat) (v0 v : Vector)
    (w0 w : World T) (hres : Vector.Reserve E F n v0 w0 = (.ok (), v, w)) :
    n ≤ v.data_.capacity_ := by
  have key : (Vector.Reserve E F n v0 w0).1 = .ok () →
      n ≤ (Vector.Reserve E F n v0 w0).2.1.data_.capacity_ := by
    unfold Vector.Reserve
    split
    · rename_i hle
      exact fun _ => hle
    · split
      · rename_i new_data w1 hc
        have hcap := RawMemory.ctor_capacity F n w0 new_data w1 hc
        split
        · split
          · intro _
            simp only [RawMemory.Swap, hcap]
            omega
          · exact fun hh => by cases hh
          · exact fun hh => by cases hh
        · exact fun hh => by cases hh
        · exact fun hh => by cases hh
      · exact fun hh => by cases hh
      · exact fun hh => by cases hh
  rw [hres] at key
  exact key rfl

theorem Mutation.step_keeps_buffer (E : ElemType T) (F : Faults) (m : Mutation T) (n : Nat)
    (v : Vector) (w : World T) (hcap : n ≤ v.data_.capacity_) (ht : m.target v.Size ≤ n) :
    (m.apply E F v w).2.1.data_ = v.data_ ∧ (m.apply E F v w).2.2.nAlloc = w.nAlloc := by
  cases m with
  | PushBack x =>
    simp only [Mutation.target, Vector.Size] at ht
    have h := EmplaceBack_keeps E F x v w (by omega)
    simp only [Mutation.apply, Vector.PushBack]
    generalize Vector.EmplaceBack E F x v w = r at h
    obtain ⟨t, v1, w1⟩ := r
    cases t <;> exact h
  | EmplaceBack x =>
    simp only [Mutation.target, Vector.Size] at ht
    exact EmplaceBack_keeps E F x v w (by omega)
  | PopBack => exact PopBack_keeps v w
  | Emplace i x =>
    simp only [Mutation.target, Vector.Size] at ht
    exact Emplace_keeps E F (v.begin + i) x v w (by omega)
  | Insert i x =>
    simp only [Mutation.target, Vector.Size] at ht
    exact Emplace_keeps E F (v.begin + i) x v w (by omega)
  | Erase i => exact Erase_keeps E (v.begin + i) v w
  | Resize k =>
    simp only [Mutation.target] at ht
    exact Resize_keeps E F k v w (by omega)

theorem trace_keeps_buffer (E : ElemType T) (F : Faults) (n : Nat) (ops : List (Mutation T)) :
    ∀ (v : Vector) (w : World T), n ≤ v.data_.capacity_ →
    (∀ k, k ∈ targets E F ops v w → k ≤ n) →
    ∀ s, s ∈ trace E F ops v w → s.2.1.data_ = v.data_ ∧ s.2.2.nAlloc = w.nAlloc := by
  induction ops with
  | nil =>
    intro v w _ _ s hs
    simp [trace] at hs
  | cons m ms ih =>
    intro v w hcap hrun s hs
    simp only [targets, List.mem_cons] at hrun
    simp only [trace, List.mem_cons] at hs
    obtain ⟨hd, hna⟩ := Mutation.step_keeps_buffer E F m n v w hcap (hrun _ (Or.inl rfl))
    rcases hs with hs | hs
    · rw [hs]
      exact ⟨hd, hna⟩
    · have := ih (m.apply E F v w).2.1 (m.apply E F v w).2.2 (by rw [hd]; exact hcap)
        (fun k hk => hrun k (Or.inr hk)) s hs
      rw [hd, hna] at this
      exact this

/-- A call that returns normally leaves the size it aims at. -/
theorem Mutation.target_of_ok (E : ElemType T) (F : Faults) (m : Mutation T) (v : Vector)
    (w : World T) (xs : List T) (h : Holds v w xs) (hok : (m.apply E F v w).1 = .ok ()) :
    (m.apply E F v w).2.1.Size = m.target v.Size := by
  have hvs : v.size_ = xs.length := h.1
  cases m with
  | PushBack x =>
    simp only [Mutation.apply, Mutation.target, Vector.Size] at hok ⊢
    rcases PushBack_spec E F x v w xs h with ⟨v1, w1, e1, hH, _⟩ | ⟨e, w1, e1, _⟩
    · rw [e1]
      have hlen := hH.1
      simp only [List.length_append, List.length_singleton] at hlen
      simp only
      omega
    · rw [e1] at hok
      cases hok
  | EmplaceBack x =>
    simp only [Mutation.apply, Mutation.target, Vector.Size] at hok ⊢
    rcases EmplaceBack_spec E F x v w xs h with ⟨v1, w1, e1, hH, _⟩ | ⟨e, w1, e1, _⟩
    · rw [e1]
      have hlen := hH.1
      simp only [List.length_append, List.length_singleton] at hlen
      simp only
      omega
    · rw [e1] at hok
      cases hok
  | PopBack =>
    simp only [Mutation.apply, Mutation.target, Vector.Size] at hok ⊢
    obtain ⟨v1, w1, e1, hH, _⟩ := PopBack_spec v w xs h
    rw [e1]
    have hlen := hH.1
    simp only [List.length_dropLast] at hlen
    simp only
    omega
  | Emplace i x =>
    simp only [Mutation.apply, Mutation.target, Vector.Size] at hok ⊢
    by_cases hi : i ≤ xs.length
    · rcases Emplace_spec E F i x v w xs h hi with ⟨v1, w1, e1, hH, _⟩ | ⟨e, w1, e1, _⟩
      · rw [e1]
        have hlen := hH.1
        simp only [List.length_append, List.length_take, List.length_cons,
          List.length_drop] at hlen
        simp only
        omega
      · rw [e1] at hok
        cases hok
    · rw [Emplace_abort E F x i v w (by omega)] at hok
      cases hok
  | Insert i x =>
    simp only [Mutation.apply, Mutation.target, Vector.Size, Vector.Insert] at hok ⊢
    by_cases hi : i ≤ xs.length
    · rcases Emplace_spec E F i x v w xs h hi with ⟨v1, w1, e1, hH, _⟩ | ⟨e, w1, e1, _⟩
      · rw [e1]
        have hlen := hH.1
        simp only [List.length_append, List.length_take, List.length_cons,
          List.length_drop] at hlen
        simp only
        omega
      · rw [e1] at hok
        cases hok
    · rw [Emplace_abort E F x i v w (by omega)] at hok
      cases hok
  | Erase i =>
    simp only [Mutation.apply, Mutation.target, Vector.Size] at hok ⊢
    by_cases hi : i < xs.length
    · obtain ⟨v1, w1, e1, hH, _⟩ := Erase_spec E i v w xs h hi
      rw [e1]
      have hlen := hH.1
      simp only [List.length_append, List.length_take, List.length_drop] at hlen
      simp only
      omega
    · rw [Erase_abort E i v w (by omega)] at hok
      cases hok
  | Resize k =>
    simp only [Mutation.apply, Mutation.target, Vector.Size] at hok ⊢
    revert hok
    unfold Vector.Resize
    split_ifs
    · generalize Vector.Reserve E F k v w = r
      obtain ⟨t, v1, w1⟩ := r
      cases t with
      | ok a =>
        dsimp only
        generalize uninitialized_value_construct_n E F (v1.data_.GetAddress + v1.size_)
          (k - v1.size_) w1 = r2
        obtain ⟨t2, w2⟩ := r2
        cases t2 with
        | ok a => exact fun _ => rfl
        | throw e => exact fun hh => by cases hh
        | abort => exact fun hh => by cases hh
      | throw e => exact fun hh => by cases hh
      | abort => exact fun hh => by cases hh
    · generalize destroy_n (v.data_.GetAddress + k) (v.size_ - k) w = r
      obtain ⟨t, w1⟩ := r
      cases t with
      | ok a => exact fun _ => rfl
      | throw e => exact fun hh => by cases hh
      | abort => exact fun hh => by cases hh

/-- Claim C6, amended. After `Reserve(n)` has returned, for every sequence of element-mutating
calls (`PushBack`, `EmplaceBack`, `PopBack`, `Emplace`, `Insert`, `Erase`, `Resize`) in which the
size each call aims at (the size the vector has when that call returns normally) is at most `n`:
after every call, whether it returned normally or threw, the buffer address (`begin()`, the
address of element 0) and the capacity are those right after the `Reserve`, and no allocation has
been attempted, so no call took a growth branch. -/
theorem no_reallocation_after_reserve (E : ElemType T) (F : Faults) (n : Nat)
    (ops : List (Mutation T)) (v0 : Vector) (w0 : World T) (v : Vector) (w : World T)
    (hres : Vector.Reserve E F n v0 w0 = (.ok (), v, w))
    (hrun : ∀ k, k ∈ targets E F ops v w → k ≤ n) :
    ∀ s, s ∈ trace E F ops v w →
      s.2.1.begin = v.begin ∧ s.2.1.Capacity = v.Capacity ∧ s.2.2.nAlloc = w.nAlloc := by
  have hcap := Reserve_ok_capacity E F n v0 v w0 w hres
  intro s hs
  obtain ⟨hd, hna⟩ := trace_keeps_buffer E F n ops v w hcap hrun s hs
  simp only [Vector.begin, Vector.Capacity, hd, hna, and_self]

/-- Witness for C6: after `Reserve(8)` on `[1,2,3,4,5]`, a run of eight mutations that aims at no
more than `8` elements, and whose `Resize(8)` throws while value-constructing its second element,
keeps the buffer at its address with capacity `8`. -/
theorem no_reallocation_after_reserve_witness :
    Holds (demoVector 0) (demoWorld 0) [1, 2, 3, 4, 5] ∧
    (Vector.Reserve copyElem (throwAt 12) 8 (demoVector 0) (demoWorld 0)).1 = .ok () ∧
    (trace copyElem (throwAt 12)
        [.PushBack 6, .Resize 8, .Insert 0 7, .EmplaceBack 8, .Erase 3, .PopBack, .Emplace 2 9,
          .Resize 1]
        (Vector.Reserve copyElem (throwAt 12) 8 (demoVector 0) (demoWorld 0)).2.1
        (Vector.Reserve copyElem (throwAt 12) 8 (demoVector 0) (demoWorld 0)).2.2).map
      (fun s => (s.1, s.2.1.Size)) =
      [(.ok (), 6), (.throw .elem_ctor, 6), (.ok (), 7), (.ok (), 8), (.ok (), 7), (.ok (), 6),
        (.ok (), 7), (.ok (), 1)] ∧
    ∀ s, s ∈ trace copyElem (throwAt 12)
        [.PushBack 6, .Resize 8, .Insert 0 7, .EmplaceBack 8, .Erase 3, .PopBack, .Emplace 2 9,
          .Resize 1]
        (Vector.Reserve copyElem (throwAt 12) 8 (demoVector 0) (demoWorld 0)).2.1
        (Vector.Reserve copyElem (throwAt 12) 8 (demoVector 0) (demoWorld 0)).2.2 →
      s.2.1.begin = 6 ∧ s.2.1.Capacity = 8 ∧ s.2.2.nAlloc = 2 := by
  refine ⟨by decide, by decide, by decide, ?_⟩
  exact no_reallocation_after_reserve copyElem (throwAt 12) 8 _ (demoVector 0) (demoWorld 0)
    _ _ (eq_of_fst _ _ (by decide)) (by decide)

/-- Counterexample to C6 as stated: on `[1,2,3,4,5]` with capacity `5`, `Reserve(5)` returns and
changes nothing; the following `Resize(8)` grows the buffer and then throws while
value-constructing its second new element. The size after that step is still `5`, which does not
exceed `5`, yet the step has reallocated: the buffer has moved from address `1` to address `6`,
the capacity is `8`, and an allocation has been made. -/
theorem no_reallocation_after_reserve_counterexample :
    Holds (demoVector 0) (demoWorld 0) [1, 2, 3, 4, 5] ∧
    (Vector.Reserve copyElem (throwAt 11) 5 (demoVector 0) (demoWorld 0)).1 = .ok () ∧
    (Vector.Reserve copyElem (throwAt 11) 5 (demoVector 0) (demoWorld 0)).2.1.begin = 1 ∧
    (Vector.Reserve copyElem (throwAt 11) 5 (demoVector 0) (demoWorld 0)).2.1.Capacity = 5 ∧
    (Vector.Reserve copyElem (throwAt 11) 5 (demoVector 0) (demoWorld 0)).2.2.nAlloc = 1 ∧
    (trace copyElem (throwAt 11) [.Resize 8]
        (Vector.Reserve copyElem (throwAt 11) 5 (demoVector 0) (demoWorld 0)).2.1
        (Vector.Reserve copyElem (throwAt 11) 5 (demoVector 0) (demoWorld 0)).2.2).map
      (fun s => (s.1, s.2.1.Size, s.2.1.begin, s.2.1.Capacity, s.2.2.nAlloc)) =
      [(.throw .elem_ctor, 5, 6, 8, 2)] := by
  refine ⟨by decide, by decide, by decide, by decide, by decide, by decide⟩

end AdvancedVector
